import Mathlib

/-!
# Verification of the QOLE QMDD quantum-circuit simulator core

Shallow embedding of the TypeScript sources of QOLE (exact complex table
`complex.ts`, QMDD engine `qmdd.ts`, circuit facade `circuit.ts`) and proofs
about the embedded definitions.

Modelling conventions:
* JavaScript numbers holding integers are modelled as `Int` (all values used by
  the engine stay far below 2^53, where JS doubles are exact).
* JavaScript `%` (truncated remainder, sign of the dividend) is `jsMod`; the
  repository's Euclidean `gcd` over possibly-negative inputs is `gcd2`/`gcd5`.
* Interned tables (`Complex.i2complex`, the `QMDD` vertex table and the four
  operation caches) are association lists inside one explicit state `St`;
  a "complex index" or node "id" is a position in the corresponding list, which
  matches the monotone id counters of the source.
* Thrown exceptions are `Except Err`; each constructor of `Err` corresponds to
  one `throw new Error(...)` site of the source.
* Values of the form `p + q*sqrt 2` (the exact real/imaginary parts and squared
  magnitudes of table entries) are represented by pairs `ℚ × ℚ`.
* Unbounded recursion of the source (the QMDD `add`/`multiply` recursion and
  the DFS loops) is given an explicit fuel parameter; running out of fuel is
  the distinguished error `Err.fuel`, which never occurs on the concrete runs
  proved below.
-/

set_option maxHeartbeats 2000000
set_option maxRecDepth 200000
set_option linter.unusedVariables false

namespace QOLE

/-- JavaScript `%`: truncated remainder, sign follows the dividend. -/
def jsMod (a b : Int) : Int := a.sign * ((a.natAbs % b.natAbs : Nat) : Int)

/-- The loop `while (b) [a, b] = [b, a % b]` with an explicit iteration bound.
Each pass strictly shrinks `|b|` (`|a % b| = |a| mod |b| < |b|`), so a bound of
`|b| + 1` iterations is never reached; structural recursion keeps the function
kernel-reducible. -/
def gcd2Fuel : Nat → Int → Int → Int
  | 0, a, _ => a
  | f + 1, a, b => if b = 0 then a else gcd2Fuel f b (jsMod a b)

/-- One step of the repository's `gcd` reducer:
`(a, b) => { while (b) [a, b] = [b, a % b]; return a; }`. -/
def gcd2 (a b : Int) : Int := gcd2Fuel (b.natAbs + 1) a b

/-- The repository's `gcd(...nums)` applied to the five tuple components
(a left fold of `gcd2` seeded with the first element). -/
def gcd5 (a b c d e : Int) : Int := gcd2 (gcd2 (gcd2 (gcd2 a b) c) d) e

/-- The five-integer exact complex representation
`((A + B/sqrt 2) + (C + D/sqrt 2) i) / E` of `complex.ts`. -/
structure CT where
  a : Int
  b : Int
  c : Int
  d : Int
  e : Int
deriving DecidableEq, Repr

/-- The canonical form computed by the `Complex` constructor: every component
divided by the (sign-carrying) `gcd` of all five. -/
def canon (t : CT) : CT :=
  let f := gcd5 t.a t.b t.c t.d t.e
  ⟨t.a.tdiv f, t.b.tdiv f, t.c.tdiv f, t.d.tdiv f, t.e.tdiv f⟩

/-- An edge of the QMDD: destination node id and complex-index weight. -/
structure Ed where
  dest : Nat
  weight : Nat
deriving DecidableEq, Repr

/-- A QMDD vertex: selection variable, outgoing edges, selection probability
(the probability is an exact `p + q*sqrt 2` pair; the source stores a float). -/
structure Nd where
  vr : Int
  edges : List Ed
  prob : ℚ × ℚ
deriving DecidableEq, Repr

/-- The shared mutable state of one simulation session: the interned complex
table, the three complex-operation caches, the vertex store and the two QMDD
operation caches. -/
structure St where
  cxs : List CT
  sums : List ((Nat × Nat) × Nat)
  prods : List (List Nat × Nat)
  quots : List ((Nat × Nat) × Nat)
  nodes : List Nd
  nsums : List ((Nat × Nat × Nat × Nat) × Ed)
  nprods : List ((Nat × Nat × Nat × Nat) × Ed)
deriving DecidableEq, Repr

/-- Every `throw` site of the embedded sources. -/
inductive Err where
  | divByZero
  | oob
  | empty
  | fuel
  | zeroEdge
  | terminalEdge
  | tooMany
  | outOfBounds
  | duplicate
  | unequal
  | badCtrlChar
  | badPrecision
  | badShots
  | badWidth
  | internalNorm
deriving DecidableEq, Repr

/-- Association-list lookup standing in for the `Map.get` of the caches. -/
def look {κ β : Type} [DecidableEq κ] : List (κ × β) → κ → Option β
  | [], _ => none
  | (k, v) :: t, q => if k = q then some v else look t q

/-- `Complex.has(index)` (index validity). -/
def hasC (s : St) (i : Nat) : Prop := i < s.cxs.length

instance (s : St) (i : Nat) : Decidable (hasC s i) := by unfold hasC; infer_instance

/-- Fetch an interned tuple (total; ids produced by the engine are valid). -/
def getC (s : St) (i : Nat) : CT := s.cxs.getD i ⟨0, 0, 0, 0, 1⟩

/-- The `Complex` constructor: reject a zero denominator, canonicalize, then
hash-cons into the table, returning the (existing or fresh) index. -/
def internC (s : St) (t : CT) : Except Err (St × Nat) :=
  if t.e = 0 then .error .divByZero
  else
    let ct := canon t
    match s.cxs.findIdx? (fun x => x = ct) with
    | some i => .ok (s, i)
    | none => .ok ({ s with cxs := s.cxs ++ [ct] }, s.cxs.length)

/-- Raw tuple of `Complex.prototype.add`. -/
def addT (x y : CT) : CT :=
  ⟨x.e * y.a + y.e * x.a,
   x.e * y.b + y.e * x.b,
   x.e * y.c + y.e * x.c,
   x.e * y.d + y.e * x.d,
   x.e * y.e⟩

/-- Raw tuple of `Complex.prototype.mul`. -/
def mulT (x y : CT) : CT :=
  ⟨2 * x.a * y.a + y.b * x.b - 2 * x.c * y.c - y.d * x.d,
   2 * (x.a * y.b + y.a * x.b - x.c * y.d - y.c * x.d),
   2 * x.a * y.c + 2 * y.a * x.c + x.b * y.d + y.b * x.d,
   2 * (x.a * y.d + y.a * x.d + x.b * y.c + y.b * x.c),
   2 * x.e * y.e⟩

/-- Raw tuple of `Complex.prototype.div` (including the source's `temp4` term
`this.D * other.D`, translated verbatim). -/
def divT (x y : CT) : CT :=
  let t1 := 2 * (y.a * y.a + y.c * y.c) + y.b * y.b + y.d * y.d
  let t2 := y.a * y.b + y.c * y.d
  let t3 := 2 * (x.a * y.a + x.c * y.c) + x.b * y.b + x.d * y.d
  let t4 := 2 * (x.a * y.b + x.b * y.a + x.c * y.d + x.d * y.d)
  let t5 := 2 * (x.c * y.a - x.a * y.c) + x.d * y.b - x.b * y.d
  let t6 := 2 * (x.c * y.b + x.d * y.a - x.a * y.d - x.b * y.c)
  ⟨y.e * (t1 * t3 - 2 * t2 * t4),
   y.e * (t1 * t4 - 4 * t2 * t3),
   y.e * (t1 * t5 - 2 * t2 * t6),
   y.e * (t1 * t6 - 4 * t2 * t5),
   x.e * (t1 * t1 - 8 * t2 * t2)⟩

/-- Core of `Complex.add(first, second)` after the commutative swap
(`first <= second` here). -/
def addCore (s : St) (i j : Nat) : Except Err (St × Nat) :=
  if ¬ (hasC s i ∧ hasC s j) then .error .oob
  else
    match look s.sums (i, j) with
    | some v => .ok (s, v)
    | none =>
      if i = 0 then .ok ({ s with sums := ((i, j), j) :: s.sums }, j)
      else
        match internC s (addT (getC s i) (getC s j)) with
        | .error er => .error er
        | .ok (s', r) => .ok ({ s' with sums := ((i, j), r) :: s'.sums }, r)

/-- `Complex.add` (static): sort the two indices, then `addCore`. -/
def addS (s : St) (i j : Nat) : Except Err (St × Nat) :=
  if i > j then addCore s j i else addCore s i j

/-- One `prod = prod.mul(Complex.i2complex[i])` step of the `Complex.mul` fold,
with the instance-level trivial-case short circuits. -/
def mulInst (s : St) (acc j : Nat) : Except Err (St × Nat) :=
  if acc = 0 ∨ j = 1 then .ok (s, acc)
  else if j = 0 ∨ acc = 1 then .ok (s, j)
  else internC s (mulT (getC s acc) (getC s j))

/-- The left fold of `Complex.mul` over the remaining operands. -/
def mulFold (s : St) (acc : Nat) : List Nat → Except Err (St × Nat)
  | [] => .ok (s, acc)
  | j :: t =>
    match mulInst s acc j with
    | .error er => .error er
    | .ok (s', a') => mulFold s' a' t

/-- `Complex.mul(...indices)` (static, variadic): cache keyed on the sorted
operand list, computed by folding the instance multiplication in the given
operand order. -/
def mulS (s : St) (is : List Nat) : Except Err (St × Nat) :=
  match is with
  | [] => .error .empty
  | i0 :: rest =>
    if (i0 :: rest).any (fun i => ¬ i < s.cxs.length) then .error .oob
    else
      let key := List.insertionSort (· ≤ ·) (i0 :: rest)
      match look s.prods key with
      | some v => .ok (s, v)
      | none =>
        match mulFold s i0 rest with
        | .error er => .error er
        | .ok (s', p) => .ok ({ s' with prods := (key, p) :: s'.prods }, p)

/-- `Complex.div(numerator, denominator)` (static), with the instance-level
short circuits inlined. -/
def divS (s : St) (n d : Nat) : Except Err (St × Nat) :=
  if ¬ (hasC s n ∧ hasC s d) then .error .oob
  else
    match look s.quots (n, d) with
    | some v => .ok (s, v)
    | none =>
      if d = 0 then .error .divByZero
      else if n = 0 ∨ d = 1 then .ok ({ s with quots := ((n, d), n) :: s.quots }, n)
      else if n = d then .ok ({ s with quots := ((n, d), 1) :: s.quots }, 1)
      else
        match internC s (divT (getC s n) (getC s d)) with
        | .error er => .error er
        | .ok (s', q) => .ok ({ s' with quots := ((n, d), q) :: s'.quots }, q)

/-- Exact real part `(A + B/sqrt 2)/E` as a `p + q*sqrt 2` pair. -/
def reT (t : CT) : ℚ × ℚ := ((t.a : ℚ) / (t.e : ℚ), (t.b : ℚ) / (2 * (t.e : ℚ)))

/-- Exact imaginary part `(C + D/sqrt 2)/E` as a `p + q*sqrt 2` pair. -/
def imT (t : CT) : ℚ × ℚ := ((t.c : ℚ) / (t.e : ℚ), (t.d : ℚ) / (2 * (t.e : ℚ)))

/-- Modelled from the spec: `mag2(i)` (the squared magnitude of a table entry;
the file `src/complex.ts` providing `mag2`/`argmax` is not in the sources, only
`part_003`, its earlier revision, its tests and its QMDD callers are).
Exactly, `|z|^2 = (2A^2+B^2+2C^2+D^2)/(2E^2) + ((AB+CD)/E^2) * sqrt 2`. -/
def mag2T (t : CT) : ℚ × ℚ :=
  (((2 * t.a ^ 2 + t.b ^ 2 + 2 * t.c ^ 2 + t.d ^ 2 : Int) : ℚ) / (2 * (t.e : ℚ) ^ 2),
   ((t.a * t.b + t.c * t.d : Int) : ℚ) / ((t.e : ℚ) ^ 2))

/-- Decision procedure for `0 < a + b * sqrt 2` over `ℚ × ℚ`. -/
def qPos (x : ℚ × ℚ) : Bool :=
  if 0 ≤ x.1 then
    (if 0 ≤ x.2 then decide (0 < x.1) || decide (0 < x.2)
     else decide (2 * x.2 ^ 2 < x.1 ^ 2))
  else
    (if 0 ≤ x.2 then decide (x.1 ^ 2 < 2 * x.2 ^ 2) else false)

/-- `x < y` for `p + q*sqrt 2` pairs. -/
def qLt (x y : ℚ × ℚ) : Bool := qPos (y.1 - x.1, y.2 - x.2)

/-- Addition of `p + q*sqrt 2` pairs. -/
def qAdd (x y : ℚ × ℚ) : ℚ × ℚ := (x.1 + y.1, x.2 + y.2)

/-- Multiplication of `p + q*sqrt 2` pairs. -/
def qMul (x y : ℚ × ℚ) : ℚ × ℚ := (x.1 * y.1 + 2 * x.2 * y.2, x.1 * y.2 + x.2 * y.1)

/-- Multiplicative inverse of a `p + q*sqrt 2` pair. -/
def qInv (x : ℚ × ℚ) : ℚ × ℚ :=
  (x.1 / (x.1 ^ 2 - 2 * x.2 ^ 2), -x.2 / (x.1 ^ 2 - 2 * x.2 ^ 2))

/-- Division of `p + q*sqrt 2` pairs. -/
def qDiv (x y : ℚ × ℚ) : ℚ × ℚ := qMul x (qInv y)

/-- The fold of `argmax` keeping the first element of maximal squared
magnitude. -/
def argmaxFold (s : St) (best : Nat) : List Nat → Nat
  | [] => best
  | w :: t => argmaxFold s (if qLt (mag2T (getC s best)) (mag2T (getC s w)) then w else best) t

/-- Modelled from the spec: `Complex.argmax(indices)` returns the first index
whose entry has maximal squared magnitude; it fails on an empty list and on
out-of-range indices (per `complex.test.ts`). -/
def argmaxC (s : St) (ws : List Nat) : Except Err Nat :=
  match ws with
  | [] => .error .empty
  | w :: rest =>
    if (w :: rest).any (fun i => ¬ i < s.cxs.length) then .error .oob
    else .ok (argmaxFold s w rest)

/-- Fetch a vertex by id (total; ids produced by the engine are valid). -/
def getN (s : St) (i : Nat) : Nd := s.nodes.getD i ⟨0, [], (1, 0)⟩

/-- Lookup in the unique vertex table: the key of `QMDD.toString()` is the pair
(variable, outgoing edges), so the map is represented by searching the store. -/
def findNode (s : St) (vr : Int) (es : List Ed) : Option Nat :=
  s.nodes.findIdx? (fun n => n.vr = vr ∧ n.edges = es)

/-- `QMDD.createTerminal(width)`. -/
def createTerminal (s : St) (width : Nat) : St × Nat :=
  match findNode s (width : Int) [] with
  | some i => (s, i)
  | none => ({ s with nodes := s.nodes ++ [⟨(width : Int), [], (1, 0)⟩] }, s.nodes.length)

/-- `QMDD.isTrivial()`: a matrix vertex whose diagonal edges share destination
and (nonzero) weight while the off-diagonal edges are zero edges. Vector
vertices (2 edges) and the terminal are never trivial. -/
def isTrivial (n : Nd) : Bool :=
  match n.edges with
  | [e0, e1, e2, e3] =>
    e0.weight = e3.weight ∧ e0.dest = e3.dest ∧ e0.weight ≠ 0 ∧
    e1.weight = e2.weight ∧ e1.weight = 0
  | _ => false

/-- `QMDD.isRedundant()`: a matrix vertex all of whose edges agree. -/
def isRedundant (n : Nd) : Bool :=
  match n.edges with
  | [e0, e1, e2, e3] => e1 = e0 ∧ e2 = e0 ∧ e3 = e0
  | _ => false

/-- The division fold of `QMDD.normalize`: divide every edge weight by the
common factor, threading the complex-table state through `Complex.div`. -/
def normDivFold (s : St) (factor : Nat) : List Ed → Except Err (St × List Ed)
  | [] => .ok (s, [])
  | e :: t =>
    match divS s e.weight factor with
    | .error er => .error er
    | .ok (s', w') =>
      match normDivFold s' factor t with
      | .error er => .error er
      | .ok (s'', t') => .ok (s'', ⟨e.dest, w'⟩ :: t')

/-- The selection probability assigned to a freshly normalized vector vertex:
`edges[0].dest.prob * |w0|^2 + edges[1].dest.prob * |w1|^2`. -/
def probFormula (s : St) (es : List Ed) : ℚ × ℚ :=
  match es with
  | [e0, e1] =>
    qAdd (qMul (getN s e0.dest).prob (mag2T (getC s e0.weight)))
         (qMul (getN s e1.dest).prob (mag2T (getC s e1.weight)))
  | _ => (1, 0)

/-- `QMDD.normalize(rule)`: pick the common factor (first nonzero weight for
rule 1, `argmax` for rule 3), divide the weights by it when it is nonzero, and
return the updated edges together with the factor. -/
def normEdges (s : St) (es : List Ed) (rule : Nat) : Except Err (St × List Ed × Nat) :=
  if es = [] then .ok (s, es, 1)
  else
    let pick : Except Err Nat :=
      if rule = 1 then
        match es.find? (fun e => e.weight ≠ 0) with
        | some e => .ok e.weight
        | none => .error .internalNorm
      else argmaxC s (es.map (fun e => e.weight))
    match pick with
    | .error er => .error er
    | .ok factor =>
      if factor ≠ 0 then
        match normDivFold s factor es with
        | .error er => .error er
        | .ok (s', es') => .ok (s', es', factor)
      else .ok (s, es, factor)

/-- `QMDD.createVertex(variable, outgoing, terminal, rule)`: normalize, compute
the vector selection probability, collapse zero/trivial/redundant vertices, and
hash-cons the result, returning the edge pointing at it. -/
def createVertex (s : St) (vr : Int) (outgoing : List Ed) (term : Nat)
    (rule : Nat := 3) : Except Err (St × Ed) :=
  match normEdges s outgoing rule with
  | .error er => .error er
  | .ok (s1, es, factor) =>
    let prob := if es.length = 2 then probFormula s1 es else ((1 : ℚ), (0 : ℚ))
    if factor = 0 then .ok (s1, ⟨term, 0⟩)
    else
      let nd : Nd := ⟨vr, es, prob⟩
      if isTrivial nd || isRedundant nd then
        .ok (s1, ⟨(es.getD 0 ⟨0, 0⟩).dest, factor⟩)
      else
        match findNode s1 vr es with
        | some i => .ok (s1, ⟨i, factor⟩)
        | none => .ok ({ s1 with nodes := s1.nodes ++ [nd] }, ⟨s1.nodes.length, factor⟩)

/-- The loop of `QMDD.groundState`, iterating the variable from
`terminal.variable - 1` down to `0`. -/
def groundFold (s : St) (term : Nat) (e : Ed) : List Int → Except Err (St × Ed)
  | [] => .ok (s, e)
  | v :: t =>
    match createVertex s v [e, ⟨term, 0⟩] term with
    | .error er => .error er
    | .ok (s', e') => groundFold s' term e' t

/-- `QMDD.groundState(terminal)`: the `|0...0>` vector chain. -/
def groundState (s : St) (term : Nat) : Except Err (St × Ed) :=
  let n := (getN s term).vr.toNat
  groundFold s term ⟨term, 1⟩ ((List.range n).reverse.map (fun k => (k : Int)))

/-- `QMDD.add(tensor1, tensor2, terminal, level)` with explicit fuel.
Mutually recursive with nothing: the per-quadrant recursion is on `fuel`. -/
def addQ : Nat → St → Ed → Ed → Nat → Option Int → Except Err (St × Ed)
  | 0, _, _, _, _, _ => .error .fuel
  | fuel + 1, s, t1, t2, term, lvlOpt =>
    let lvl := lvlOpt.getD (min (getN s t1.dest).vr (getN s t2.dest).vr)
    if t1.weight = 0 then
      .ok (s, ⟨if t2.weight = 0 then term else t2.dest, t2.weight⟩)
    else if t2.weight = 0 then .ok (s, t1)
    else if t1.dest = t2.dest then
      match addS s t1.weight t2.weight with
      | .error er => .error er
      | .ok (s', w) => .ok (s', ⟨t1.dest, w⟩)
    else
      let (a, b) := if t2.dest < t1.dest then (t2, t1) else (t1, t2)
      let key := (a.dest, b.dest, a.weight, b.weight)
      match look s.nsums key with
      | some e => .ok (s, e)
      | none =>
        let rank := if (getN s t1.dest).edges.length = 2 then 1 else 2
        let pickOperand (s : St) (t : Ed) (i : Nat) : Except Err (St × Ed) :=
          if (getN s t.dest).edges = [] || lvl < (getN s t.dest).vr then
            .ok (s, if i = 0 || i = 3 then t else ⟨term, 0⟩)
          else
            let ei := (getN s t.dest).edges.getD i ⟨0, 0⟩
            match mulS s [t.weight, ei.weight] with
            | .error er => .error er
            | .ok (s', w) => .ok (s', ⟨ei.dest, w⟩)
        let quadrant (s : St) (i : Nat) : Except Err (St × Ed) :=
          match pickOperand s t1 i with
          | .error er => .error er
          | .ok (s1, e0) =>
            match pickOperand s1 t2 i with
            | .error er => .error er
            | .ok (s2, e1) => addQ fuel s2 e0 e1 term (some (lvl + 1))
        let rec loop (s : St) (acc : List Ed) : List Nat → Except Err (St × List Ed)
          | [] => .ok (s, acc.reverse)
          | i :: t =>
            match quadrant s i with
            | .error er => .error er
            | .ok (s', e) => loop s' (e :: acc) t
        match loop s [] (List.range (2 * rank)) with
        | .error er => .error er
        | .ok (s3, es) =>
          match createVertex s3 lvl es term with
          | .error er => .error er
          | .ok (s4, e) => .ok ({ s4 with nsums := (key, e) :: s4.nsums }, e)

/-- `QMDD.multiply(matrix, vector, terminal, level)` with explicit fuel. -/
def multiplyQ : Nat → St → Ed → Ed → Nat → Option Int → Except Err (St × Ed)
  | 0, _, _, _, _, _ => .error .fuel
  | fuel + 1, s, m, v, term, lvlOpt =>
    let lvl := lvlOpt.getD (min (getN s m.dest).vr (getN s v.dest).vr)
    if m.weight = 0 || v.weight = 0 then .ok (s, ⟨term, 0⟩)
    else if (getN s m.dest).edges = [] then
      match mulS s [v.weight, m.weight] with
      | .error er => .error er
      | .ok (s', w) => .ok (s', ⟨v.dest, w⟩)
    else
      let key := (m.dest, v.dest, m.weight, v.weight)
      match look s.nprods key with
      | some e => .ok (s, e)
      | none =>
        let half (s : St) (i : Nat) (acc : Ed) : Except Err (St × Ed) :=
          let step (s : St) (j : Nat) (acc : Ed) : Except Err (St × Ed) :=
            let vE := (getN s v.dest).edges.getD j ⟨0, 0⟩
            let mE : Ed :=
              if (getN s m.dest).vr = lvl then (getN s m.dest).edges.getD (2 * i + j) ⟨0, 0⟩
              else if i = j then ⟨m.dest, 1⟩ else ⟨term, 0⟩
            match multiplyQ fuel s mE vE term (some (lvl + 1)) with
            | .error er => .error er
            | .ok (s', prod) => addQ fuel s' acc prod term (some (lvl + 1))
          match step s 0 acc with
          | .error er => .error er
          | .ok (s', acc') => step s' 1 acc'
        match half s 0 ⟨term, 0⟩ with
        | .error er => .error er
        | .ok (s1, e0) =>
          match half s1 1 ⟨term, 0⟩ with
          | .error er => .error er
          | .ok (s2, e1) =>
            match createVertex s2 lvl [e0, e1] term with
            | .error er => .error er
            | .ok (s3, e) =>
              match mulS s3 [e.weight, m.weight, v.weight] with
              | .error er => .error er
              | .ok (s4, w) =>
                .ok ({ s4 with nprods := (key, ⟨e.dest, w⟩) :: s4.nprods }, ⟨e.dest, w⟩)

/-- One `(i, j)` quadrant update of the below-target control loop of
`QMDD.construct`: the activator quadrant points at the current `root[edge]`,
the anti-activator at the terminal with weight `1` on the diagonal. -/
def wrapQuadrant (s : St) (term : Nat) (cIdx : Int) (cState : Char) (root : List Ed)
    (i j : Nat) : Except Err (St × List Ed) :=
  let act : Nat := if cState = '0' then 0 else 3
  let anti : Nat := if cState = '0' then 3 else 0
  let edge := 2 * i + j
  let base : List Ed := [⟨term, 0⟩, ⟨term, 0⟩, ⟨term, 0⟩, ⟨term, 0⟩]
  let es := (base.set act (root.getD edge ⟨0, 0⟩)).set anti ⟨term, if i = j then 1 else 0⟩
  match createVertex s cIdx es term with
  | .error er => .error er
  | .ok (s', e) => .ok (s', root.set edge e)

/-- The four quadrant updates (in `(i, j)` loop order) for one below-target
control. -/
def wrapControl (s : St) (term : Nat) (cIdx : Int) (cState : Char) (root : List Ed) :
    Except Err (St × List Ed) :=
  match wrapQuadrant s term cIdx cState root 0 0 with
  | .error er => .error er
  | .ok (s1, r1) =>
    match wrapQuadrant s1 term cIdx cState r1 0 1 with
    | .error er => .error er
    | .ok (s2, r2) =>
      match wrapQuadrant s2 term cIdx cState r2 1 0 with
      | .error er => .error er
      | .ok (s3, r3) => wrapQuadrant s3 term cIdx cState r3 1 1

/-- The below-target control loop of `QMDD.construct`. -/
def constructBelow (s : St) (term : Nat) (root : List Ed) :
    List (Int × Char) → Except Err (St × List Ed)
  | [] => .ok (s, root)
  | (ci, cs') :: t =>
    match wrapControl s term ci cs' root with
    | .error er => .error er
    | .ok (s', root') => constructBelow s' term root' t

/-- The above-target control loop of `QMDD.construct`: wrap the running entry
edge into a fresh control vertex per control. -/
def constructAbove (s : St) (term : Nat) (entry : Ed) :
    List (Int × Char) → Except Err (St × Ed)
  | [] => .ok (s, entry)
  | (ci, cs') :: t =>
    let act : Nat := if cs' = '0' then 0 else 3
    let anti : Nat := if cs' = '0' then 3 else 0
    let base : List Ed := [⟨term, 0⟩, ⟨term, 0⟩, ⟨term, 0⟩, ⟨term, 0⟩]
    let es := (base.set act entry).set anti ⟨term, 1⟩
    match createVertex s ci es term with
    | .error er => .error er
    | .ok (s', e) => constructAbove s' term e t

/-- `QMDD.construct(gate, target, controls, terminal)`: controls sorted by
descending qubit index; below-target controls wrap each quadrant, then the
target vertex is built, then above-target controls wrap the entry. -/
def construct (s : St) (mat : List Nat) (target : Int) (controls : List (Int × Char))
    (term : Nat) : Except Err (St × Ed) :=
  let ctrls := List.insertionSort (fun a b : Int × Char => b.1 ≤ a.1) controls
  let below := ctrls.takeWhile (fun c => target < c.1)
  let above := ctrls.dropWhile (fun c => target < c.1)
  let root := mat.map (fun el => (⟨term, el⟩ : Ed))
  match constructBelow s term root below with
  | .error er => .error er
  | .ok (s1, root') =>
    match createVertex s1 target root' term with
    | .error er => .error er
    | .ok (s2, entry) => constructAbove s2 term entry above

/-- The fold of `QMDD.uncontrolledStep` over the (descending-target-sorted)
gates of one parallel step. -/
def stepFold (s : St) (term : Nat) (e : Ed) :
    List (List Nat × Int) → Except Err (St × Ed)
  | [] => .ok (s, e)
  | (mat, target) :: t =>
    let rec scale (s : St) (acc : List Nat) : List Nat → Except Err (St × List Nat)
      | [] => .ok (s, acc.reverse)
      | el :: r =>
        match mulS s [el, e.weight] with
        | .error er => .error er
        | .ok (s', w) => scale s' (w :: acc) r
    match scale s [] mat with
    | .error er => .error er
    | .ok (s1, ws) =>
      let es := ws.map (fun w => (⟨if w = 0 then term else e.dest, w⟩ : Ed))
      match createVertex s1 target es term with
      | .error er => .error er
      | .ok (s2, e') => stepFold s2 term e' t

/-- `QMDD.uncontrolledStep(gates, terminal)`. -/
def uncontrolledStep (s : St) (gates : List (List Nat × Int)) (term : Nat) :
    Except Err (St × Ed) :=
  let step := List.insertionSort (fun a b : List Nat × Int => b.2 ≤ a.2) gates
  stepFold s term ⟨term, 1⟩ step

/-- Bit-by-bit integer square root (descending through bit positions; the
accumulator keeps the largest value whose square does not exceed `n`). -/
def isqrtBit : Nat → Nat → Nat → Nat
  | 0, _, acc => acc
  | i + 1, n, acc =>
    let c := acc + (1 <<< i)
    isqrtBit i n (if c * c ≤ n then c else acc)

/-- Integer square root (exact for every `n < 2^128`, far above anything the
rounding below can produce); structurally recursive so the kernel can
evaluate it. -/
def isqrt (n : Nat) : Nat := isqrtBit 64 n 0

/-- Ceiling of the square root of a natural number. -/
def ceilSqrtN (n : Nat) : Nat :=
  let r := isqrt n
  if r * r = n then r else r + 1

/-- Exact floor of `p + q * sqrt 2` (`p q : ℚ`), computed with integer square
roots: writing the value as `(n + sqrt M) / dd` or `(n - sqrt M) / dd` over the
common positive denominator `dd`, the floor is `(n ± isqrt M).fdiv dd`. -/
def floorQ2 (p q : ℚ) : Int :=
  let n : Int := p.num * (q.den : Int)
  let m : Int := q.num * (p.den : Int)
  let dd : Int := ((p.den * q.den : Nat) : Int)
  if 0 ≤ m then (n + ((isqrt (2 * m.natAbs ^ 2) : Nat) : Int)).fdiv dd
  else (n - ((ceilSqrtN (2 * m.natAbs ^ 2) : Nat) : Int)).fdiv dd

/-- JavaScript `Math.round` (round half up) on a `p + q*sqrt 2` value. -/
def jsRound (x : ℚ × ℚ) : Int := floorQ2 (x.1 + 1 / 2) x.2

/-- The `round(value, decimals)` helper of `qmdd.ts`:
`Math.round(value * 10^d) / 10^d`. -/
def roundTo (x : ℚ × ℚ) (dec : Nat) : ℚ :=
  ((jsRound (x.1 * 10 ^ dec, x.2 * 10 ^ dec) : ℚ)) / 10 ^ dec

/-- The DFS loop of `QMDD.strongSimulate`: explicit stack (head = top), states
accumulated in emission order. -/
def strongLoop : Nat → St → List (Nat × Nat × String) → Nat →
    List (String × ℚ × ℚ) → Except Err (St × List (String × ℚ × ℚ))
  | 0, _, _, _, _ => .error .fuel
  | _, s, [], _, acc => .ok (s, acc)
  | fuel + 1, s, (v, w, str) :: rest, dec, acc =>
    if (getN s v).edges = [] then
      let t := getC s w
      strongLoop fuel s rest dec
        (acc ++ [(str, roundTo (reT t) dec, roundTo (imT t) dec)])
    else
      let push (s : St) (stk : List (Nat × Nat × String)) (i : Nat) :
          Except Err (St × List (Nat × Nat × String)) :=
        let e := (getN s v).edges.getD i ⟨0, 0⟩
        if e.weight ≠ 0 then
          match mulS s [w, e.weight] with
          | .error er => .error er
          | .ok (s', w') =>
            .ok (s', (e.dest, w', (if i = 0 then "0" else "1") ++ str) :: stk)
        else .ok (s, stk)
      match push s rest 1 with
      | .error er => .error er
      | .ok (s1, stk1) =>
        match push s1 stk1 0 with
        | .error er => .error er
        | .ok (s2, stk2) => strongLoop fuel s2 stk2 dec acc

/-- `QMDD.strongSimulate(entry, decimals)`: rejects zero and terminal entry
edges, then runs the preorder DFS, yielding `(state, re, im)` triples. -/
def strongSimulate (fuel : Nat) (s : St) (entry : Ed) (dec : Nat) :
    Except Err (St × List (String × ℚ × ℚ)) :=
  if entry.weight = 0 then .error .zeroEdge
  else if (getN s entry.dest).edges = [] then .error .terminalEdge
  else strongLoop fuel s [(entry.dest, entry.weight, "")] dec []

/-- The descent loop of `QMDD.weakSimulate`, threading the complex state and
the pseudorandom generator. -/
def weakLoop : Nat → St → Ed → Nat → List Char → Nat →
    (Nat × Nat × Nat × Nat) → ((Nat × Nat × Nat × Nat) → ℚ × (Nat × Nat × Nat × Nat)) →
    Except Err (St × (Nat × Nat × Nat × Nat) × List Char × Nat)
  | 0, _, _, _, _, _, _, _ => .error .fuel
  | fuel + 1, s, entry, qubits, state, amp, g, next =>
    if (getN s entry.dest).edges = [] then .ok (s, g, state, amp)
    else
      let e0 := (getN s entry.dest).edges.getD 0 ⟨0, 0⟩
      let e1 := (getN s entry.dest).edges.getD 1 ⟨0, 0⟩
      let o0 := qMul (getN s e0.dest).prob (mag2T (getC s e0.weight))
      let o1 := qMul (getN s e1.dest).prob (mag2T (getC s e1.weight))
      let p0 := qDiv o0 (qAdd o0 o1)
      let (r, g') := next g
      let i : Nat := if qLt (r, 0) p0 then 0 else 1
      let ei := if i = 0 then e0 else e1
      let idx := (qubits - ((getN s entry.dest).vr.toNat) - 1 : Nat)
      let state' := state.set idx (if i = 0 then '0' else '1')
      match mulS s [amp, ei.weight] with
      | .error er => .error er
      | .ok (s', amp') => weakLoop fuel s' ei qubits state' amp' g' next

/-- `QMDD.weakSimulate(entry, qubits, rand)`: one random root-to-terminal
descent returning the measured basis state and its exact amplitude. -/
def weakSimulate (fuel : Nat) (s : St) (entry : Ed) (qubits : Nat)
    (g : Nat × Nat × Nat × Nat)
    (next : (Nat × Nat × Nat × Nat) → ℚ × (Nat × Nat × Nat × Nat)) :
    Except Err (St × (Nat × Nat × Nat × Nat) × String × (ℚ × ℚ) × (ℚ × ℚ)) :=
  if entry.weight = 0 then .error .zeroEdge
  else if (getN s entry.dest).edges = [] then .error .terminalEdge
  else
    match weakLoop fuel s entry qubits (List.replicate qubits '0') entry.weight g next with
    | .error er => .error er
    | .ok (s', g', state, amp) =>
      let t := getC s' amp
      .ok (s', g', ⟨state⟩, reT t, imT t)

/-- 32-bit truncation (all JS `| 0`, `^`, `Math.imul`, shifts are modelled as
bit-pattern arithmetic on naturals below 2^32). -/
def u32 (n : Nat) : Nat := n % 4294967296

/-- One character step of the `cyrb128` string hash. -/
def cyrbStep (h : Nat × Nat × Nat × Nat) (k : Nat) : Nat × Nat × Nat × Nat :=
  let (h1, h2, h3, h4) := h
  let h1' := Nat.xor h2 (u32 (Nat.xor h1 k * 597399067))
  let h2' := Nat.xor h3 (u32 (Nat.xor h2 k * 2869860233))
  let h3' := Nat.xor h4 (u32 (Nat.xor h3 k * 951274213))
  let h4' := Nat.xor h1' (u32 (Nat.xor h4 k * 2716044179))
  (h1', h2', h3', h4')

/-- `cyrb128(str)`: hash a string to four 32-bit seeds. -/
def cyrb128 (str : String) : Nat × Nat × Nat × Nat :=
  let (h1, h2, h3, h4) :=
    str.toList.foldl (fun h c => cyrbStep h c.toNat)
      (1779033703, 3144134277, 1013904242, 2773480762)
  let h1a := u32 (Nat.xor h3 (h1 >>> 18) * 597399067)
  let h2a := u32 (Nat.xor h4 (h2 >>> 22) * 2869860233)
  let h3a := u32 (Nat.xor h1a (h3 >>> 17) * 951274213)
  let h4a := u32 (Nat.xor h2a (h4 >>> 19) * 2716044179)
  let x := Nat.xor h2a (Nat.xor h3a h4a)
  let h1b := Nat.xor h1a x
  let h2b := Nat.xor h2a h1b
  let h3b := Nat.xor h3a h1b
  let h4b := Nat.xor h4a h1b
  (h1b, h2b, h3b, h4b)

/-- One draw of the `sfc32` pseudorandom generator: returns the value in
`[0, 1)` and the next generator state. -/
def sfcNext (g : Nat × Nat × Nat × Nat) : ℚ × (Nat × Nat × Nat × Nat) :=
  let (a, b, c, d) := g
  let t := u32 (u32 (a + b) + d)
  let d' := u32 (d + 1)
  let a' := Nat.xor b (b >>> 9)
  let b' := u32 (c + u32 (c <<< 3))
  let c1 := u32 (Nat.lor (u32 (c <<< 21)) (c >>> 11))
  let c' := u32 (c1 + t)
  ((t : ℚ) / 4294967296, (a', b', c', d'))

/-- A gate as consumed by the circuit facade: its identity flag (for the
`gate instanceof I` skip) and its 2x2 matrix as four complex indices. -/
structure GateG where
  isId : Bool
  mat : List Nat
deriving DecidableEq, Repr

/-- The matrices of `gates.ts` as complex indices
(`ZERO=0, ONE=1, A=2, NEG_ONE=3, I=4, NEG_I=5, NEG_A=6, B=7, C=8`). -/
def gateI : GateG := ⟨true, [1, 0, 0, 1]⟩

def gateX : GateG := ⟨false, [0, 1, 1, 0]⟩

def gateY : GateG := ⟨false, [0, 5, 4, 0]⟩

def gateZ : GateG := ⟨false, [1, 0, 0, 3]⟩

def gateH : GateG := ⟨false, [2, 2, 2, 6]⟩

def gateS : GateG := ⟨false, [1, 0, 0, 4]⟩

def gateT : GateG := ⟨false, [1, 0, 0, 7]⟩

/-- The complex table right after `Complex.reset()`: the nine well-known
constants in interning order (each shown in its canonical form). -/
def resetCxs : List CT :=
  [⟨0, 0, 0, 0, 1⟩, ⟨1, 0, 0, 0, 1⟩, ⟨0, 1, 0, 0, 1⟩, ⟨-1, 0, 0, 0, 1⟩,
   ⟨0, 0, 1, 0, 1⟩, ⟨0, 0, -1, 0, 1⟩, ⟨0, -1, 0, 0, 1⟩, ⟨0, 1, 0, 1, 1⟩,
   ⟨0, 1, 0, -1, 1⟩]

/-- The engine state of a fresh session (after `Complex.reset()` with empty
vertex store and caches). -/
def initSt : St := ⟨resetCxs, [], [], [], [], [], []⟩

/-- The `QuantumCircuit` instance state. -/
structure QC where
  qubits : Nat
  terminal : Nat
  diagram : Ed
  cols : Nat
  qbuckets : List Nat
  st : St
deriving DecidableEq, Repr

/-- The `QuantumCircuit(qubits)` constructor. -/
def newQC (n : Nat) : Except Err QC :=
  if n < 1 then .error .badWidth
  else
    let (s1, t) := createTerminal initSt n
    match groundState s1 t with
    | .error er => .error er
    | .ok (s2, g) => .ok ⟨n, t, g, 0, List.replicate n 0, s2⟩

/-- The depth-counter update of `append`:
`for (const i of temp) this.cols = Math.max(this.cols, ++this.qbuckets[i])`. -/
def bumpBuckets (cols : Nat) (qb : List Nat) : List Int → Nat × List Nat
  | [] => (cols, qb)
  | i :: t =>
    let idx := i.toNat
    let v := qb.getD idx 0 + 1
    bumpBuckets (max cols v) (qb.set idx v) t

/-- `QuantumCircuit.append(gate, target, controls, ctrlState)`, returning the
(possibly unchanged) circuit together with the raised error, if any. Every
validation `throw` of the source precedes every mutation, which the embedding
mirrors by returning the original circuit alongside the error. -/
def append (fuel : Nat) (c : QC) (gate : GateG) (target : Int) (controls : List Int)
    (ctrlState : String) : QC × Option Err :=
  let temp := target :: controls
  if c.qubits < temp.length then (c, some .tooMany)
  else if temp.any (fun i => i < 0 ∨ (c.qubits : Int) ≤ i) then (c, some .outOfBounds)
  else if ¬ temp.Nodup then (c, some .duplicate)
  else
    let cs := if controls ≠ [] ∧ ctrlState = "" then
        String.mk (List.replicate controls.length '1') else ctrlState
    if controls.length ≠ cs.length then (c, some .unequal)
    else if ¬ cs.toList.all (fun ch => ch = '0' ∨ ch = '1') then (c, some .badCtrlChar)
    else if gate.isId then (c, none)
    else
      let unified := controls.zip cs.toList
      match construct c.st gate.mat target unified c.terminal with
      | .error er => (c, some er)
      | .ok (s1, gq) =>
        match multiplyQ fuel s1 gq c.diagram c.terminal none with
        | .error er => (c, some er)
        | .ok (s2, d') =>
          let (cols', qb') := bumpBuckets c.cols c.qbuckets temp
          ({ c with st := s2, diagram := d', cols := cols', qbuckets := qb' }, none)

/-- `QuantumCircuit.appendStep(gates, qubits)`. -/
def appendStep (fuel : Nat) (c : QC) (gates : List GateG) (qubits : List Int) :
    QC × Option Err :=
  if gates.length ≠ qubits.length then (c, some .unequal)
  else if c.qubits < qubits.length then (c, some .tooMany)
  else if ¬ qubits.Nodup then (c, some .duplicate)
  else if qubits.any (fun i => i < 0 ∨ (c.qubits : Int) ≤ i) then (c, some .outOfBounds)
  else
    let step := (gates.map (fun g => g.mat)).zip qubits
    match uncontrolledStep c.st step c.terminal with
    | .error er => (c, some er)
    | .ok (s1, gq) =>
      match multiplyQ fuel s1 gq c.diagram c.terminal none with
      | .error er => (c, some er)
      | .ok (s2, d') =>
        let (cols', qb') := bumpBuckets c.cols c.qbuckets qubits
        ({ c with st := s2, diagram := d', cols := cols', qbuckets := qb' }, none)

/-- The validation predicate of `QuantumCircuit.statevector(decimals)`:
the call is rejected exactly when `decimals < 0 || !Number.isInteger(decimals)`. -/
def statevectorValidates (decimals : ℚ) : Bool :=
  ¬ (decimals < 0 ∨ decimals.den ≠ 1)

/-- `QuantumCircuit.statevector(decimals)`: validate, then strong-simulate the
current diagram. -/
def statevector (fuel : Nat) (c : QC) (decimals : ℚ) :
    Except Err (List (String × ℚ × ℚ)) :=
  if ¬ statevectorValidates decimals then .error .badPrecision
  else
    match strongSimulate fuel c.st c.diagram decimals.num.toNat with
    | .error er => .error er
    | .ok (_, out) => .ok out

/-- Ordered-map upsert of one weak-simulation outcome
(`counts.set(measurement, { occurrences: prev + 1, re, im })`). -/
def upsert (counts : List (String × Nat × (ℚ × ℚ) × (ℚ × ℚ))) (key : String)
    (re im : ℚ × ℚ) : List (String × Nat × (ℚ × ℚ) × (ℚ × ℚ)) :=
  match counts with
  | [] => [(key, 1, re, im)]
  | (k, n, r, i) :: t =>
    if k = key then (k, n + 1, re, im) :: t else (k, n, r, i) :: upsert t key re im

/-- The shot loop of `QuantumCircuit.sample`. -/
def sampleLoop : Nat → Nat → St → Ed → Nat → (Nat × Nat × Nat × Nat) →
    List (String × Nat × (ℚ × ℚ) × (ℚ × ℚ)) →
    Except Err (St × List (String × Nat × (ℚ × ℚ) × (ℚ × ℚ)))
  | _, 0, s, _, _, _, counts => .ok (s, counts)
  | fuel, shots + 1, s, diagram, qubits, g, counts =>
    match weakSimulate fuel s diagram qubits g sfcNext with
    | .error er => .error er
    | .ok (s', g', meas, re, im) =>
      sampleLoop fuel shots s' diagram qubits g' (upsert counts meas re im)

/-- `QuantumCircuit.sample(shots, seed)`. The source draws the seed string
from `seed?.toString() ?? randomString()`; the ambient randomness is passed in
explicitly as `entropy`, consumed only when no seed is given. -/
def sample (fuel : Nat) (c : QC) (shots : Int) (seed : Option String)
    (entropy : String) : Except Err (List (String × Nat × (ℚ × ℚ) × (ℚ × ℚ))) :=
  if shots < 1 then .error .badShots
  else
    let g := cyrb128 (seed.getD entropy)
    match sampleLoop fuel shots.toNat c.st c.diagram c.qubits g [] with
    | .error er => .error er
    | .ok (_, counts) => .ok counts

/-! ### Definitions supporting the claim statements -/

/-- The index `internC` would return, as a function of the complex table only
(`none` when the constructor would reject a zero denominator). -/
def internIdx (cxs : List CT) (t : CT) : Option Nat :=
  if t.e = 0 then none
  else
    match cxs.findIdx? (fun x => x = canon t) with
    | some i => some i
    | none => some cxs.length

/-- The result a `Complex.div` cache entry must agree with: the value the
cache-miss path of `divS` would produce over the same complex table (the
early-exit branches mirror the instance-level short circuits). -/
def divPure (cxs : List CT) (n d : Nat) : Option Nat :=
  if ¬ (n < cxs.length ∧ d < cxs.length) then none
  else if d = 0 then none
  else if n = 0 ∨ d = 1 then some n
  else if n = d then some 1
  else internIdx cxs (divT (cxs.getD n ⟨0, 0, 0, 0, 1⟩) (cxs.getD d ⟨0, 0, 0, 0, 1⟩))

/-- Consistency of the division cache: every cached quotient is the one the
miss path computes. This holds in every state the API can produce, because
entries are only written right after a successful computation. -/
def QuotsOK (s : St) : Prop :=
  ∀ k v, look s.quots k = some v → divPure s.cxs k.1 k.2 = some v

/-- The probability the spec's sentence ascribes to a node: the sum over all
its outgoing edges of `child.prob * |edge.weight|^2`. -/
def claimedProb (s : St) (n : Nd) : ℚ × ℚ :=
  n.edges.foldl (fun acc e => qAdd acc (qMul (getN s e.dest).prob (mag2T (getC s e.weight))))
    ((0 : ℚ), (0 : ℚ))

/-- The claim C1 scenario: a 2-qubit circuit, `H` on qubit 0 then `CX` with
control 0 and target 1, strong-simulated with `decimals = 4`. -/
def bellRun : Except Err (List (String × ℚ × ℚ)) :=
  match newQC 2 with
  | .error er => .error er
  | .ok c =>
    match append 30 c gateH 0 [] "" with
    | (_, some er) => .error er
    | (c1, none) =>
      match append 30 c1 gateX 1 [0] "1" with
      | (_, some er) => .error er
      | (c2, none) => statevector 60 c2 4

/-- A fresh 1-qubit circuit (used by concrete counterexamples). -/
def oneQC : QC :=
  match newQC 1 with
  | .ok c => c
  | .error _ => ⟨1, 0, ⟨0, 0⟩, 0, [0], initSt⟩

/-- The state and entry edge of a Hadamard gate QMDD built on a fresh 1-qubit
session (used by the C5 counterexample). -/
def hRun : St × Ed :=
  let (s1, t) := createTerminal initSt 1
  match construct s1 gateH.mat 0 [] t with
  | .ok (s, e) => (s, e)
  | .error _ => (s1, ⟨t, 0⟩)

/-- The complex table of the C8 counterexample: the reset constants plus the
interned value `2` (tuple `(2,0,0,0,1)`, index 9). -/
def c8St : St :=
  match internC initSt ⟨2, 0, 0, 0, 1⟩ with
  | .ok (s, _) => s
  | .error _ => initSt


/-- Intermediate circuit state of the C1 scenario: the fresh 2-qubit circuit. -/
def bellC0 : QC := { qubits := 2, terminal := 0, diagram := { dest := 2, weight := 1 }, cols := 0, qbuckets := [0, 0], st := { cxs := [{ a := 0, b := 0, c := 0, d := 0, e := 1 }, { a := 1, b := 0, c := 0, d := 0, e := 1 }, { a := 0, b := 1, c := 0, d := 0, e := 1 }, { a := -1, b := 0, c := 0, d := 0, e := 1 }, { a := 0, b := 0, c := 1, d := 0, e := 1 }, { a := 0, b := 0, c := -1, d := 0, e := 1 }, { a := 0, b := -1, c := 0, d := 0, e := 1 }, { a := 0, b := 1, c := 0, d := 1, e := 1 }, { a := 0, b := 1, c := 0, d := -1, e := 1 }], sums := [], prods := [], quots := [((0, 1), 0), ((1, 1), 1)], nodes := [{ vr := 2, edges := [], prob := (1, 0) }, { vr := 1, edges := [{ dest := 0, weight := 1 }, { dest := 0, weight := 0 }], prob := (1, 0) }, { vr := 0, edges := [{ dest := 1, weight := 1 }, { dest := 0, weight := 0 }], prob := (1, 0) }], nsums := [], nprods := [] } }

/-- Intermediate circuit state of the C1 scenario: after `H` on qubit 0. -/
def bellC1 : QC := { qubits := 2, terminal := 0, diagram := { dest := 4, weight := 2 }, cols := 1, qbuckets := [1, 0], st := { cxs := [{ a := 0, b := 0, c := 0, d := 0, e := 1 }, { a := 1, b := 0, c := 0, d := 0, e := 1 }, { a := 0, b := 1, c := 0, d := 0, e := 1 }, { a := -1, b := 0, c := 0, d := 0, e := 1 }, { a := 0, b := 0, c := 1, d := 0, e := 1 }, { a := 0, b := 0, c := -1, d := 0, e := 1 }, { a := 0, b := -1, c := 0, d := 0, e := 1 }, { a := 0, b := 1, c := 0, d := 1, e := 1 }, { a := 0, b := 1, c := 0, d := -1, e := 1 }], sums := [], prods := [([1, 1, 2], 2), ([1, 1], 1)], quots := [((6, 2), 3), ((2, 2), 1), ((0, 1), 0), ((1, 1), 1)], nodes := [{ vr := 2, edges := [], prob := (1, 0) }, { vr := 1, edges := [{ dest := 0, weight := 1 }, { dest := 0, weight := 0 }], prob := (1, 0) }, { vr := 0, edges := [{ dest := 1, weight := 1 }, { dest := 0, weight := 0 }], prob := (1, 0) }, { vr := 0, edges := [{ dest := 0, weight := 1 }, { dest := 0, weight := 1 }, { dest := 0, weight := 1 }, { dest := 0, weight := 3 }], prob := (1, 0) }, { vr := 0, edges := [{ dest := 1, weight := 1 }, { dest := 1, weight := 1 }], prob := (2, 0) }], nsums := [], nprods := [((3, 2, 2, 1), { dest := 4, weight := 2 })] } }

/-- Intermediate circuit state of the C1 scenario: after `CX(0, 1)`. -/
def bellC2 : QC := { qubits := 2, terminal := 0, diagram := { dest := 8, weight := 2 }, cols := 2, qbuckets := [2, 1], st := { cxs := [{ a := 0, b := 0, c := 0, d := 0, e := 1 }, { a := 1, b := 0, c := 0, d := 0, e := 1 }, { a := 0, b := 1, c := 0, d := 0, e := 1 }, { a := -1, b := 0, c := 0, d := 0, e := 1 }, { a := 0, b := 0, c := 1, d := 0, e := 1 }, { a := 0, b := 0, c := -1, d := 0, e := 1 }, { a := 0, b := -1, c := 0, d := 0, e := 1 }, { a := 0, b := 1, c := 0, d := 1, e := 1 }, { a := 0, b := 1, c := 0, d := -1, e := 1 }], sums := [], prods := [([1, 1, 1], 1), ([1, 1, 2], 2), ([1, 1], 1)], quots := [((6, 2), 3), ((2, 2), 1), ((0, 1), 0), ((1, 1), 1)], nodes := [{ vr := 2, edges := [], prob := (1, 0) }, { vr := 1, edges := [{ dest := 0, weight := 1 }, { dest := 0, weight := 0 }], prob := (1, 0) }, { vr := 0, edges := [{ dest := 1, weight := 1 }, { dest := 0, weight := 0 }], prob := (1, 0) }, { vr := 0, edges := [{ dest := 0, weight := 1 }, { dest := 0, weight := 1 }, { dest := 0, weight := 1 }, { dest := 0, weight := 3 }], prob := (1, 0) }, { vr := 0, edges := [{ dest := 1, weight := 1 }, { dest := 1, weight := 1 }], prob := (2, 0) }, { vr := 1, edges := [{ dest := 0, weight := 0 }, { dest := 0, weight := 1 }, { dest := 0, weight := 1 }, { dest := 0, weight := 0 }], prob := (1, 0) }, { vr := 0, edges := [{ dest := 0, weight := 1 }, { dest := 0, weight := 0 }, { dest := 0, weight := 0 }, { dest := 5, weight := 1 }], prob := (1, 0) }, { vr := 1, edges := [{ dest := 0, weight := 0 }, { dest := 0, weight := 1 }], prob := (1, 0) }, { vr := 0, edges := [{ dest := 1, weight := 1 }, { dest := 7, weight := 1 }], prob := (2, 0) }], nsums := [], nprods := [((6, 4, 1, 2), { dest := 8, weight := 2 }), ((5, 1, 1, 1), { dest := 7, weight := 1 }), ((3, 2, 2, 1), { dest := 4, weight := 2 })] } }

/-- The result of a concrete vector-vertex creation (the first ground-state
chain step of a 1-qubit session), used to witness the probability invariant. -/
def cv5 : St × Ed :=
  match createVertex (createTerminal initSt 1).1 0 [⟨0, 1⟩, ⟨0, 0⟩] 0 3 with
  | .ok r => r
  | .error _ => (initSt, ⟨0, 0⟩)

/-- The engine state produced by the ground state of a 2-qubit session. -/
def gs2 : St :=
  match groundState (createTerminal initSt 2).1 (createTerminal initSt 2).2 with
  | .ok (s, _) => s
  | .error _ => initSt

/-- The root edge produced by the ground state of a 2-qubit session. -/
def gs2e : Ed :=
  match groundState (createTerminal initSt 2).1 (createTerminal initSt 2).2 with
  | .ok (_, e) => e
  | .error _ => ⟨0, 0⟩

/-- Vertex lookup on a bare vertex store (`getN` with the store projected
out, so that store-only reasoning is stable under complex-table updates). -/
def getNd (nodes : List Nd) (i : Nat) : Nd := nodes.getD i ⟨0, [], (1, 0)⟩

/-- Well-formedness of a vector edge entering level `n - k` of an `n`-qubit
diagram (`k` counts the levels remaining to the terminal): a zero-weight edge
is unconstrained (it is never traversed), and a nonzero edge points to the
terminal when `k = 0` and otherwise to a stored vector vertex at variable
`n - k` both of whose outgoing edges are well-formed one level down. -/
def vecE (nodes : List Nd) (term n : Nat) : Nat → Ed → Bool
  | 0, e => decide (e.weight = 0) || decide (e.dest = term)
  | k + 1, e =>
    decide (e.weight = 0) ||
    (decide (e.dest < nodes.length) &&
     decide ((getNd nodes e.dest).vr = ((n - (k + 1) : Nat) : Int)) &&
     decide ((getNd nodes e.dest).edges.length = 2) &&
     (getNd nodes e.dest).edges.all (fun ed => vecE nodes term n k ed))

/-- Well-formedness of a matrix edge entering level `n - k`: a zero-weight
edge or an edge into the terminal (an identity on all remaining levels) is
fine; otherwise the edge points to a stored matrix vertex either exactly at
variable `n - k` (with four well-formed edges one level down) or strictly
deeper, in which case the same edge is treated as an identity at this level
and re-examined one level down. -/
def matE (nodes : List Nd) (term n : Nat) : Nat → Ed → Bool
  | 0, e => decide (e.weight = 0) || decide (e.dest = term)
  | k + 1, e =>
    decide (e.weight = 0) || decide (e.dest = term) ||
    (decide (e.dest < nodes.length) &&
     ((decide ((getNd nodes e.dest).vr = ((n - (k + 1) : Nat) : Int)) &&
       decide ((getNd nodes e.dest).edges.length = 4) &&
       (getNd nodes e.dest).edges.all (fun ed => matE nodes term n k ed)) ||
      (decide (((n - (k + 1) : Nat) : Int) < (getNd nodes e.dest).vr) &&
       matE nodes term n k e)))

/-- The vertex store only extends over an API call: vertices are appended,
never modified. -/
def NodesExt (nodes nodes' : List Nd) : Prop := ∃ l, nodes' = nodes ++ l

/-- Store closedness: every stored vertex's outgoing edges stay inside the
store. -/
def StoreOK (nodes : List Nd) : Prop :=
  ∀ nd ∈ nodes, ∀ e ∈ nd.edges, e.dest < nodes.length

/-- The division cache maps zero numerators to zero (the shortcut result the
miss path computes). -/
def QuotsZeroOK (s : St) : Prop :=
  ∀ d v, look s.quots (0, d) = some v → v = 0

/-- The product cache maps operand lists containing zero to zero. -/
def ProdsZeroOK (s : St) : Prop :=
  ∀ l v, look s.prods l = some v → 0 ∈ l → v = 0

/-- The tensor-sum cache only holds well-formed entries: whenever its key's
two operand edges are well-formed nonzero vector edges at a level, the cached
sum is well-formed at that level (keys and values stay inside the store). -/
def NSumsOK (s : St) (term n : Nat) : Prop :=
  ∀ d0 d1 w0 w1 e, look s.nsums (d0, d1, w0, w1) = some e →
    d0 < s.nodes.length ∧ d1 < s.nodes.length ∧ e.dest < s.nodes.length ∧
    ∀ k, k ≤ n → w0 ≠ 0 → w1 ≠ 0 → d0 ≠ d1 →
      vecE s.nodes term n k ⟨d0, w0⟩ = true → vecE s.nodes term n k ⟨d1, w1⟩ = true →
      vecE s.nodes term n k e = true

/-- The tensor-product cache only holds well-formed entries: whenever its
key's matrix and vector operand edges are well-formed at a level (the matrix
one pointing at a proper vertex), the cached product is a well-formed vector
edge at that level. -/
def NProdsOK (s : St) (term n : Nat) : Prop :=
  ∀ dm dv wm wv e, look s.nprods (dm, dv, wm, wv) = some e →
    dm < s.nodes.length ∧ dv < s.nodes.length ∧ e.dest < s.nodes.length ∧
    ∀ k, k ≤ n → wm ≠ 0 → wv ≠ 0 → (getNd s.nodes dm).edges ≠ [] →
      matE s.nodes term n k ⟨dm, wm⟩ = true → vecE s.nodes term n k ⟨dv, wv⟩ = true →
      vecE s.nodes term n k e = true

/-- The engine-level invariant of every state the public API produces: the
store is closed, the terminal is a stored edgeless vertex, the trivial-result
caches agree with their shortcuts, and the diagram-level caches hold only
well-formed entries. -/
def EngineInv (s : St) (term n : Nat) : Prop :=
  StoreOK s.nodes ∧ term < s.nodes.length ∧ (getNd s.nodes term).edges = [] ∧
  QuotsZeroOK s ∧ ProdsZeroOK s ∧ NSumsOK s term n ∧ NProdsOK s term n

/-- The circuit-level invariant: a positive width, the engine invariant, and a
well-formed diagram edge entering level `0` (so a nonzero diagram's root sits
at variable `0` and nonzero edges descend one level at a time). -/
def CInv (c : QC) : Prop :=
  1 ≤ c.qubits ∧ EngineInv c.st c.terminal c.qubits ∧
  vecE c.st.nodes c.terminal c.qubits c.qubits c.diagram = true

/-! ### Helper lemmas about the complex table operations -/

lemma internC_shape {s : St} {t : CT} {s' : St} {q : Nat}
    (h : internC s t = .ok (s', q)) :
    internIdx s.cxs t = some q ∧ s'.nodes = s.nodes ∧ s'.quots = s.quots ∧
      s'.sums = s.sums ∧ s'.prods = s.prods ∧ s'.nsums = s.nsums ∧
      s'.nprods = s.nprods := by
  unfold internC at h
  unfold internIdx
  split at h
  · exact absurd h (by simp)
  · next he =>
    rw [if_neg he]
    simp only [] at h
    split at h
    · cases h
      exact ⟨rfl, rfl, rfl, rfl, rfl, rfl, rfl⟩
    · cases h
      exact ⟨rfl, rfl, rfl, rfl, rfl, rfl, rfl⟩

lemma divS_early {s : St} {n d : Nat} (hq : QuotsOK s)
    (hn : n < s.cxs.length) (hd : d < s.cxs.length) (hdz : d ≠ 0)
    (hcase : n = 0 ∨ d = 1 ∨ n = d) :
    ∃ s', divS s n d = .ok (s', if n = 0 then 0 else if d = 1 then n else 1) ∧
      s'.cxs = s.cxs ∧ s'.nodes = s.nodes ∧ s'.sums = s.sums ∧
      s'.prods = s.prods ∧ s'.nsums = s.nsums ∧ s'.nprods = s.nprods ∧
      QuotsOK s' := by
  have hval : ¬ ¬ (hasC s n ∧ hasC s d) := by
    simp only [hasC, not_not]
    exact ⟨hn, hd⟩
  have hpure : divPure s.cxs n d = some (if n = 0 then 0 else if d = 1 then n else 1) := by
    unfold divPure
    rw [if_neg (by simpa [hasC] using hval), if_neg hdz]
    rcases hcase with h0 | h1 | hnd
    · subst h0
      simp
    · subst h1
      by_cases h0 : n = 0 <;> simp [h0]
    · subst hnd
      by_cases h0 : n = 0
      · simp [h0]
      · by_cases h1 : n = 1 <;> simp [h0, h1]
  unfold divS
  rw [if_neg hval]
  rcases hl : look s.quots (n, d) with _ | v
  · have hres :
        (if d = 0 then (.error .divByZero : Except Err (St × Nat))
         else if n = 0 ∨ d = 1 then .ok ({ s with quots := ((n, d), n) :: s.quots }, n)
         else if n = d then .ok ({ s with quots := ((n, d), 1) :: s.quots }, 1)
         else
           match internC s (divT (getC s n) (getC s d)) with
           | .error er => .error er
           | .ok (s', q) => .ok ({ s' with quots := ((n, d), q) :: s'.quots }, q)) =
        .ok ({ s with quots := ((n, d), if n = 0 then 0 else if d = 1 then n else 1) :: s.quots },
             if n = 0 then 0 else if d = 1 then n else 1) := by
      rw [if_neg hdz]
      rcases hcase with h0 | h1 | hnd
      · subst h0
        simp
      · subst h1
        by_cases h0 : n = 0 <;> simp [h0]
      · subst hnd
        by_cases h0 : n = 0
        · simp [h0]
        · by_cases h1 : n = 1 <;> simp [h0, h1]
    refine ⟨_, hres, rfl, rfl, rfl, rfl, rfl, rfl, ?_⟩
    intro k v hk
    by_cases hkk : ((n, d) : Nat × Nat) = k
    · subst hkk
      simp only [look, if_pos rfl] at hk
      cases hk
      exact hpure
    · simp only [look, if_neg hkk] at hk
      exact hq k v hk
  · have := hq (n, d) v hl
    rw [hpure] at this
    cases this
    exact ⟨s, rfl, rfl, rfl, rfl, rfl, rfl, rfl, hq⟩

lemma divS_den_zero {s : St} {n : Nat} (hq : QuotsOK s) (hn : n < s.cxs.length) :
    divS s n 0 = .error .divByZero := by
  have h0 : (0 : Nat) < s.cxs.length := lt_of_le_of_lt (Nat.zero_le n) hn
  unfold divS
  rw [if_neg (by simp only [hasC, not_not]; exact ⟨hn, h0⟩)]
  rcases hl : look s.quots (n, 0) with _ | v
  · simp
  · have := hq (n, 0) v hl
    unfold divPure at this
    rw [if_neg (by simp only [not_not]; exact ⟨hn, h0⟩)] at this
    simp at this

lemma qLt_self (x : ℚ × ℚ) : qLt x x = false := by
  simp [qLt, qPos]

lemma qPos_neg_of {p q : ℚ} (hp : 0 ≤ p) (hpq : 2 * q ^ 2 ≤ p ^ 2)
    (hp0 : p = 0 → q = 0) : qPos (-p, -q) = false := by
  unfold qPos
  dsimp only
  rcases lt_or_eq_of_le hp with hp' | hp'
  · rw [if_neg (by linarith)]
    split
    · exact decide_eq_false (by rw [neg_sq, neg_sq]; linarith)
    · rfl
  · have hq0 := hp0 hp'.symm
    rw [← hp', hq0]
    norm_num

lemma qLt_mag2T_zero (t : CT) : qLt (mag2T t) ((0 : ℚ), (0 : ℚ)) = false := by
  rcases t with ⟨a, b, c, d, e⟩
  have hkey :
      0 ≤ (mag2T ⟨a, b, c, d, e⟩).1 ∧
        2 * (mag2T ⟨a, b, c, d, e⟩).2 ^ 2 ≤ (mag2T ⟨a, b, c, d, e⟩).1 ^ 2 ∧
        ((mag2T ⟨a, b, c, d, e⟩).1 = 0 → (mag2T ⟨a, b, c, d, e⟩).2 = 0) := by
    unfold mag2T
    dsimp only
    by_cases he : (e : ℚ) = 0
    · simp [he]
    · have hE2 : (0 : ℚ) < (e : ℚ) ^ 2 := by positivity
      have hNnn : (0 : ℚ) ≤ ((2 * a ^ 2 + b ^ 2 + 2 * c ^ 2 + d ^ 2 : Int) : ℚ) := by
        push_cast
        positivity
      refine ⟨div_nonneg hNnn (by positivity), ?_, ?_⟩
      · rw [div_pow, div_pow, ← mul_div_assoc, div_le_div_iff₀ (by positivity) (by positivity)]
        have hInt : 8 * (a * b + c * d) ^ 2 ≤ (2 * a ^ 2 + b ^ 2 + 2 * c ^ 2 + d ^ 2 : Int) ^ 2 := by
          nlinarith [sq_nonneg (2 * a ^ 2 - b ^ 2 + 2 * c ^ 2 - d ^ 2 : Int),
            sq_nonneg (a * d - b * c : Int), sq_nonneg (a * b + c * d : Int)]
        have hcast : (8 : ℚ) * ((a * b + c * d : Int) : ℚ) ^ 2 ≤
            (((2 * a ^ 2 + b ^ 2 + 2 * c ^ 2 + d ^ 2 : Int) : ℚ)) ^ 2 := by
          have : ((8 * (a * b + c * d) ^ 2 : Int) : ℚ) ≤ ((( 2 * a ^ 2 + b ^ 2 + 2 * c ^ 2 + d ^ 2 : Int) ^ 2 : Int) : ℚ) := by exact_mod_cast hInt
          push_cast at this ⊢
          linarith
        nlinarith [mul_le_mul_of_nonneg_right hcast (sq_nonneg ((e : ℚ) ^ 2)),
          sq_nonneg ((e : ℚ) ^ 2)]
      · intro hzero
        rw [div_eq_zero_iff] at hzero
        rcases hzero with hN | hden
        · have : (2 * a ^ 2 + b ^ 2 + 2 * c ^ 2 + d ^ 2 : Int) = 0 := by exact_mod_cast hN
          have ha : a = 0 ∧ b = 0 ∧ c = 0 ∧ d = 0 := by
            refine ⟨?_, ?_, ?_, ?_⟩ <;> nlinarith [sq_nonneg a, sq_nonneg b, sq_nonneg c, sq_nonneg d]
          rw [ha.1, ha.2.1, ha.2.2.1, ha.2.2.2]
          norm_num
        · exact absurd hden (by positivity)
  have hform : qLt (mag2T ⟨a, b, c, d, e⟩) ((0 : ℚ), (0 : ℚ)) =
      qPos (-(mag2T ⟨a, b, c, d, e⟩).1, -(mag2T ⟨a, b, c, d, e⟩).2) := by
    simp [qLt]
  rw [hform]
  exact qPos_neg_of hkey.1 hkey.2.1 hkey.2.2

/-! ### Claim theorems -/

lemma bell_step0 : newQC 2 = .ok bellC0 := by with_unfolding_all rfl

lemma bell_step1 : append 30 bellC0 gateH 0 [] "" = (bellC1, none) := by
  with_unfolding_all rfl

lemma bell_step2 : append 30 bellC1 gateX 1 [0] "1" = (bellC2, none) := by
  with_unfolding_all rfl

lemma bell_step3 : statevector 60 bellC2 4 = .ok [("00", 7071 / 10000, 0), ("11", 7071 / 10000, 0)] := by
  with_unfolding_all rfl

/-- C1: for the 2-qubit circuit `H(0); CX(0,1)` applied to the ground state
`|00>`, strong simulation with `decimals = 4` yields exactly the entries
`("00", 0.7071, 0)` and `("11", 0.7071, 0)` (square root of one half rounded
to four decimals) and no other basis state. -/
theorem bell_strong_simulation :
    bellRun = .ok [("00", 7071 / 10000, 0), ("11", 7071 / 10000, 0)] := by
  simp only [bellRun, bell_step0, bell_step1, bell_step2, bell_step3]

/-- C3 (amended): for every valid index `x` of a state whose division cache is
consistent, `div(x, ZERO)` fails with the division-by-zero error; for `x` not
`ZERO`, `div(ZERO, x)` returns `ZERO` (caching the result like any other
quotient); `div(x, ONE)` returns `x`; and `div(x, x)` returns `ONE`. -/
theorem div_contract (s : St) (x : Nat) (hq : QuotsOK s) (hx : x < s.cxs.length)
    (h1 : 1 < s.cxs.length) :
    divS s x 0 = .error .divByZero ∧
    (x ≠ 0 → ∃ s', divS s 0 x = .ok (s', 0)) ∧
    (∃ s', divS s x 1 = .ok (s', x)) ∧
    (x ≠ 0 → ∃ s', divS s x x = .ok (s', 1)) := by
  have h0 : (0 : Nat) < s.cxs.length := lt_of_le_of_lt (Nat.zero_le 1) h1
  refine ⟨divS_den_zero hq hx, ?_, ?_, ?_⟩
  · intro hx0
    obtain ⟨s', heq, -⟩ := divS_early hq h0 hx hx0 (Or.inl rfl)
    exact ⟨s', by simpa using heq⟩
  · obtain ⟨s', heq, -⟩ := divS_early hq hx h1 one_ne_zero (Or.inr (Or.inl rfl))
    refine ⟨s', ?_⟩
    rw [heq]
    by_cases hx0 : x = 0
    · subst hx0
      norm_num
    · simp [hx0]
  · intro hx0
    obtain ⟨s', heq, -⟩ := divS_early hq hx hx hx0 (Or.inr (Or.inr rfl))
    refine ⟨s', ?_⟩
    rw [heq]
    by_cases hx1 : x = 1 <;> simp [hx0, hx1]

/-- C3 witness: the amended division contract instantiated on the fresh table
at index `x = NEG_ONE = 3`. -/
theorem div_contract_witness :
    divS initSt 3 0 = .error .divByZero ∧
    (∃ s', divS initSt 0 3 = .ok (s', 0)) ∧
    (∃ s', divS initSt 3 1 = .ok (s', 3)) ∧
    (∃ s', divS initSt 3 3 = .ok (s', 1)) := by
  have h := div_contract initSt 3 (fun k v hk => by simp [look, initSt] at hk)
    (by decide) (by decide)
  exact ⟨h.1, h.2.1 (by decide), h.2.2.1, h.2.2.2 (by decide)⟩

/-- C2: for every nonzero complex index `w`, any destination `D`, and any
variable `v`, building a matrix vertex with edges `(D, w), (term, 0), (term, 0),
(D, w)` returns the edge `(D, w)` directly: the common factor `w` is extracted
by normalization, the vertex is recognized as trivial (a scaled identity), no
new vertex is interned, and no new complex value is created. -/
theorem createVertex_scaled_identity (s : St) (w D : Nat) (v : Int) (t : Nat)
    (hq : QuotsOK s) (hw : w < s.cxs.length) (hw0 : w ≠ 0)
    (h0t : getC s 0 = ⟨0, 0, 0, 0, 1⟩) :
    ∃ s', createVertex s v [⟨D, w⟩, ⟨t, 0⟩, ⟨t, 0⟩, ⟨D, w⟩] t 3 = .ok (s', ⟨D, w⟩) ∧
      s'.nodes = s.nodes ∧ s'.cxs = s.cxs := by
  have h0 : (0 : Nat) < s.cxs.length := lt_of_le_of_lt (Nat.zero_le w) hw
  have hmz : mag2T (⟨0, 0, 0, 0, 1⟩ : CT) = ((0 : ℚ), (0 : ℚ)) := by
    norm_num [mag2T]
  have hz : qLt (mag2T (getC s w)) (mag2T (getC s 0)) = false := by
    rw [h0t, hmz]
    exact qLt_mag2T_zero _
  have hpick : argmaxC s (List.map (fun e => e.weight)
      ([⟨D, w⟩, ⟨t, 0⟩, ⟨t, 0⟩, ⟨D, w⟩] : List Ed)) = .ok w := by
    have hval : (([w, 0, 0, w] : List Nat).any fun i => decide ¬ i < s.cxs.length) = false := by
      simp [hw, h0, List.length_pos.mp h0]
    simp only [List.map, argmaxC, hval, Bool.false_eq_true, if_false, argmaxFold, hz,
      qLt_self]
  obtain ⟨s1, hd1, hc1, hn1, -, -, -, -, hq1⟩ :=
    divS_early hq hw hw hw0 (Or.inr (Or.inr rfl))
  have hv1 : (if w = 0 then 0 else if w = 1 then w else 1) = 1 := by
    by_cases w1 : w = 1 <;> simp [hw0, w1]
  rw [hv1] at hd1
  obtain ⟨s2, hd2, hc2, hn2, -, -, -, -, hq2⟩ :=
    divS_early hq1 (hc1 ▸ h0) (hc1 ▸ hw) hw0 (Or.inl rfl)
  simp only [reduceIte] at hd2
  obtain ⟨s3, hd3, hc3, hn3, -, -, -, -, hq3⟩ :=
    divS_early hq2 (hc2 ▸ hc1 ▸ h0) (hc2 ▸ hc1 ▸ hw) hw0 (Or.inl rfl)
  simp only [reduceIte] at hd3
  obtain ⟨s4, hd4, hc4, hn4, -, -, -, -, hq4⟩ :=
    divS_early hq3 (hc3 ▸ hc2 ▸ hc1 ▸ hw) (hc3 ▸ hc2 ▸ hc1 ▸ hw) hw0 (Or.inr (Or.inr rfl))
  rw [hv1] at hd4
  have hfold : normDivFold s w [⟨D, w⟩, ⟨t, 0⟩, ⟨t, 0⟩, ⟨D, w⟩] =
      .ok (s4, [⟨D, 1⟩, ⟨t, 0⟩, ⟨t, 0⟩, ⟨D, 1⟩]) := by
    simp only [normDivFold, hd1, hd2, hd3, hd4]
  have hne : normEdges s [⟨D, w⟩, ⟨t, 0⟩, ⟨t, 0⟩, ⟨D, w⟩] 3 =
      .ok (s4, [⟨D, 1⟩, ⟨t, 0⟩, ⟨t, 0⟩, ⟨D, 1⟩], w) := by
    unfold normEdges
    rw [if_neg (by simp), if_neg (by norm_num : ¬ (3 : Nat) = 1), hpick]
    simp only [ne_eq, hw0, not_false_eq_true, if_true, hfold]
  refine ⟨s4, ?_, by rw [hn4, hn3, hn2, hn1], by rw [hc4, hc3, hc2, hc1]⟩
  unfold createVertex
  rw [hne]
  simp only [List.length_cons, List.length_nil, reduceIte, hw0, ne_eq, not_false_eq_true,
    isTrivial, isRedundant, List.getD]
  simp

/-- C2 witness: the scaled-identity collapse instantiated on the fresh table
with weight `w = A = 2`, destination `D = 5`, variable `0` and terminal `0`. -/
theorem createVertex_scaled_identity_witness :
    ∃ s', createVertex initSt 0 [⟨5, 2⟩, ⟨0, 0⟩, ⟨0, 0⟩, ⟨5, 2⟩] 0 3 = .ok (s', ⟨5, 2⟩) ∧
      s'.nodes = initSt.nodes ∧ s'.cxs = initSt.cxs := by
  exact createVertex_scaled_identity initSt 2 5 0 0
    (fun k v hk => by simp [look, initSt] at hk) (by decide) (by decide) (by decide)

lemma internC_nbp (s : St) (t : CT) : internC s t ≠ .error .badPrecision := by
  unfold internC
  split
  · simp
  · simp only []
    split <;> simp

lemma mulInst_nbp (s : St) (a j : Nat) : mulInst s a j ≠ .error .badPrecision := by
  unfold mulInst
  split
  · simp
  · split
    · simp
    · exact internC_nbp _ _

lemma mulFold_nbp : ∀ (l : List Nat) (s : St) (a : Nat),
    mulFold s a l ≠ .error .badPrecision := by
  intro l
  induction l with
  | nil => intro s a; simp [mulFold]
  | cons j tl ih =>
    intro s a
    unfold mulFold
    split
    · next er heq =>
      intro hc
      injection hc with h
      subst h
      exact mulInst_nbp _ _ _ heq
    · exact ih _ _

lemma mulS_nbp (s : St) (l : List Nat) : mulS s l ≠ .error .badPrecision := by
  unfold mulS
  rcases l with _ | ⟨i0, rest⟩
  · simp
  · simp only []
    split
    · simp
    · rcases hf : mulFold s i0 rest with er | ⟨s', r⟩
      · split
        · simp
        · intro hc
          injection hc with h
          subst h
          exact mulFold_nbp _ _ _ hf
      · split <;> simp

lemma strongLoop_nbp : ∀ (fuel : Nat) (s : St) (stk : List (Nat × Nat × String))
    (dec : Nat) (acc : List (String × ℚ × ℚ)),
    strongLoop fuel s stk dec acc ≠ .error .badPrecision := by
  intro fuel
  induction fuel with
  | zero => intro s stk dec acc; simp [strongLoop]
  | succ f ih =>
    intro s stk dec acc
    match stk with
    | [] => simp [strongLoop]
    | (v, w, str) :: rest =>
      unfold strongLoop
      split
      · exact ih _ _ _ _
      · simp only []
        split
        · next er heq =>
          intro hc
          injection hc with h
          subst h
          revert heq
          split
          · split
            · next heq2 => intro heq3; injection heq3 with h2; subst h2; exact mulS_nbp _ _ heq2
            · simp
          · simp
        · split
          · next er heq =>
            intro hc
            injection hc with h
            subst h
            revert heq
            split
            · split
              · next heq2 => intro heq3; injection heq3 with h2; subst h2; exact mulS_nbp _ _ heq2
              · simp
            · simp
          · exact ih _ _ _ _

lemma strongSimulate_nbp (fuel : Nat) (s : St) (entry : Ed) (dec : Nat) :
    strongSimulate fuel s entry dec ≠ .error .badPrecision := by
  unfold strongSimulate
  split
  · simp
  · split
    · simp
    · exact strongLoop_nbp _ _ _ _ _

lemma statevectorValidates_false (d : ℚ) :
    statevectorValidates d = false ↔ (d < 0 ∨ d.den ≠ 1) := by
  unfold statevectorValidates
  by_cases h1 : d < 0
  · simp [h1]
  · by_cases h2 : d.den = 1 <;> simp [h1, h2]

/-- C6 (amended): `statevector` fails with the invalid-precision error exactly
when `decimals` is negative or not an integer; every nonnegative integer value,
including values greater than 10, passes the precision validation. -/
theorem statevector_precision_check (fuel : Nat) (c : QC) (d : ℚ) :
    statevector fuel c d = .error .badPrecision ↔ (d < 0 ∨ d.den ≠ 1) := by
  constructor
  · intro h
    unfold statevector at h
    split at h
    · next hv =>
      exact (statevectorValidates_false d).mp (Bool.not_eq_true _ ▸ hv)
    · split at h
      · next er heq =>
        injection h with h2
        subst h2
        exact absurd heq (strongSimulate_nbp _ _ _ _)
      · exact absurd h (by simp)
  · intro h
    unfold statevector
    rw [if_pos (by simp [(statevectorValidates_false d).mpr h])]

/-- C7: gate appending is atomic with respect to validation: whenever the
arguments are invalid (too many qubits, an out-of-bounds index, a duplicate
index, mismatched control/state lengths after defaulting, or a non-binary
control-state character), `append` and `appendStep` return an error with the
circuit — its diagram, depth counter, qubit buckets and shared engine state —
exactly as it was before the call. -/
theorem append_validation_atomic :
    (∀ (fuel : Nat) (c : QC) (g : GateG) (target : Int) (controls : List Int)
        (ctrlState : String),
      (c.qubits < (target :: controls).length ∨
        ((target :: controls).any fun i => i < 0 ∨ (c.qubits : Int) ≤ i) = true ∨
        ¬ (target :: controls).Nodup ∨
        controls.length ≠ (if controls ≠ [] ∧ ctrlState = "" then
          String.mk (List.replicate controls.length '1') else ctrlState).length ∨
        ((if controls ≠ [] ∧ ctrlState = "" then
          String.mk (List.replicate controls.length '1') else ctrlState).toList.all
            fun ch => ch = '0' ∨ ch = '1') = false) →
      ∃ er, append fuel c g target controls ctrlState = (c, some er)) ∧
    (∀ (fuel : Nat) (c : QC) (gates : List GateG) (qubits : List Int),
      (gates.length ≠ qubits.length ∨ c.qubits < qubits.length ∨ ¬ qubits.Nodup ∨
        (qubits.any fun i => i < 0 ∨ (c.qubits : Int) ≤ i) = true) →
      ∃ er, appendStep fuel c gates qubits = (c, some er)) := by
  constructor
  · intro fuel c g target controls ctrlState h
    unfold append
    by_cases h1 : c.qubits < (target :: controls).length
    · exact ⟨.tooMany, by rw [if_pos h1]⟩
    · rw [if_neg h1]
      by_cases h2 : ((target :: controls).any fun i => decide (i < 0 ∨ (c.qubits : Int) ≤ i)) = true
      · exact ⟨.outOfBounds, by rw [if_pos h2]⟩
      · rw [if_neg h2]
        by_cases h3 : (target :: controls).Nodup
        · rw [if_neg (not_not_intro h3)]
          simp only []
          by_cases h4 : controls.length = (if controls ≠ [] ∧ ctrlState = "" then
              String.mk (List.replicate controls.length '1') else ctrlState).length
          · rw [if_neg (not_not_intro h4)]
            by_cases h5 : ((if controls ≠ [] ∧ ctrlState = "" then
                String.mk (List.replicate controls.length '1') else ctrlState).toList.all
                  fun ch => decide (ch = '0' ∨ ch = '1')) = true
            · rcases h with h | h | h | h | h
              · exact absurd h h1
              · exact absurd h h2
              · exact absurd h3 h
              · exact absurd h4 h
              · rw [Bool.eq_false_iff] at h
                exact absurd h5 h
            · exact ⟨.badCtrlChar, by rw [if_pos (by simpa using h5)]⟩
          · exact ⟨.unequal, by rw [if_pos h4]⟩
        · exact ⟨.duplicate, by rw [if_pos h3]⟩
  · intro fuel c gates qubits h
    unfold appendStep
    by_cases h1 : gates.length = qubits.length
    · rw [if_neg (not_not_intro h1)]
      by_cases h2 : c.qubits < qubits.length
      · exact ⟨.tooMany, by rw [if_pos h2]⟩
      · rw [if_neg h2]
        by_cases h3 : qubits.Nodup
        · rw [if_neg (not_not_intro h3)]
          by_cases h4 : (qubits.any fun i => decide (i < 0 ∨ (c.qubits : Int) ≤ i)) = true
          · exact ⟨.outOfBounds, by rw [if_pos h4]⟩
          · rcases h with h | h | h | h
            · exact absurd h1 h
            · exact absurd h h2
            · exact absurd h3 h
            · exact absurd h h4
        · exact ⟨.duplicate, by rw [if_pos h3]⟩
    · exact ⟨.unequal, by rw [if_pos h1]⟩

/-- C7 witness: a concrete rejected call: `append` of `X` on qubit 4 of the
fresh 1-qubit circuit fails out-of-bounds and leaves the circuit unchanged;
`appendStep` with a duplicated qubit list likewise. -/
theorem append_validation_atomic_witness :
    (∃ er, append 30 oneQC gateX 4 [] "" = (oneQC, some er)) ∧
    (∃ er, appendStep 30 oneQC [gateX, gateX] [0, 0] = (oneQC, some er)) := by
  constructor
  · exact append_validation_atomic.1 30 oneQC gateX 4 [] ""
      (Or.inr (Or.inl (by with_unfolding_all decide)))
  · exact append_validation_atomic.2 30 oneQC [gateX, gateX] [0, 0]
      (Or.inr (Or.inr (Or.inl (by simp))))

lemma mulT_comm (x y : CT) : mulT x y = mulT y x := by
  simp only [mulT, CT.mk.injEq]
  refine ⟨by ring, by ring, by ring, by ring, by ring⟩

lemma mulInst_comm (s : St) (i j : Nat) : mulInst s i j = mulInst s j i := by
  unfold mulInst
  by_cases hi0 : i = 0
  · subst hi0
    by_cases hj0 : j = 0
    · subst hj0
      rfl
    · by_cases hj1 : j = 1 <;> simp [hj0, hj1]
  · by_cases hj1 : j = 1
    · subst hj1
      by_cases hi1 : i = 1
      · subst hi1
        rfl
      · simp [hi0, hi1]
    · by_cases hj0 : j = 0
      · subst hj0
        simp [hi0, hj1]
      · by_cases hi1 : i = 1
        · subst hi1
          simp [hj0, hj1]
        · simp [hi0, hi1, hj0, hj1, mulT_comm (getC s i) (getC s j)]

lemma sortPair_comm (i j : Nat) :
    List.insertionSort (fun x1 x2 : Nat => x1 ≤ x2) [i, j] =
    List.insertionSort (fun x1 x2 : Nat => x1 ≤ x2) [j, i] := by
  simp only [List.insertionSort, List.orderedInsert]
  rcases lt_trichotomy i j with h | h | h
  · rw [if_pos h.le, if_neg (not_le.mpr h)]
  · subst h
    rfl
  · rw [if_neg (not_le.mpr h), if_pos h.le]

/-- C8 (amended): `Complex.add` is commutative (the static method sorts its two
operands before consulting the cache and computing), and `Complex.mul` of a
two-operand list is order-independent; permutations of three or more operands
share one sorted cache key but can return different indices on a cache miss
(see the counterexample). -/
theorem add_mul_commutative :
    (∀ (s : St) (i j : Nat), addS s i j = addS s j i) ∧
    (∀ (s : St) (i j : Nat), mulS s [i, j] = mulS s [j, i]) := by
  constructor
  · intro s i j
    unfold addS
    rcases lt_trichotomy i j with h | h | h
    · rw [if_neg (by omega), if_pos h]
    · subst h
      rfl
    · rw [if_pos h, if_neg (by omega)]
  · intro s i j
    unfold mulS
    simp only []
    have hany : (([i, j] : List Nat).any fun k => decide ¬ k < s.cxs.length) =
        (([j, i] : List Nat).any fun k => decide ¬ k < s.cxs.length) := by
      simp only [List.any_cons, List.any_nil, Bool.or_false]
      exact Bool.or_comm _ _
    rw [hany, sortPair_comm i j]
    split
    · rfl
    · have hfold : mulFold s i [j] = mulFold s j [i] := by
        unfold mulFold
        rw [mulInst_comm s i j]
      rw [hfold]

lemma divS_nodes {s : St} {n d : Nat} {s' : St} {v : Nat}
    (h : divS s n d = .ok (s', v)) : s'.nodes = s.nodes := by
  unfold divS at h
  split at h
  · cases h
  · split at h
    · cases h
      rfl
    · split at h
      · cases h
      · split at h
        · cases h
          rfl
        · split at h
          · cases h
            rfl
          · split at h
            · cases h
            · next s2 q heq =>
              cases h
              exact (internC_shape heq).2.1

lemma normDivFold_shape : ∀ (es : List Ed) (s : St) (f : Nat) (s' : St) (es' : List Ed),
    normDivFold s f es = .ok (s', es') →
    s'.nodes = s.nodes ∧ es'.map (fun e => e.dest) = es.map (fun e => e.dest) := by
  intro es
  induction es with
  | nil =>
    intro s f s' es' h
    unfold normDivFold at h
    cases h
    exact ⟨rfl, rfl⟩
  | cons e t ih =>
    intro s f s' es' h
    unfold normDivFold at h
    split at h
    · cases h
    · next s1 w1 heq1 =>
      split at h
      · cases h
      · next s2 t2 heq2 =>
        cases h
        obtain ⟨hn, hd⟩ := ih _ _ _ _ heq2
        refine ⟨hn.trans (divS_nodes heq1), ?_⟩
        simp [hd]

lemma normEdges_shape {s : St} {es : List Ed} {r : Nat} {s1 : St} {es' : List Ed} {f : Nat}
    (h : normEdges s es r = .ok (s1, es', f)) :
    s1.nodes = s.nodes ∧ es'.map (fun e => e.dest) = es.map (fun e => e.dest) := by
  unfold normEdges at h
  split at h
  · cases h
    exact ⟨rfl, rfl⟩
  · simp only [] at h
    split at h
    · cases h
    · split at h
      · split at h
        · cases h
        · next s2 es2 heq =>
          cases h
          exact normDivFold_shape _ _ _ _ _ heq
      · cases h
        exact ⟨rfl, rfl⟩

/-- C5 (amended): every vector vertex stored by the vertex factory carries a
selection probability equal to the sum over its two (normalized) outgoing
edges of `child.prob * |edge.weight|^2`; the field is computed once, when the
vertex is created. Matrix vertices keep the default probability `1`. -/
theorem vector_node_prob_invariant (s : St) (vr : Int) (outgoing : List Ed)
    (term : Nat) (rule : Nat) (s' : St) (e : Ed)
    (hout : ∀ ed ∈ outgoing, ed.dest < s.nodes.length)
    (hcv : createVertex s vr outgoing term rule = .ok (s', e)) :
    ∀ n ∈ s'.nodes, n ∉ s.nodes → n.edges.length = 2 → n.prob = probFormula s' n.edges := by
  unfold createVertex at hcv
  split at hcv
  · cases hcv
  · next s1 es factor heq =>
    obtain ⟨hn1, hdests⟩ := normEdges_shape heq
    simp only [] at hcv
    split at hcv
    · cases hcv
      intro n hmem hnot
      rw [hn1] at hmem
      exact absurd hmem hnot
    · split at hcv
      · next hlen =>
        split at hcv
        · cases hcv
          intro n hmem hnot
          rw [hn1] at hmem
          exact absurd hmem hnot
        · split at hcv
          · cases hcv
            intro n hmem hnot
            rw [hn1] at hmem
            exact absurd hmem hnot
          · cases hcv
            intro n hmem hnot h2
            rcases List.mem_append.mp hmem with hold | hnew
            · rw [hn1] at hold
              exact absurd hold hnot
            · have hn : n = ⟨vr, es, probFormula s1 es⟩ := by simpa using hnew
              subst hn
              have hb : ∀ ed ∈ es, ed.dest < s1.nodes.length := by
                intro ed hed
                have hm : ed.dest ∈ es.map (fun e => e.dest) :=
                  List.mem_map_of_mem _ hed
                rw [hdests] at hm
                obtain ⟨o, ho, hod⟩ := List.mem_map.mp hm
                rw [← hod, hn1]
                exact hout o ho
              match es, hlen, hb with
              | [e0, e1], _, hb =>
                simp only [probFormula, getN, getC]
                rw [List.getD_append _ _ _ _ (hb e0 (by simp)),
                  List.getD_append _ _ _ _ (hb e1 (by simp))]
      · next hlen =>
        split at hcv
        · cases hcv
          intro n hmem hnot
          rw [hn1] at hmem
          exact absurd hmem hnot
        · split at hcv
          · cases hcv
            intro n hmem hnot
            rw [hn1] at hmem
            exact absurd hmem hnot
          · cases hcv
            intro n hmem hnot h2
            rcases List.mem_append.mp hmem with hold | hnew
            · rw [hn1] at hold
              exact absurd hold hnot
            · have hn : n = ⟨vr, es, ((1 : ℚ), (0 : ℚ))⟩ := by simpa using hnew
              subst hn
              exact absurd h2 hlen

/-- C5 witness: the amended invariant applied to a concrete vector-vertex
creation (the ground-state chain step on a fresh 1-qubit session): the stored
vertex's probability equals the edge-weighted sum of its children's. -/
theorem vector_node_prob_invariant_witness :
    (getN cv5.1 cv5.2.dest).prob = probFormula cv5.1 (getN cv5.1 cv5.2.dest).edges := by
  exact vector_node_prob_invariant (createTerminal initSt 1).1 0 [⟨0, 1⟩, ⟨0, 0⟩] 0 3
    cv5.1 cv5.2
    (by intro ed hed; fin_cases hed <;> with_unfolding_all decide)
    (by with_unfolding_all rfl)
    (getN cv5.1 cv5.2.dest)
    (by with_unfolding_all decide)
    (by with_unfolding_all decide)
    (by with_unfolding_all decide)

/-- C4 (failing input): the `Complex` constructor applied to
`(1, -2, 3, -4, -5)` stores the tuple unreduced with denominator `E = -5 < 0`:
the sign of a negative `E` is not folded into the other components, contrary to
the spec and to the repository's own test
(`complex.test.ts` expects `'-1;2;-3;4;5'` for this input). -/
theorem complex_constructor_negative_denominator :
    internC initSt ⟨1, -2, 3, -4, -5⟩ =
      .ok ({ initSt with cxs := resetCxs ++ [⟨1, -2, 3, -4, -5⟩] }, 9) ∧
    (canon ⟨1, -2, 3, -4, -5⟩).e < 0 := by
  exact ⟨by with_unfolding_all rfl, by decide⟩

/-- C3 (counterexample): `div(ZERO, ONE)` from a fresh table returns `ZERO` but
does insert the entry `((0, 1), 0)` into the division cache, refuting the
"inserts no entry into the division cache" part of the claim. -/
theorem div_zero_numerator_caches :
    divS initSt 0 1 = .ok ({ initSt with quots := [((0, 1), 0)] }, 0) ∧
    ({ initSt with quots := [((0, 1), 0)] } : St).quots ≠ initSt.quots := by
  exact ⟨rfl, by decide⟩

/-- C5 (counterexample): the Hadamard gate vertex is a matrix node whose stored
selection probability is the constructor default `1`, not the claimed sum over
its outgoing edges of `child.prob * |weight|^2` (which evaluates to `4` here):
only vector nodes get the recursive probability. -/
theorem matrix_node_prob_not_sum :
    (getN hRun.1 hRun.2.dest).edges.length = 4 ∧
    (getN hRun.1 hRun.2.dest).prob = (1, 0) ∧
    claimedProb hRun.1 (getN hRun.1 hRun.2.dest) = (4, 0) := by
  refine ⟨by with_unfolding_all decide, by with_unfolding_all decide, by with_unfolding_all decide⟩

/-- C6 (counterexample): `statevector` with `decimals = 11 > 10` does not fail:
the validation accepts any nonnegative integer, and the call on a fresh
1-qubit circuit produces its statevector. -/
theorem statevector_accepts_eleven :
    statevector 30 oneQC 11 = .ok [("0", 1, 0)] := by
  with_unfolding_all rfl

/-- C8 (counterexample): from the same state (the reset table plus the interned
value `2` at index 9), `mul([I, I, 2])` returns index 10 while the permuted
`mul([I, 2, I])` returns index 11: on a cache miss the fold interns different
intermediate products, so permutations of three or more operands can disagree. -/
theorem mul_permutation_counterexample :
    (mulS c8St [4, 4, 9]).toOption.map Prod.snd = some 10 ∧
    (mulS c8St [4, 9, 4]).toOption.map Prod.snd = some 11 := by
  exact ⟨by with_unfolding_all rfl, by with_unfolding_all rfl⟩

/-- C9: weak sampling is deterministic in the seed: when an explicit seed is
provided, `sample` never consults the ambient randomness (modelled by the
`entropy` argument standing in for `randomString()`), so any two calls with the
same circuit, shot count and seed return exactly equal maps of basis states to
occurrence counts and amplitudes. -/
theorem sample_seed_determinism :
    ∀ (fuel : Nat) (c : QC) (shots : Int) (seed : String) (e1 e2 : String),
      sample fuel c shots (some seed) e1 = sample fuel c shots (some seed) e2 := by
  intro fuel c shots seed e1 e2
  rfl


/-- C10 (counterexample): in the 2-qubit ground state the root vertex sits at
variable `0` (which is not `n - 1 = 1`), yet its outgoing edge `1` (weight `0`)
points at vertex `0`, the terminal at variable `2`, not at a vertex at
variable `1`: the claimed "both outgoing edges point to a node at `v+1`, or to
the terminal only when `v = n-1`" fails for zero-weight edges. -/
theorem ground_state_zero_edge_jumps_to_terminal :
    gs2e = ⟨2, 1⟩ ∧ (getN gs2 2).vr = 0 ∧
    (getN gs2 2).edges = [⟨1, 1⟩, ⟨0, 0⟩] ∧
    (getN gs2 0).vr = 2 ∧ (getN gs2 0).edges = [] ∧
    ¬ (getN gs2 0).vr = (getN gs2 2).vr + 1 ∧
    ¬ (getN gs2 2).vr = 2 - 1 := by
  with_unfolding_all decide


/-! ### Level-structure well-formedness: basic lemmas -/

lemma getNd_append {nodes : List Nd} {l : List Nd} {i : Nat} (h : i < nodes.length) :
    getNd (nodes ++ l) i = getNd nodes i := by
  simp only [getNd]
  exact List.getD_append _ _ _ _ h

lemma getNd_mem {nodes : List Nd} {i : Nat} (h : i < nodes.length) :
    getNd nodes i ∈ nodes := by
  simp only [getNd, List.getD_eq_getElem?_getD, List.getElem?_eq_getElem h,
    Option.getD_some]
  exact List.getElem_mem h

lemma vecE_zero_iff {nodes : List Nd} {term n : Nat} {e : Ed} :
    vecE nodes term n 0 e = true ↔ (e.weight = 0 ∨ e.dest = term) := by
  simp [vecE]

lemma vecE_succ_iff {nodes : List Nd} {term n k : Nat} {e : Ed} :
    vecE nodes term n (k + 1) e = true ↔
      (e.weight = 0 ∨
       (e.dest < nodes.length ∧
        (getNd nodes e.dest).vr = ((n - (k + 1) : Nat) : Int) ∧
        (getNd nodes e.dest).edges.length = 2 ∧
        ∀ ed ∈ (getNd nodes e.dest).edges, vecE nodes term n k ed = true)) := by
  simp [vecE, List.all_eq_true, and_assoc]

lemma matE_zero_iff {nodes : List Nd} {term n : Nat} {e : Ed} :
    matE nodes term n 0 e = true ↔ (e.weight = 0 ∨ e.dest = term) := by
  simp [matE]

lemma matE_succ_iff {nodes : List Nd} {term n k : Nat} {e : Ed} :
    matE nodes term n (k + 1) e = true ↔
      (e.weight = 0 ∨ e.dest = term ∨
       (e.dest < nodes.length ∧
        (((getNd nodes e.dest).vr = ((n - (k + 1) : Nat) : Int) ∧
          (getNd nodes e.dest).edges.length = 4 ∧
          ∀ ed ∈ (getNd nodes e.dest).edges, matE nodes term n k ed = true) ∨
         (((n - (k + 1) : Nat) : Int) < (getNd nodes e.dest).vr ∧
          matE nodes term n k e = true)))) := by
  simp [matE, List.all_eq_true, and_assoc, or_assoc]

lemma vecE_of_zero {nodes : List Nd} {term n k : Nat} {e : Ed} (h : e.weight = 0) :
    vecE nodes term n k e = true := by
  cases k <;> simp [vecE, h]

lemma matE_of_zero {nodes : List Nd} {term n k : Nat} {e : Ed} (h : e.weight = 0) :
    matE nodes term n k e = true := by
  cases k <;> simp [matE, h]

lemma matE_of_term {nodes : List Nd} {term n k : Nat} {e : Ed} (h : e.dest = term) :
    matE nodes term n k e = true := by
  cases k <;> simp [matE, h]

lemma vecE_weight {nodes : List Nd} {term n k : Nat} {d w w' : Nat}
    (h : vecE nodes term n k ⟨d, w⟩ = true) (hw : w ≠ 0) :
    vecE nodes term n k ⟨d, w'⟩ = true := by
  by_cases hw' : w' = 0
  · exact vecE_of_zero hw'
  · cases k with
    | zero =>
      rcases vecE_zero_iff.mp h with h0 | ht
      · exact absurd h0 hw
      · exact vecE_zero_iff.mpr (Or.inr ht)
    | succ k =>
      rcases vecE_succ_iff.mp h with h0 | hs
      · exact absurd h0 hw
      · exact vecE_succ_iff.mpr (Or.inr hs)

lemma matE_weight {nodes : List Nd} {term n : Nat} {d w w' : Nat} (hw : w ≠ 0) :
    ∀ k, matE nodes term n k ⟨d, w⟩ = true → matE nodes term n k ⟨d, w'⟩ = true := by
  by_cases hw' : w' = 0
  · intro k _
    exact matE_of_zero hw'
  · intro k
    induction k with
    | zero =>
      intro h
      rcases matE_zero_iff.mp h with h0 | ht
      · exact absurd h0 hw
      · exact matE_of_term ht
    | succ k ih =>
      intro h
      rcases matE_succ_iff.mp h with h0 | ht | ⟨hlt, hcase⟩
      · exact absurd h0 hw
      · exact matE_of_term ht
      · refine matE_succ_iff.mpr (Or.inr (Or.inr ⟨hlt, ?_⟩))
        rcases hcase with hx | ⟨hgt, hrec⟩
        · exact Or.inl hx
        · exact Or.inr ⟨hgt, ih hrec⟩

lemma vecE_mono {nodes l : List Nd} {term n : Nat} :
    ∀ k (e : Ed), vecE nodes term n k e = true → vecE (nodes ++ l) term n k e = true := by
  intro k
  induction k with
  | zero =>
    intro e h
    exact vecE_zero_iff.mpr (vecE_zero_iff.mp h)
  | succ k ih =>
    intro e h
    rcases vecE_succ_iff.mp h with h0 | ⟨hlt, hvr, hlen, hall⟩
    · exact vecE_of_zero h0
    · refine vecE_succ_iff.mpr (Or.inr ?_)
      rw [getNd_append hlt]
      refine ⟨by simp [List.length_append]; omega, hvr, hlen, ?_⟩
      intro ed hed
      exact ih ed (hall ed hed)

lemma matE_mono {nodes l : List Nd} {term n : Nat} :
    ∀ k (e : Ed), matE nodes term n k e = true → matE (nodes ++ l) term n k e = true := by
  intro k
  induction k with
  | zero =>
    intro e h
    exact matE_zero_iff.mpr (matE_zero_iff.mp h)
  | succ k ih =>
    intro e h
    rcases matE_succ_iff.mp h with h0 | ht | ⟨hlt, hcase⟩
    · exact matE_of_zero h0
    · exact matE_of_term ht
    · refine matE_succ_iff.mpr (Or.inr (Or.inr ?_))
      rw [getNd_append hlt]
      refine ⟨by simp [List.length_append]; omega, ?_⟩
      rcases hcase with ⟨hvr, hlen, hall⟩ | ⟨hgt, hrec⟩
      · exact Or.inl ⟨hvr, hlen, fun ed hed => ih ed (hall ed hed)⟩
      · exact Or.inr ⟨hgt, ih e hrec⟩

lemma vecE_down {nodes l : List Nd} {term n : Nat} (hst : StoreOK nodes)
    (hterm : term < nodes.length) :
    ∀ k (e : Ed), (e.dest < nodes.length ∨ e.weight = 0) →
      vecE (nodes ++ l) term n k e = true → vecE nodes term n k e = true := by
  intro k
  induction k with
  | zero =>
    intro e _ h
    exact vecE_zero_iff.mpr (vecE_zero_iff.mp h)
  | succ k ih =>
    intro e hb h
    rcases vecE_succ_iff.mp h with h0 | ⟨_, hvr, hlen, hall⟩
    · exact vecE_of_zero h0
    · rcases hb with hb | hb
      · rw [getNd_append hb] at hvr hlen hall
        refine vecE_succ_iff.mpr (Or.inr ⟨hb, hvr, hlen, ?_⟩)
        intro ed hed
        exact ih ed (Or.inl (hst _ (getNd_mem hb) ed hed)) (hall ed hed)
      · exact vecE_of_zero hb

lemma matE_down {nodes l : List Nd} {term n : Nat} (hst : StoreOK nodes)
    (hterm : term < nodes.length) :
    ∀ k (e : Ed), (e.dest < nodes.length ∨ e.weight = 0) →
      matE (nodes ++ l) term n k e = true → matE nodes term n k e = true := by
  intro k
  induction k with
  | zero =>
    intro e _ h
    exact matE_zero_iff.mpr (matE_zero_iff.mp h)
  | succ k ih =>
    intro e hb h
    rcases matE_succ_iff.mp h with h0 | ht | ⟨_, hcase⟩
    · exact matE_of_zero h0
    · exact matE_of_term ht
    · rcases hb with hb | hb
      · rw [getNd_append hb] at hcase
        refine matE_succ_iff.mpr (Or.inr (Or.inr ⟨hb, ?_⟩))
        rcases hcase with ⟨hvr, hlen, hall⟩ | ⟨hgt, hrec⟩
        · refine Or.inl ⟨hvr, hlen, ?_⟩
          intro ed hed
          exact ih ed (Or.inl (hst _ (getNd_mem hb) ed hed)) (hall ed hed)
        · exact Or.inr ⟨hgt, ih e (Or.inl hb) hrec⟩
      · exact matE_of_zero hb

lemma matE_weaken {nodes : List Nd} {term n : Nat} :
    ∀ kBig, ∀ k ≤ kBig, ∀ e : Ed, matE nodes term n k e = true →
      matE nodes term n kBig e = true := by
  intro kBig
  induction kBig with
  | zero =>
    intro k hk e h
    interval_cases k
    exact h
  | succ kb ih =>
    intro k hk e h
    by_cases hkk : k = kb + 1
    · subst hkk
      exact h
    · have hk' : k ≤ kb := by omega
      cases k with
      | zero =>
        rcases matE_zero_iff.mp h with h0 | ht
        · exact matE_of_zero h0
        · exact matE_of_term ht
      | succ j =>
        rcases matE_succ_iff.mp h with h0 | ht | ⟨hlt, hcase⟩
        · exact matE_of_zero h0
        · exact matE_of_term ht
        · refine matE_succ_iff.mpr (Or.inr (Or.inr ⟨hlt, ?_⟩))
          rcases hcase with ⟨hvr, hlen, hall⟩ | ⟨hgt, hrec⟩
          · by_cases heq : (n - (kb + 1) : Nat) = (n - (j + 1) : Nat)
            · exact Or.inl ⟨by rw [heq]; exact hvr, hlen,
                fun ed hed => ih j (by omega) ed (hall ed hed)⟩
            · have hlt2 : (n - (kb + 1) : Nat) < (n - (j + 1) : Nat) := by omega
              exact Or.inr ⟨by rw [hvr]; exact_mod_cast hlt2, ih (j + 1) hk' e h⟩
          · exact Or.inr ⟨lt_of_le_of_lt
              (by exact_mod_cast Nat.sub_le_sub_left (by omega : j + 1 ≤ kb + 1) n) hgt,
              ih (j + 1) hk' e h⟩


/-! ### Complex-table operations: field preservation and zero propagation -/

lemma mulInst_shape {s : St} {acc j : Nat} {s' : St} {r : Nat}
    (h : mulInst s acc j = .ok (s', r)) :
    s'.nodes = s.nodes ∧ s'.quots = s.quots ∧ s'.prods = s.prods ∧
      s'.sums = s.sums ∧ s'.nsums = s.nsums ∧ s'.nprods = s.nprods ∧
      (acc = 0 ∨ j = 0 → r = 0) := by
  unfold mulInst at h
  split at h
  · next hc =>
    cases h
    refine ⟨rfl, rfl, rfl, rfl, rfl, rfl, ?_⟩
    intro hz
    rcases hc with hc | hc
    · exact hc
    · rcases hz with hz | hz
      · exact hz
      · omega
  · next hc =>
    split at h
    · next hc2 =>
      cases h
      refine ⟨rfl, rfl, rfl, rfl, rfl, rfl, ?_⟩
      intro hz
      rcases hc2 with hc2 | hc2
      · exact hc2
      · rcases hz with hz | hz
        · exact absurd (Or.inl hz) hc
        · exact hz
    · next hc2 =>
      obtain ⟨_, h2, h3, h4, h5, h6, h7⟩ := internC_shape h
      refine ⟨h2, h3, h5, h4, h6, h7, ?_⟩
      intro hz
      rcases hz with hz | hz
      · exact absurd (Or.inl hz) hc
      · exact absurd (Or.inl hz) hc2

lemma mulFold_shape {s : St} {acc : Nat} : ∀ {l : List Nat} {s' : St} {r : Nat},
    mulFold s acc l = .ok (s', r) →
    s'.nodes = s.nodes ∧ s'.quots = s.quots ∧ s'.prods = s.prods ∧
      s'.nsums = s.nsums ∧ s'.nprods = s.nprods ∧
      (acc = 0 ∨ 0 ∈ l → r = 0) := by
  intro l
  induction l generalizing s acc with
  | nil =>
    intro s' r h
    cases h
    refine ⟨rfl, rfl, rfl, rfl, rfl, ?_⟩
    intro hz
    rcases hz with hz | hz
    · exact hz
    · simp at hz
  | cons j t ih =>
    intro s' r h
    unfold mulFold at h
    split at h
    · cases h
    · next s1 a1 heq =>
      obtain ⟨h2, h3, h5, _, h6, h7, hz1⟩ := mulInst_shape heq
      obtain ⟨g2, g3, g5, g6, g7, gz⟩ := ih h
      refine ⟨g2.trans h2, g3.trans h3, g5.trans h5, g6.trans h6, g7.trans h7, ?_⟩
      intro hz
      apply gz
      rcases hz with hz | hz
      · exact Or.inl (hz1 (Or.inl hz))
      · rcases List.mem_cons.mp hz with hz | hz
        · exact Or.inl (hz1 (Or.inr hz.symm))
        · exact Or.inr hz

lemma mulS_pres {s : St} {l : List Nat} {s' : St} {v : Nat}
    (hp : ProdsZeroOK s) (h : mulS s l = .ok (s', v)) :
    s'.nodes = s.nodes ∧ s'.quots = s.quots ∧ s'.nsums = s.nsums ∧
      s'.nprods = s.nprods ∧ ProdsZeroOK s' ∧ (0 ∈ l → v = 0) := by
  unfold mulS at h
  split at h
  · cases h
  · next i0 rest =>
    split at h
    · cases h
    · simp only [] at h
      split at h
      · next w hl =>
        cases h
        refine ⟨rfl, rfl, rfl, rfl, hp, ?_⟩
        intro h0
        refine hp _ _ hl ?_
        exact (List.Perm.mem_iff (List.perm_insertionSort _ (i0 :: rest))).mpr h0
      · next hl =>
        split at h
        · cases h
        · next s1 p heq =>
          cases h
          obtain ⟨h2, h3, hpr, h6, h7, hz⟩ := mulFold_shape heq
          refine ⟨h2, h3, h6, h7, ?_, ?_⟩
          · intro key w hw h0k
            simp only [look] at hw
            split at hw
            · next hkey =>
              cases hw
              apply hz
              rw [← hkey] at h0k
              have h0' : (0 : Nat) ∈ i0 :: rest :=
                (List.Perm.mem_iff (List.perm_insertionSort _ (i0 :: rest))).mp h0k
              rcases List.mem_cons.mp h0' with h0' | h0'
              · exact Or.inl h0'.symm
              · exact Or.inr h0'
            · rw [hpr] at hw
              exact hp key w hw h0k
          · intro h0
            apply hz
            rcases List.mem_cons.mp h0 with h0' | h0'
            · exact Or.inl h0'.symm
            · exact Or.inr h0' 

lemma addCore_shape {s : St} {i j : Nat} {s' : St} {v : Nat}
    (h : addCore s i j = .ok (s', v)) :
    s'.nodes = s.nodes ∧ s'.quots = s.quots ∧ s'.prods = s.prods ∧
      s'.nsums = s.nsums ∧ s'.nprods = s.nprods := by
  unfold addCore at h
  split at h
  · cases h
  · split at h
    · cases h
      exact ⟨rfl, rfl, rfl, rfl, rfl⟩
    · split at h
      · cases h
        exact ⟨rfl, rfl, rfl, rfl, rfl⟩
      · split at h
        · cases h
        · next s1 r heq =>
          cases h
          obtain ⟨_, h2, h3, _, h5, h6, h7⟩ := internC_shape heq
          exact ⟨h2, h3, h5, h6, h7⟩

lemma addS_shape {s : St} {i j : Nat} {s' : St} {v : Nat}
    (h : addS s i j = .ok (s', v)) :
    s'.nodes = s.nodes ∧ s'.quots = s.quots ∧ s'.prods = s.prods ∧
      s'.nsums = s.nsums ∧ s'.nprods = s.nprods := by
  unfold addS at h
  split at h
  · exact addCore_shape h
  · exact addCore_shape h

lemma divS_pres {s : St} {a d : Nat} {s' : St} {v : Nat}
    (hq : QuotsZeroOK s) (h : divS s a d = .ok (s', v)) :
    s'.nodes = s.nodes ∧ s'.prods = s.prods ∧ s'.nsums = s.nsums ∧
      s'.nprods = s.nprods ∧ QuotsZeroOK s' ∧ (a = 0 → v = 0) := by
  unfold divS at h
  split at h
  · cases h
  · split at h
    · next w hl =>
      cases h
      refine ⟨rfl, rfl, rfl, rfl, hq, ?_⟩
      intro h0
      subst h0
      exact hq _ _ hl
    · split at h
      · cases h
      · next hdz =>
        split at h
        · next hcase =>
          cases h
          refine ⟨rfl, rfl, rfl, rfl, ?_, fun h0 => h0⟩
          intro d' v' hv'
          simp only [look] at hv'
          split at hv'
          · next hkey =>
            cases hv'
            have : a = 0 := by
              have := congrArg Prod.fst hkey
              simpa using this
            exact this
          · exact hq _ _ hv'
        · next hcase =>
          split at h
          · next hnd =>
            cases h
            refine ⟨rfl, rfl, rfl, rfl, ?_, ?_⟩
            · intro d' v' hv'
              simp only [look] at hv'
              split at hv'
              · next hkey =>
                have : a = 0 := by
                  have := congrArg Prod.fst hkey
                  simpa using this
                exact absurd (Or.inl this) hcase
              · exact hq _ _ hv'
            · intro h0
              exact absurd (Or.inl h0) hcase
          · split at h
            · cases h
            · next s1 q heq =>
              cases h
              obtain ⟨_, h2, h3, _, h5, h6, h7⟩ := internC_shape heq
              refine ⟨h2, h5, h6, h7, ?_, ?_⟩
              · intro d' v' hv'
                simp only [look] at hv'
                split at hv'
                · next hkey =>
                  have : a = 0 := by
                    have := congrArg Prod.fst hkey
                    simpa using this
                  exact absurd (Or.inl this) hcase
                · rw [h3] at hv'
                  exact hq _ _ hv'
              · intro h0
                exact absurd (Or.inl h0) hcase


/-! ### Engine-invariant stability and extension -/

lemma EngineInv_stable {s s' : St} {term n : Nat} (h : EngineInv s term n)
    (hn : s'.nodes = s.nodes) (hns : s'.nsums = s.nsums) (hnp : s'.nprods = s.nprods)
    (hq : QuotsZeroOK s') (hp : ProdsZeroOK s') : EngineInv s' term n := by
  obtain ⟨h1, h2, h3, _, _, h6, h7⟩ := h
  refine ⟨by rw [hn]; exact h1, by rw [hn]; exact h2, by rw [hn]; exact h3, hq, hp, ?_, ?_⟩
  · intro d0 d1 w0 w1 e he
    rw [hns] at he
    rw [hn]
    exact h6 d0 d1 w0 w1 e he
  · intro dm dv wm wv e he
    rw [hnp] at he
    rw [hn]
    exact h7 dm dv wm wv e he

lemma NSumsOK_ext {s : St} {term n : Nat} {nodes' : List Nd} {l : List Nd}
    (hst : StoreOK s.nodes) (hterm : term < s.nodes.length)
    (h : NSumsOK s term n) (hn : nodes' = s.nodes ++ l) :
    ∀ d0 d1 w0 w1 e, look s.nsums (d0, d1, w0, w1) = some e →
      d0 < nodes'.length ∧ d1 < nodes'.length ∧ e.dest < nodes'.length ∧
      ∀ k, k ≤ n → w0 ≠ 0 → w1 ≠ 0 → d0 ≠ d1 →
        vecE nodes' term n k ⟨d0, w0⟩ = true → vecE nodes' term n k ⟨d1, w1⟩ = true →
        vecE nodes' term n k e = true := by
  intro d0 d1 w0 w1 e he
  obtain ⟨hb0, hb1, hbe, himp⟩ := h d0 d1 w0 w1 e he
  subst hn
  refine ⟨by simp only [List.length_append]; omega,
    by simp only [List.length_append]; omega,
    by simp only [List.length_append]; omega, ?_⟩
  intro k hk hw0 hw1 hdd hv0 hv1
  have hv0' := vecE_down hst hterm k _ (Or.inl hb0) hv0
  have hv1' := vecE_down hst hterm k _ (Or.inl hb1) hv1
  exact vecE_mono k _ (himp k hk hw0 hw1 hdd hv0' hv1')

lemma NProdsOK_ext {s : St} {term n : Nat} {nodes' : List Nd} {l : List Nd}
    (hst : StoreOK s.nodes) (hterm : term < s.nodes.length)
    (h : NProdsOK s term n) (hn : nodes' = s.nodes ++ l) :
    ∀ dm dv wm wv e, look s.nprods (dm, dv, wm, wv) = some e →
      dm < nodes'.length ∧ dv < nodes'.length ∧ e.dest < nodes'.length ∧
      ∀ k, k ≤ n → wm ≠ 0 → wv ≠ 0 → (getNd nodes' dm).edges ≠ [] →
        matE nodes' term n k ⟨dm, wm⟩ = true → vecE nodes' term n k ⟨dv, wv⟩ = true →
        vecE nodes' term n k e = true := by
  intro dm dv wm wv e he
  obtain ⟨hbm, hbv, hbe, himp⟩ := h dm dv wm wv e he
  subst hn
  refine ⟨by simp only [List.length_append]; omega,
    by simp only [List.length_append]; omega,
    by simp only [List.length_append]; omega, ?_⟩
  intro k hk hwm hwv hne hm hv
  rw [getNd_append hbm] at hne
  have hm' := matE_down hst hterm k _ (Or.inl hbm) hm
  have hv' := vecE_down hst hterm k _ (Or.inl hbv) hv
  exact vecE_mono k _ (himp k hk hwm hwv hne hm' hv')

lemma EngineInv_ext {s s' : St} {term n : Nat} {l : List Nd} (h : EngineInv s term n)
    (hn : s'.nodes = s.nodes ++ l) (hst' : StoreOK s'.nodes)
    (hns : s'.nsums = s.nsums) (hnp : s'.nprods = s.nprods)
    (hq : QuotsZeroOK s') (hp : ProdsZeroOK s') : EngineInv s' term n := by
  obtain ⟨h1, h2, h3, _, _, h6, h7⟩ := h
  refine ⟨hst', ?_, ?_, hq, hp, ?_, ?_⟩
  · rw [hn]
    simp only [List.length_append]
    omega
  · rw [hn, getNd_append h2]
    exact h3
  · intro d0 d1 w0 w1 e he
    rw [hns] at he
    exact NSumsOK_ext h1 h2 h6 hn d0 d1 w0 w1 e he
  · intro dm dv wm wv e he
    rw [hnp] at he
    exact NProdsOK_ext h1 h2 h7 hn dm dv wm wv e he

lemma findNode_some {s : St} {vr : Int} {es : List Ed} {i : Nat}
    (h : findNode s vr es = some i) :
    i < s.nodes.length ∧ (getNd s.nodes i).vr = vr ∧ (getNd s.nodes i).edges = es := by
  unfold findNode at h
  obtain ⟨hlt, hidx⟩ := List.findIdx?_eq_some_iff_findIdx_eq.mp h
  have hp := @List.findIdx_getElem _ (fun n => decide (n.vr = vr ∧ n.edges = es))
    s.nodes (by rw [hidx]; exact hlt)
  simp only [hidx, decide_eq_true_eq] at hp
  have hg : getNd s.nodes i = s.nodes[i] := by
    simp only [getNd, List.getD_eq_getElem?_getD, List.getElem?_eq_getElem hlt,
      Option.getD_some]
  exact ⟨hlt, by rw [hg]; exact hp.1, by rw [hg]; exact hp.2⟩


/-! ### Normalization: state preservation and the edge correspondence -/

/-- The correspondence between an edge list and its normalized form: the
destinations are preserved and zero weights stay zero. -/
def NormRel (a b : Ed) : Prop := b.dest = a.dest ∧ (a.weight = 0 → b.weight = 0)

lemma normDivFold_rel {f : Nat} : ∀ {es : List Ed} {s : St} {s' : St} {es' : List Ed},
    QuotsZeroOK s → normDivFold s f es = .ok (s', es') →
    s'.nodes = s.nodes ∧ s'.prods = s.prods ∧ s'.nsums = s.nsums ∧
      s'.nprods = s.nprods ∧ QuotsZeroOK s' ∧ List.Forall₂ NormRel es es' := by
  intro es
  induction es with
  | nil =>
    intro s s' es' hq h
    cases h
    exact ⟨rfl, rfl, rfl, rfl, hq, List.Forall₂.nil⟩
  | cons e t ih =>
    intro s s' es' hq h
    unfold normDivFold at h
    split at h
    · cases h
    · next s1 w1 heq1 =>
      obtain ⟨d1, d2, d3, d4, hq1, hz1⟩ := divS_pres hq heq1
      split at h
      · cases h
      · next s2 t2 heq2 =>
        cases h
        obtain ⟨g1, g2, g3, g4, hq2, hrel⟩ := ih hq1 heq2
        exact ⟨g1.trans d1, g2.trans d2, g3.trans d3, g4.trans d4, hq2,
          List.Forall₂.cons ⟨rfl, hz1⟩ hrel⟩

lemma normEdges_pres {s : St} {es : List Ed} {r : Nat} {s1 : St} {es' : List Ed} {f : Nat}
    (hq : QuotsZeroOK s) (h : normEdges s es r = .ok (s1, es', f)) :
    s1.nodes = s.nodes ∧ s1.prods = s.prods ∧ s1.nsums = s.nsums ∧
      s1.nprods = s.nprods ∧ QuotsZeroOK s1 ∧ List.Forall₂ NormRel es es' := by
  unfold normEdges at h
  split at h
  · cases h
    refine ⟨rfl, rfl, rfl, rfl, hq, ?_⟩
    exact List.forall₂_same.mpr (fun x _ => ⟨rfl, fun h0 => h0⟩)
  · simp only [] at h
    split at h
    · cases h
    · split at h
      · split at h
        · cases h
        · next s2 es2 heq =>
          cases h
          exact normDivFold_rel hq heq
      · cases h
        refine ⟨rfl, rfl, rfl, rfl, hq, ?_⟩
        exact List.forall₂_same.mpr (fun x _ => ⟨rfl, fun h0 => h0⟩)

lemma forall₂_mem_right {α β : Type} {R : α → β → Prop} :
    ∀ {es : List α} {es' : List β}, List.Forall₂ R es es' →
      ∀ b ∈ es', ∃ a ∈ es, R a b := by
  intro es es' h
  induction h with
  | nil =>
    intro b hb
    simp at hb
  | cons h1 h2 ih =>
    intro b hb
    rcases List.mem_cons.mp hb with hb | hb
    · exact ⟨_, List.mem_cons_self _ _, hb ▸ h1⟩
    · obtain ⟨a, ha, hr⟩ := ih b hb
      exact ⟨a, List.mem_cons_of_mem _ ha, hr⟩

/-- Transfer vector well-formedness across normalization. -/
lemma vecE_of_normRel {nodes : List Nd} {term n k : Nat} {es es' : List Ed}
    (hrel : List.Forall₂ NormRel es es')
    (hwf : ∀ ed ∈ es, vecE nodes term n k ed = true) :
    ∀ ed ∈ es', vecE nodes term n k ed = true := by
  intro b hb
  obtain ⟨a, ha, hab⟩ := forall₂_mem_right hrel b hb
  obtain ⟨bd, bw⟩ := b
  obtain ⟨hd, hz⟩ := hab
  simp only [] at hd hz
  subst hd
  by_cases haw : a.weight = 0
  · exact vecE_of_zero (hz haw)
  · exact vecE_weight
      (show vecE nodes term n k ⟨a.dest, a.weight⟩ = true from hwf a ha) haw

/-- Transfer matrix well-formedness across normalization. -/
lemma matE_of_normRel {nodes : List Nd} {term n k : Nat} {es es' : List Ed}
    (hrel : List.Forall₂ NormRel es es')
    (hwf : ∀ ed ∈ es, matE nodes term n k ed = true) :
    ∀ ed ∈ es', matE nodes term n k ed = true := by
  intro b hb
  obtain ⟨a, ha, hab⟩ := forall₂_mem_right hrel b hb
  obtain ⟨bd, bw⟩ := b
  obtain ⟨hd, hz⟩ := hab
  simp only [] at hd hz
  subst hd
  by_cases haw : a.weight = 0
  · exact matE_of_zero (hz haw)
  · exact matE_weight haw k
      (show matE nodes term n k ⟨a.dest, a.weight⟩ = true from hwf a ha)

/-- Normalized edges keep their destinations inside the store. -/
lemma bound_of_normRel {es es' : List Ed} {m : Nat}
    (hrel : List.Forall₂ NormRel es es') (hb : ∀ ed ∈ es, ed.dest < m) :
    ∀ ed ∈ es', ed.dest < m := by
  intro b hb'
  obtain ⟨a, ha, hab⟩ := forall₂_mem_right hrel b hb'
  obtain ⟨bd, bw⟩ := b
  obtain ⟨hd, _⟩ := hab
  simp only [] at hd ⊢
  rw [hd]
  exact hb a ha


/-! ### The vertex factory preserves well-formedness -/

lemma createVertex_vec {s : St} {lvl : Int} {es : List Ed} {term n k : Nat}
    {s' : St} {e' : Ed}
    (hinv : EngineInv s term n)
    (hb : ∀ ed ∈ es, ed.dest < s.nodes.length)
    (hwf : ∀ ed ∈ es, vecE s.nodes term n k ed = true)
    (hlen : es.length = 2)
    (hlvl : lvl = ((n - (k + 1) : Nat) : Int))
    (hcv : createVertex s lvl es term = .ok (s', e')) :
    EngineInv s' term n ∧ (∃ l, s'.nodes = s.nodes ++ l) ∧
      vecE s'.nodes term n (k + 1) e' = true ∧ e'.dest < s'.nodes.length := by
  obtain ⟨hst, htl, hte, hqz, hpz, hns, hnp⟩ := hinv
  unfold createVertex at hcv
  split at hcv
  · cases hcv
  · next s1 es' factor heq =>
    obtain ⟨hn1, hpr1, hns1, hnp1, hq1, hrel⟩ := normEdges_pres hqz heq
    have hlen' : es'.length = 2 := by rw [← hrel.length_eq]; exact hlen
    have hwf' : ∀ ed ∈ es', vecE s.nodes term n k ed = true := vecE_of_normRel hrel hwf
    have hb' : ∀ ed ∈ es', ed.dest < s.nodes.length := bound_of_normRel hrel hb
    have hinv1 : EngineInv s1 term n :=
      EngineInv_stable ⟨hst, htl, hte, hqz, hpz, hns, hnp⟩ hn1 hns1 hnp1 hq1
        (fun l v hv => hpz l v (by rw [← hpr1]; exact hv))
    simp only [] at hcv
    split at hcv
    · cases hcv
      exact ⟨hinv1, ⟨[], by rw [hn1]; simp⟩, vecE_of_zero rfl, by rw [hn1]; exact htl⟩
    · next hf0 =>
      split at hcv
      · next hcol =>
        exfalso
        rcases es' with _ | ⟨b0, _ | ⟨b1, _ | ⟨b2, t⟩⟩⟩ <;> simp at hlen'
        simp [isTrivial, isRedundant] at hcol
      · split at hcv
        · next i hfind =>
          cases hcv
          obtain ⟨hilt, hivr, hies⟩ := findNode_some hfind
          rw [hn1] at hilt hivr hies
          refine ⟨hinv1, ⟨[], by rw [hn1]; simp⟩, ?_, by rw [hn1]; exact hilt⟩
          refine vecE_succ_iff.mpr (Or.inr ?_)
          rw [hn1]
          refine ⟨hilt, by rw [hivr, hlvl], by rw [hies]; exact hlen', ?_⟩
          rw [hies]
          exact hwf'
        · cases hcv
          have hnodes' : ({ s1 with nodes := s1.nodes ++
              [⟨lvl, es', probFormula s1 es'⟩] } : St).nodes =
              s.nodes ++ [⟨lvl, es', probFormula s1 es'⟩] := by
            simp only []
            rw [hn1]
          have hstore' : StoreOK (s.nodes ++ [(⟨lvl, es', probFormula s1 es'⟩ : Nd)]) := by
            intro nd hmem ed hed
            simp only [List.length_append, List.length_cons, List.length_nil]
            rcases List.mem_append.mp hmem with hm | hm
            · have := hst nd hm ed hed
              omega
            · have hnd : nd = ⟨lvl, es', probFormula s1 es'⟩ := by simpa using hm
              subst hnd
              have := hb' ed hed
              omega
          refine ⟨?_, ⟨[⟨lvl, es', probFormula s1 es'⟩], hnodes'⟩, ?_, ?_⟩
          · refine EngineInv_ext hinv1
              rfl ?_ rfl rfl
              (fun d v hv => hq1 d v hv) (fun l v hv h0 => hpz l v (by rw [← hpr1]; exact hv) h0)
            rw [hnodes']
            exact hstore'
          · refine vecE_succ_iff.mpr (Or.inr ?_)
            have hget : getNd (({ s1 with nodes := s1.nodes ++
                [⟨lvl, es', probFormula s1 es'⟩] } : St)).nodes s1.nodes.length =
                ⟨lvl, es', probFormula s1 es'⟩ := by
              simp only [getNd, List.getD_append_right _ _ _ _ (le_refl s1.nodes.length),
                Nat.sub_self, List.getD_cons_zero]
            refine ⟨by simp only [List.length_append]; simp, ?_, ?_, ?_⟩
            · rw [hget, hlvl]
            · rw [hget]
              exact hlen'
            · rw [hget]
              intro ed hed
              have h2 : vecE (s.nodes ++ [⟨lvl, es', probFormula s1 es'⟩])
                  term n k ed = true := vecE_mono k ed (hwf' ed hed)
              show vecE (s1.nodes ++ [⟨lvl, es', probFormula s1 es'⟩]) term n k ed = true
              rw [hn1]
              exact h2
          · simp only [List.length_append, List.length_cons, List.length_nil]
            omega


lemma createVertex_mat {s : St} {lvl : Int} {es : List Ed} {term n k : Nat}
    {s' : St} {e' : Ed}
    (hinv : EngineInv s term n)
    (hb : ∀ ed ∈ es, ed.dest < s.nodes.length)
    (hwf : ∀ ed ∈ es, matE s.nodes term n k ed = true)
    (hzt : ∀ ed ∈ es, ed.weight = 0 → ed.dest = term)
    (hlen : es.length = 4)
    (hlvl : lvl = ((n - (k + 1) : Nat) : Int))
    (hcv : createVertex s lvl es term = .ok (s', e')) :
    EngineInv s' term n ∧ (∃ l, s'.nodes = s.nodes ++ l) ∧
      matE s'.nodes term n (k + 1) e' = true ∧ e'.dest < s'.nodes.length ∧
      (e'.weight = 0 → e'.dest = term) := by
  obtain ⟨hst, htl, hte, hqz, hpz, hns, hnp⟩ := hinv
  unfold createVertex at hcv
  split at hcv
  · cases hcv
  · next s1 es' factor heq =>
    obtain ⟨hn1, hpr1, hns1, hnp1, hq1, hrel⟩ := normEdges_pres hqz heq
    have hlen' : es'.length = 4 := by rw [← hrel.length_eq]; exact hlen
    have hwf' : ∀ ed ∈ es', matE s.nodes term n k ed = true := matE_of_normRel hrel hwf
    have hb' : ∀ ed ∈ es', ed.dest < s.nodes.length := bound_of_normRel hrel hb
    have hinv1 : EngineInv s1 term n :=
      EngineInv_stable ⟨hst, htl, hte, hqz, hpz, hns, hnp⟩ hn1 hns1 hnp1 hq1
        (fun l v hv => hpz l v (by rw [← hpr1]; exact hv))
    simp only [] at hcv
    split at hcv
    · cases hcv
      exact ⟨hinv1, ⟨[], by rw [hn1]; simp⟩, matE_of_zero rfl,
        by rw [hn1]; exact htl, fun _ => rfl⟩
    · next hf0 =>
      rw [if_neg (show ¬ es'.length = 2 by rw [hlen']; norm_num)] at hcv
      split at hcv
      · next hcol =>
        cases hcv
        rcases hrel with _ | ⟨hab, hrest⟩
        · simp at hlen
        next a b as bs =>
        obtain ⟨hbd, hbz⟩ := hab
        have hgd : (b :: bs).getD 0 ⟨0, 0⟩ = b := rfl
        rw [hgd]
        have hamem : a ∈ a :: as := List.mem_cons_self _ _
        have habound : a.dest < s.nodes.length := hb a hamem
        by_cases haw : a.weight = 0
        · have hterm : b.dest = term := by rw [hbd]; exact hzt a hamem haw
          refine ⟨hinv1, ⟨[], by rw [hn1]; simp⟩, matE_of_term hterm,
            by rw [hn1, hterm]; exact htl, fun _ => hterm⟩
        · have hm1 : matE s.nodes term n k ⟨a.dest, a.weight⟩ = true := hwf a hamem
          have hm2 : matE s.nodes term n k ⟨a.dest, factor⟩ = true :=
            matE_weight haw k hm1
          have hm3 : matE s.nodes term n (k + 1) ⟨a.dest, factor⟩ = true :=
            matE_weaken (k + 1) k (by omega) _ hm2
          refine ⟨hinv1, ⟨[], by rw [hn1]; simp⟩, ?_, ?_, fun h0 => absurd h0 hf0⟩
          · rw [hn1, hbd]
            exact hm3
          · rw [hn1, hbd]
            exact habound
      · split at hcv
        · next i hfind =>
          cases hcv
          obtain ⟨hilt, hivr, hies⟩ := findNode_some hfind
          rw [hn1] at hilt hivr hies
          refine ⟨hinv1, ⟨[], by rw [hn1]; simp⟩, ?_, by rw [hn1]; exact hilt,
            fun h0 => absurd h0 hf0⟩
          refine matE_succ_iff.mpr (Or.inr (Or.inr ?_))
          rw [hn1]
          refine ⟨hilt, Or.inl ⟨by rw [hivr, hlvl], by rw [hies]; exact hlen', ?_⟩⟩
          rw [hies]
          exact hwf'
        · cases hcv
          have hnodes' : ({ s1 with nodes := s1.nodes ++
              [⟨lvl, es', ((1 : ℚ), (0 : ℚ))⟩] } : St).nodes =
              s.nodes ++ [⟨lvl, es', ((1 : ℚ), (0 : ℚ))⟩] := by
            simp only []
            rw [hn1]
          have hstore' : StoreOK (s.nodes ++ [(⟨lvl, es', ((1 : ℚ), (0 : ℚ))⟩ : Nd)]) := by
            intro nd hmem ed hed
            simp only [List.length_append, List.length_cons, List.length_nil]
            rcases List.mem_append.mp hmem with hm | hm
            · have := hst nd hm ed hed
              omega
            · have hnd : nd = ⟨lvl, es', ((1 : ℚ), (0 : ℚ))⟩ := by simpa using hm
              subst hnd
              have := hb' ed hed
              omega
          refine ⟨?_, ⟨[⟨lvl, es', ((1 : ℚ), (0 : ℚ))⟩], hnodes'⟩, ?_, ?_,
            fun h0 => absurd h0 hf0⟩
          · refine EngineInv_ext hinv1
              rfl ?_ rfl rfl
              (fun d v hv => hq1 d v hv) (fun l v hv h0 => hpz l v (by rw [← hpr1]; exact hv) h0)
            rw [hnodes']
            exact hstore'
          · refine matE_succ_iff.mpr (Or.inr (Or.inr ?_))
            have hget : getNd (({ s1 with nodes := s1.nodes ++
                [⟨lvl, es', ((1 : ℚ), (0 : ℚ))⟩] } : St)).nodes s1.nodes.length =
                ⟨lvl, es', ((1 : ℚ), (0 : ℚ))⟩ := by
              simp only [getNd, List.getD_append_right _ _ _ _ (le_refl s1.nodes.length),
                Nat.sub_self, List.getD_cons_zero]
            refine ⟨by simp only [List.length_append]; simp, Or.inl ⟨?_, ?_, ?_⟩⟩
            · rw [hget, hlvl]
            · rw [hget]
              exact hlen'
            · rw [hget]
              intro ed hed
              have h2 : matE (s.nodes ++ [⟨lvl, es', ((1 : ℚ), (0 : ℚ))⟩])
                  term n k ed = true := matE_mono k ed (hwf' ed hed)
              show matE (s1.nodes ++ [⟨lvl, es', ((1 : ℚ), (0 : ℚ))⟩]) term n k ed = true
              rw [hn1]
              exact h2
          · simp only [List.length_append, List.length_cons, List.length_nil]
            omega


/-! ### Extension bookkeeping and engine-invariant corollaries -/

lemma NodesExt.rfl {nodes : List Nd} : NodesExt nodes nodes := ⟨[], by simp⟩

lemma NodesExt.of_eq {nodes nodes' : List Nd} (h : nodes' = nodes) :
    NodesExt nodes nodes' := ⟨[], by simp [h]⟩

lemma NodesExt.trans {a b c : List Nd} (h1 : NodesExt a b) (h2 : NodesExt b c) :
    NodesExt a c := by
  obtain ⟨l1, h1⟩ := h1
  obtain ⟨l2, h2⟩ := h2
  exact ⟨l1 ++ l2, by rw [h2, h1, List.append_assoc]⟩

lemma NodesExt.len_le {a b : List Nd} (h : NodesExt a b) : a.length ≤ b.length := by
  obtain ⟨l, h⟩ := h
  simp [h]

lemma getNd_ext {nodes nodes' : List Nd} {i : Nat} (h : NodesExt nodes nodes')
    (hi : i < nodes.length) : getNd nodes' i = getNd nodes i := by
  obtain ⟨l, h⟩ := h
  rw [h]
  exact getNd_append hi

lemma getN_eq_getNd (s : St) (i : Nat) : getN s i = getNd s.nodes i := rfl

lemma vecE_ext {nodes nodes' : List Nd} {term n k : Nat} {e : Ed}
    (h : NodesExt nodes nodes') (hw : vecE nodes term n k e = true) :
    vecE nodes' term n k e = true := by
  obtain ⟨l, h⟩ := h
  rw [h]
  exact vecE_mono k e hw

lemma matE_ext {nodes nodes' : List Nd} {term n k : Nat} {e : Ed}
    (h : NodesExt nodes nodes') (hw : matE nodes term n k e = true) :
    matE nodes' term n k e = true := by
  obtain ⟨l, h⟩ := h
  rw [h]
  exact matE_mono k e hw

lemma vecE_dest_lt {nodes : List Nd} {term n k : Nat} {e : Ed}
    (h : vecE nodes term n k e = true) (hw : e.weight ≠ 0) (ht : term < nodes.length) :
    e.dest < nodes.length := by
  cases k with
  | zero =>
    rcases vecE_zero_iff.mp h with h0 | hterm
    · exact absurd h0 hw
    · rw [hterm]
      exact ht
  | succ k =>
    rcases vecE_succ_iff.mp h with h0 | ⟨hb, _⟩
    · exact absurd h0 hw
    · exact hb

lemma getD_mem {α : Type} {l : List α} {d : α} {i : Nat} (h : i < l.length) :
    l.getD i d ∈ l := by
  simp only [List.getD_eq_getElem?_getD, List.getElem?_eq_getElem h, Option.getD_some]
  exact List.getElem_mem h

lemma EngineInv_fields {s s' : St} {term n : Nat} (h : EngineInv s term n)
    (hn : s'.nodes = s.nodes) (hq : s'.quots = s.quots) (hp : s'.prods = s.prods)
    (hns : s'.nsums = s.nsums) (hnp : s'.nprods = s.nprods) : EngineInv s' term n :=
  EngineInv_stable h hn hns hnp
    (fun d v hv => h.2.2.2.1 d v (by rw [← hq]; exact hv))
    (fun l v hv h0 => h.2.2.2.2.1 l v (by rw [← hp]; exact hv) h0)

lemma EngineInv_mulS {s : St} {l : List Nat} {s' : St} {v : Nat} {term n : Nat}
    (h : EngineInv s term n) (hm : mulS s l = .ok (s', v)) :
    EngineInv s' term n ∧ s'.nodes = s.nodes ∧ (0 ∈ l → v = 0) := by
  obtain ⟨h1, h2, h3, h4, h5, h6⟩ := mulS_pres h.2.2.2.2.1 hm
  exact ⟨EngineInv_stable h h1 h3 h4
    (fun d w hw => h.2.2.2.1 d w (by rw [← h2]; exact hw)) h5, h1, h6⟩

lemma EngineInv_addS {s : St} {i j : Nat} {s' : St} {v : Nat} {term n : Nat}
    (h : EngineInv s term n) (ha : addS s i j = .ok (s', v)) :
    EngineInv s' term n ∧ s'.nodes = s.nodes := by
  obtain ⟨h1, h2, h3, h4, h5⟩ := addS_shape ha
  exact ⟨EngineInv_fields h h1 h2 h3 h4 h5, h1⟩

lemma EngineInv_divS {s : St} {a d : Nat} {s' : St} {v : Nat} {term n : Nat}
    (h : EngineInv s term n) (hd : divS s a d = .ok (s', v)) :
    EngineInv s' term n ∧ s'.nodes = s.nodes ∧ (a = 0 → v = 0) := by
  obtain ⟨h1, h2, h3, h4, h5, h6⟩ := divS_pres h.2.2.2.1 hd
  exact ⟨EngineInv_stable h h1 h3 h4 h5
    (fun l w hw h0 => h.2.2.2.2.1 l w (by rw [← h2]; exact hw) h0), h1, h6⟩


/-! ### Tensor addition preserves well-formedness -/

lemma addQ_loop_inv {term n kk : Nat} {base : List Nd} {Q : St → Nat → Except Err (St × Ed)}
    (hQ : ∀ (s : St) (i : Nat) (s' : St) (e : Ed), EngineInv s term n → NodesExt base s.nodes →
      Q s i = .ok (s', e) →
      EngineInv s' term n ∧ NodesExt s.nodes s'.nodes ∧
        vecE s'.nodes term n kk e = true ∧ e.dest < s'.nodes.length) :
    ∀ (is' : List Nat) (s : St) (acc : List Ed) {s' : St} {es' : List Ed},
      EngineInv s term n → NodesExt base s.nodes →
      (∀ ed ∈ acc, vecE s.nodes term n kk ed = true ∧ ed.dest < s.nodes.length) →
      addQ.loop Q s acc is' = .ok (s', es') →
      EngineInv s' term n ∧ NodesExt s.nodes s'.nodes ∧
        (∀ ed ∈ es', vecE s'.nodes term n kk ed = true ∧ ed.dest < s'.nodes.length) ∧
        es'.length = acc.length + is'.length := by
  intro is'
  induction is' with
  | nil =>
    intro s acc s' es' hinv hext hacc h
    simp only [addQ.loop] at h
    cases h
    refine ⟨hinv, NodesExt.rfl, ?_, by simp⟩
    intro ed hed
    exact hacc ed (List.mem_reverse.mp hed)
  | cons i rest ih =>
    intro s acc s' es' hinv hext hacc h
    simp only [addQ.loop] at h
    rcases hqe : Q s i with er | ⟨s1, e⟩
    · rw [hqe] at h
      cases h
    · rw [hqe] at h
      simp only [] at h
      obtain ⟨hinv1, hext1, hwe, hbe⟩ := hQ s i s1 e hinv hext hqe
      have haccP : ∀ ed ∈ e :: acc,
          vecE s1.nodes term n kk ed = true ∧ ed.dest < s1.nodes.length := by
        intro ed hed
        rcases List.mem_cons.mp hed with hed | hed
        · subst hed
          exact ⟨hwe, hbe⟩
        · obtain ⟨hw, hb⟩ := hacc ed hed
          exact ⟨vecE_ext hext1 hw, lt_of_lt_of_le hb hext1.len_le⟩
      obtain ⟨hinv', hext', hes', hlen'⟩ := ih s1 (e :: acc) hinv1 (hext.trans hext1) haccP h
      refine ⟨hinv', hext1.trans hext', hes', ?_⟩
      simp only [List.length_cons] at hlen' ⊢
      omega

lemma addQ_pres {term n : Nat} : ∀ (fuel : Nat) {s : St} {t1 t2 : Ed} {k : Nat}
    {s' : St} {e' : Ed},
    EngineInv s term n → k ≤ n →
    vecE s.nodes term n k t1 = true → vecE s.nodes term n k t2 = true →
    addQ fuel s t1 t2 term (some ((n - k : Nat) : Int)) = .ok (s', e') →
    EngineInv s' term n ∧ NodesExt s.nodes s'.nodes ∧
      vecE s'.nodes term n k e' = true ∧ e'.dest < s'.nodes.length := by
  intro fuel
  induction fuel with
  | zero =>
    intro s t1 t2 k s' e' _ _ _ _ h
    simp only [addQ] at h
    cases h
  | succ fuel ih =>
    intro s t1 t2 k s' e' hinv hk hv1 hv2 hadd
    have htl : term < s.nodes.length := hinv.2.1
    simp only [addQ, Option.getD_some] at hadd
    split at hadd
    · next hw1 =>
      cases hadd
      refine ⟨hinv, NodesExt.rfl, ?_, ?_⟩
      · by_cases h2 : t2.weight = 0
        · exact vecE_of_zero h2
        · rw [if_neg h2]
          exact hv2
      · by_cases h2 : t2.weight = 0
        · rw [if_pos h2]
          exact htl
        · rw [if_neg h2]
          exact vecE_dest_lt hv2 h2 htl
    · next hw1 =>
      split at hadd
      · next hw2 =>
        cases hadd
        exact ⟨hinv, NodesExt.rfl, hv1, vecE_dest_lt hv1 hw1 htl⟩
      · next hw2 =>
        split at hadd
        · next hdd =>
          rcases haddS : addS s t1.weight t2.weight with er | ⟨s2, w⟩
          · rw [haddS] at hadd
            cases hadd
          · rw [haddS] at hadd
            simp only [] at hadd
            cases hadd
            obtain ⟨hinv2, hnodes2⟩ := EngineInv_addS hinv haddS
            refine ⟨hinv2, NodesExt.of_eq hnodes2, ?_, ?_⟩
            · rw [hnodes2]
              by_cases hw : w = 0
              · exact vecE_of_zero hw
              · exact vecE_weight hv1 hw1
            · rw [hnodes2]
              have hlt := vecE_dest_lt hv1 hw1 htl
              exact hlt
        · next hdd =>
          rcases k with _ | kk
          · exfalso
            rcases vecE_zero_iff.mp hv1 with h0 | ht1
            · exact hw1 h0
            rcases vecE_zero_iff.mp hv2 with h0 | ht2
            · exact hw2 h0
            exact hdd (ht1.trans ht2.symm)
          · obtain ⟨hb1, hvr1, hlen1, hch1⟩ := (vecE_succ_iff.mp hv1).resolve_left hw1
            obtain ⟨hb2, hvr2, hlen2, hch2⟩ := (vecE_succ_iff.mp hv2).resolve_left hw2
            have hkk : kk ≤ n := by omega
            have hcast : ((n - (kk + 1) : Nat) : Int) + 1 = ((n - kk : Nat) : Int) := by
              omega
            split at hadd
            · next e hlook =>
              cases hadd
              by_cases hsort : t2.dest < t1.dest
              · simp only [if_pos hsort] at hlook
                obtain ⟨hbd0, hbd1, hbde, himp⟩ := hinv.2.2.2.2.2.1 _ _ _ _ _ hlook
                exact ⟨hinv, NodesExt.rfl,
                  himp (kk + 1) hk hw2 hw1 (fun h => hdd h.symm) hv2 hv1, hbde⟩
              · simp only [if_neg hsort] at hlook
                obtain ⟨hbd0, hbd1, hbde, himp⟩ := hinv.2.2.2.2.2.1 _ _ _ _ _ hlook
                exact ⟨hinv, NodesExt.rfl,
                  himp (kk + 1) hk hw1 hw2 hdd hv1 hv2, hbde⟩
            · next hlook =>
              rw [if_pos (show (getN s t1.dest).edges.length = 2 from hlen1),
                (show List.range (2 * 1) = [0, 1] from rfl)] at hadd
              split at hadd
              · cases hadd
              next s3 es hloop =>
              split at hadd
              · cases hadd
              next s4 e4 hcv' =>
              cases hadd
              by_cases hsort : t2.dest < t1.dest
              · simp only [if_pos hsort]
                obtain ⟨hinv3, hext3, hes3, hlen3⟩ :=
                  addQ_loop_inv (by
                    intro s_ i s'_ e_ hinv_ hext_ hqe
                    have hbt1 : t1.dest < s_.nodes.length := lt_of_lt_of_le hb1 hext_.len_le
                    have hbt2 : t2.dest < s_.nodes.length := lt_of_lt_of_le hb2 hext_.len_le
                    have hg1 : getNd s_.nodes t1.dest = getNd s.nodes t1.dest :=
                      getNd_ext hext_ hb1
                    have hcond1 : ¬ ((getN s_ t1.dest).edges = [] ∨
                        ((n - (kk + 1) : Nat) : Int) < (getN s_ t1.dest).vr) := by
                      rw [getN_eq_getNd, hg1]
                      push_neg
                      constructor
                      · intro hnil
                        rw [hnil] at hlen1
                        simp at hlen1
                      · rw [hvr1]
                    rw [if_neg (by simpa using hcond1)] at hqe
                    rcases hm1 : mulS s_ [t1.weight,
                        ((getN s_ t1.dest).edges.getD i ⟨0, 0⟩).weight] with er | ⟨sA, wA⟩
                    · rw [hm1] at hqe
                      cases hqe
                    · rw [hm1] at hqe
                      simp only [] at hqe
                      obtain ⟨hinvA, hnodesA, hzA⟩ := EngineInv_mulS hinv_ hm1
                      have hwfe0 : vecE sA.nodes term n kk
                          ⟨((getN s_ t1.dest).edges.getD i ⟨0, 0⟩).dest, wA⟩ = true := by
                        by_cases hwa : wA = 0
                        · exact vecE_of_zero hwa
                        · rw [hnodesA]
                          have hiw : ((getN s_ t1.dest).edges.getD i ⟨0, 0⟩).weight ≠ 0 := by
                            intro h0
                            exact hwa (hzA (by rw [h0]; simp))
                          by_cases hi : i < (getNd s.nodes t1.dest).edges.length
                          · have hmemi : (getN s_ t1.dest).edges.getD i ⟨0, 0⟩ ∈
                                (getNd s.nodes t1.dest).edges := by
                              rw [getN_eq_getNd, hg1]
                              exact getD_mem hi
                            have hch := hch1 _ hmemi
                            exact vecE_ext hext_ (vecE_weight hch hiw)
                          · exfalso
                            apply hiw
                            rw [getN_eq_getNd, hg1, List.getD_eq_default]
                            omega
                      have hgA2 : getNd sA.nodes t2.dest = getNd s.nodes t2.dest := by
                        rw [hnodesA]
                        exact getNd_ext hext_ hb2
                      have hcond2 : ¬ ((getN sA t2.dest).edges = [] ∨
                          ((n - (kk + 1) : Nat) : Int) < (getN sA t2.dest).vr) := by
                        rw [getN_eq_getNd, hgA2]
                        push_neg
                        constructor
                        · intro hnil
                          rw [hnil] at hlen2
                          simp at hlen2
                        · rw [hvr2]
                      rw [if_neg (by simpa using hcond2)] at hqe
                      rcases hm2 : mulS sA [t2.weight,
                          ((getN sA t2.dest).edges.getD i ⟨0, 0⟩).weight] with er | ⟨sB, wB⟩
                      · rw [hm2] at hqe
                        cases hqe
                      · rw [hm2] at hqe
                        simp only [] at hqe
                        obtain ⟨hinvB, hnodesB, hzB⟩ := EngineInv_mulS hinvA hm2
                        have hwfe1 : vecE sB.nodes term n kk
                            ⟨((getN sA t2.dest).edges.getD i ⟨0, 0⟩).dest, wB⟩ = true := by
                          by_cases hwb : wB = 0
                          · exact vecE_of_zero hwb
                          · rw [hnodesB, hnodesA]
                            have hiw : ((getN sA t2.dest).edges.getD i ⟨0, 0⟩).weight ≠ 0 := by
                              intro h0
                              exact hwb (hzB (by rw [h0]; simp))
                            by_cases hi : i < (getNd s.nodes t2.dest).edges.length
                            · have hmemi : (getN sA t2.dest).edges.getD i ⟨0, 0⟩ ∈
                                  (getNd s.nodes t2.dest).edges := by
                                rw [getN_eq_getNd, hgA2]
                                exact getD_mem hi
                              have hch := hch2 _ hmemi
                              exact vecE_ext hext_ (vecE_weight hch hiw)
                            · exfalso
                              apply hiw
                              rw [getN_eq_getNd, hgA2, List.getD_eq_default]
                              omega
                        rw [hcast] at hqe
                        have hwfe0' : vecE sB.nodes term n kk
                            ⟨((getN s_ t1.dest).edges.getD i ⟨0, 0⟩).dest, wA⟩ = true := by
                          rw [hnodesB]
                          exact hwfe0
                        obtain ⟨hinvC, hextC, hwfC, hbC⟩ := ih hinvB hkk hwfe0' hwfe1 hqe
                        refine ⟨hinvC, ?_, hwfC, hbC⟩
                        exact (NodesExt.of_eq hnodesA).trans
                          ((NodesExt.of_eq hnodesB).trans hextC))
                    [0, 1] s [] hinv NodesExt.rfl (by simp) hloop
                have hes2 : es.length = 2 := by simpa using hlen3
                obtain ⟨hinv4, hext4, hwe4, hbe4⟩ := createVertex_vec hinv3
                  (fun ed hed => (hes3 ed hed).2) (fun ed hed => (hes3 ed hed).1)
                  hes2 rfl hcv'
                refine ⟨?_, hext3.trans hext4, hwe4, hbe4⟩
                obtain ⟨g1, g2, g3, g4, g5, g6, g7⟩ := hinv4
                refine ⟨g1, g2, g3, g4, g5, ?_, g7⟩
                intro d0' d1' w0' w1' e'' hlk
                simp only [look] at hlk
                split at hlk
                · next hkey =>
                  cases hlk
                  simp only [Prod.mk.injEq] at hkey
                  obtain ⟨hk0, hk1, hk2, hk3⟩ := hkey
                  subst hk0
                  subst hk1
                  subst hk2
                  subst hk3
                  have hextS4 : NodesExt s.nodes s4.nodes := hext3.trans hext4
                  have hq1' : getNd s4.nodes t1.dest = getNd s.nodes t1.dest :=
                    getNd_ext hextS4 hb1
                  have hq2' : getNd s4.nodes t2.dest = getNd s.nodes t2.dest :=
                    getNd_ext hextS4 hb2
                  refine ⟨lt_of_lt_of_le (by first | exact hb2 | exact hb1) hextS4.len_le,
                    lt_of_lt_of_le (by first | exact hb1 | exact hb2) hextS4.len_le,
                    hbe4, ?_⟩
                  intro k' hk' hw0' hw1' hdd' hvv0 hvv1
                  rcases k' with _ | j
                  · exfalso
                    rcases vecE_zero_iff.mp hvv0 with h0 | hta
                    · exact hw0' h0
                    rcases vecE_zero_iff.mp hvv1 with h0 | htb
                    · exact hw1' h0
                    exact hdd' (hta.trans htb.symm)
                  · obtain ⟨_, hvrj, _, _⟩ := (vecE_succ_iff.mp hvv0).resolve_left hw0'
                    have hpin : j = kk := by
                      first
                      | (rw [hq2', hvr2] at hvrj
                         omega)
                      | (rw [hq1', hvr1] at hvrj
                         omega)
                    subst hpin
                    exact hwe4
                · exact g6 _ _ _ _ _ hlk
              · simp only [if_neg hsort]
                obtain ⟨hinv3, hext3, hes3, hlen3⟩ :=
                  addQ_loop_inv (by
                    intro s_ i s'_ e_ hinv_ hext_ hqe
                    have hbt1 : t1.dest < s_.nodes.length := lt_of_lt_of_le hb1 hext_.len_le
                    have hbt2 : t2.dest < s_.nodes.length := lt_of_lt_of_le hb2 hext_.len_le
                    have hg1 : getNd s_.nodes t1.dest = getNd s.nodes t1.dest :=
                      getNd_ext hext_ hb1
                    have hcond1 : ¬ ((getN s_ t1.dest).edges = [] ∨
                        ((n - (kk + 1) : Nat) : Int) < (getN s_ t1.dest).vr) := by
                      rw [getN_eq_getNd, hg1]
                      push_neg
                      constructor
                      · intro hnil
                        rw [hnil] at hlen1
                        simp at hlen1
                      · rw [hvr1]
                    rw [if_neg (by simpa using hcond1)] at hqe
                    rcases hm1 : mulS s_ [t1.weight,
                        ((getN s_ t1.dest).edges.getD i ⟨0, 0⟩).weight] with er | ⟨sA, wA⟩
                    · rw [hm1] at hqe
                      cases hqe
                    · rw [hm1] at hqe
                      simp only [] at hqe
                      obtain ⟨hinvA, hnodesA, hzA⟩ := EngineInv_mulS hinv_ hm1
                      have hwfe0 : vecE sA.nodes term n kk
                          ⟨((getN s_ t1.dest).edges.getD i ⟨0, 0⟩).dest, wA⟩ = true := by
                        by_cases hwa : wA = 0
                        · exact vecE_of_zero hwa
                        · rw [hnodesA]
                          have hiw : ((getN s_ t1.dest).edges.getD i ⟨0, 0⟩).weight ≠ 0 := by
                            intro h0
                            exact hwa (hzA (by rw [h0]; simp))
                          by_cases hi : i < (getNd s.nodes t1.dest).edges.length
                          · have hmemi : (getN s_ t1.dest).edges.getD i ⟨0, 0⟩ ∈
                                (getNd s.nodes t1.dest).edges := by
                              rw [getN_eq_getNd, hg1]
                              exact getD_mem hi
                            have hch := hch1 _ hmemi
                            exact vecE_ext hext_ (vecE_weight hch hiw)
                          · exfalso
                            apply hiw
                            rw [getN_eq_getNd, hg1, List.getD_eq_default]
                            omega
                      have hgA2 : getNd sA.nodes t2.dest = getNd s.nodes t2.dest := by
                        rw [hnodesA]
                        exact getNd_ext hext_ hb2
                      have hcond2 : ¬ ((getN sA t2.dest).edges = [] ∨
                          ((n - (kk + 1) : Nat) : Int) < (getN sA t2.dest).vr) := by
                        rw [getN_eq_getNd, hgA2]
                        push_neg
                        constructor
                        · intro hnil
                          rw [hnil] at hlen2
                          simp at hlen2
                        · rw [hvr2]
                      rw [if_neg (by simpa using hcond2)] at hqe
                      rcases hm2 : mulS sA [t2.weight,
                          ((getN sA t2.dest).edges.getD i ⟨0, 0⟩).weight] with er | ⟨sB, wB⟩
                      · rw [hm2] at hqe
                        cases hqe
                      · rw [hm2] at hqe
                        simp only [] at hqe
                        obtain ⟨hinvB, hnodesB, hzB⟩ := EngineInv_mulS hinvA hm2
                        have hwfe1 : vecE sB.nodes term n kk
                            ⟨((getN sA t2.dest).edges.getD i ⟨0, 0⟩).dest, wB⟩ = true := by
                          by_cases hwb : wB = 0
                          · exact vecE_of_zero hwb
                          · rw [hnodesB, hnodesA]
                            have hiw : ((getN sA t2.dest).edges.getD i ⟨0, 0⟩).weight ≠ 0 := by
                              intro h0
                              exact hwb (hzB (by rw [h0]; simp))
                            by_cases hi : i < (getNd s.nodes t2.dest).edges.length
                            · have hmemi : (getN sA t2.dest).edges.getD i ⟨0, 0⟩ ∈
                                  (getNd s.nodes t2.dest).edges := by
                                rw [getN_eq_getNd, hgA2]
                                exact getD_mem hi
                              have hch := hch2 _ hmemi
                              exact vecE_ext hext_ (vecE_weight hch hiw)
                            · exfalso
                              apply hiw
                              rw [getN_eq_getNd, hgA2, List.getD_eq_default]
                              omega
                        rw [hcast] at hqe
                        have hwfe0' : vecE sB.nodes term n kk
                            ⟨((getN s_ t1.dest).edges.getD i ⟨0, 0⟩).dest, wA⟩ = true := by
                          rw [hnodesB]
                          exact hwfe0
                        obtain ⟨hinvC, hextC, hwfC, hbC⟩ := ih hinvB hkk hwfe0' hwfe1 hqe
                        refine ⟨hinvC, ?_, hwfC, hbC⟩
                        exact (NodesExt.of_eq hnodesA).trans
                          ((NodesExt.of_eq hnodesB).trans hextC))
                    [0, 1] s [] hinv NodesExt.rfl (by simp) hloop
                have hes2 : es.length = 2 := by simpa using hlen3
                obtain ⟨hinv4, hext4, hwe4, hbe4⟩ := createVertex_vec hinv3
                  (fun ed hed => (hes3 ed hed).2) (fun ed hed => (hes3 ed hed).1)
                  hes2 rfl hcv'
                refine ⟨?_, hext3.trans hext4, hwe4, hbe4⟩
                obtain ⟨g1, g2, g3, g4, g5, g6, g7⟩ := hinv4
                refine ⟨g1, g2, g3, g4, g5, ?_, g7⟩
                intro d0' d1' w0' w1' e'' hlk
                simp only [look] at hlk
                split at hlk
                · next hkey =>
                  cases hlk
                  simp only [Prod.mk.injEq] at hkey
                  obtain ⟨hk0, hk1, hk2, hk3⟩ := hkey
                  subst hk0
                  subst hk1
                  subst hk2
                  subst hk3
                  have hextS4 : NodesExt s.nodes s4.nodes := hext3.trans hext4
                  have hq1' : getNd s4.nodes t1.dest = getNd s.nodes t1.dest :=
                    getNd_ext hextS4 hb1
                  have hq2' : getNd s4.nodes t2.dest = getNd s.nodes t2.dest :=
                    getNd_ext hextS4 hb2
                  refine ⟨lt_of_lt_of_le (by first | exact hb2 | exact hb1) hextS4.len_le,
                    lt_of_lt_of_le (by first | exact hb1 | exact hb2) hextS4.len_le,
                    hbe4, ?_⟩
                  intro k' hk' hw0' hw1' hdd' hvv0 hvv1
                  rcases k' with _ | j
                  · exfalso
                    rcases vecE_zero_iff.mp hvv0 with h0 | hta
                    · exact hw0' h0
                    rcases vecE_zero_iff.mp hvv1 with h0 | htb
                    · exact hw1' h0
                    exact hdd' (hta.trans htb.symm)
                  · obtain ⟨_, hvrj, _, _⟩ := (vecE_succ_iff.mp hvv0).resolve_left hw0'
                    have hpin : j = kk := by
                      first
                      | (rw [hq2', hvr2] at hvrj
                         omega)
                      | (rw [hq1', hvr1] at hvrj
                         omega)
                    subst hpin
                    exact hwe4
                · exact g6 _ _ _ _ _ hlk


/-! ### Matrix-vector multiplication preserves well-formedness -/

lemma multiplyQ_pres {term n : Nat} : ∀ (fuel : Nat) {s : St} {m v : Ed} {k : Nat}
    {s' : St} {e' : Ed},
    EngineInv s term n → k ≤ n →
    matE s.nodes term n k m = true → vecE s.nodes term n k v = true →
    multiplyQ fuel s m v term (some ((n - k : Nat) : Int)) = .ok (s', e') →
    EngineInv s' term n ∧ NodesExt s.nodes s'.nodes ∧
      vecE s'.nodes term n k e' = true ∧ e'.dest < s'.nodes.length := by
  intro fuel
  induction fuel with
  | zero =>
    intro s m v k s' e' _ _ _ _ h
    simp only [multiplyQ] at h
    cases h
  | succ fuel ih =>
    intro s m v k s' e' hinv hk hmat hvec hmul
    have htl : term < s.nodes.length := hinv.2.1
    have hte : (getNd s.nodes term).edges = [] := hinv.2.2.1
    simp only [multiplyQ, Option.getD_some] at hmul
    split at hmul
    · cases hmul
      exact ⟨hinv, NodesExt.rfl, vecE_of_zero rfl, htl⟩
    · next hwz =>
      simp only [Bool.or_eq_true, decide_eq_true_eq, not_or] at hwz
      obtain ⟨hwm, hwv⟩ := hwz
      split at hmul
      · next hmterm =>
        rcases hms : mulS s [v.weight, m.weight] with er | ⟨s2, w⟩
        · rw [hms] at hmul
          cases hmul
        · rw [hms] at hmul
          simp only [] at hmul
          cases hmul
          obtain ⟨hinv2, hnodes2, _⟩ := EngineInv_mulS hinv hms
          refine ⟨hinv2, NodesExt.of_eq hnodes2, ?_, ?_⟩
          · rw [hnodes2]
            by_cases hw : w = 0
            · exact vecE_of_zero hw
            · exact vecE_weight hvec hwv
          · rw [hnodes2]
            have hlt := vecE_dest_lt hvec hwv htl
            exact hlt
      · next hmne =>
        rcases k with _ | kk
        · exfalso
          rcases matE_zero_iff.mp hmat with h0 | hterm
          · exact hwm h0
          · apply hmne
            rw [getN_eq_getNd, hterm]
            exact hte
        · have hkk : kk ≤ n := by omega
          have hcast : ((n - (kk + 1) : Nat) : Int) + 1 = ((n - kk : Nat) : Int) := by
            omega
          have hmcase := (matE_succ_iff.mp hmat).resolve_left hwm
          have hmcase2 : m.dest < s.nodes.length ∧
              (((getNd s.nodes m.dest).vr = ((n - (kk + 1) : Nat) : Int) ∧
                (getNd s.nodes m.dest).edges.length = 4 ∧
                ∀ ed ∈ (getNd s.nodes m.dest).edges, matE s.nodes term n kk ed = true) ∨
               (((n - (kk + 1) : Nat) : Int) < (getNd s.nodes m.dest).vr ∧
                matE s.nodes term n kk m = true)) := by
            rcases hmcase with hterm | hrest
            · exfalso
              apply hmne
              rw [getN_eq_getNd, hterm]
              exact hte
            · exact hrest
          obtain ⟨hbm, hmcase⟩ := hmcase2
          obtain ⟨hbv, hvrv, hlenv, hchv⟩ := (vecE_succ_iff.mp hvec).resolve_left hwv
          have hvne : v.dest ≠ term := by
            intro h
            rw [h, hte] at hlenv
            simp at hlenv
          have hVE : ∀ (s_ : St), NodesExt s.nodes s_.nodes → ∀ (j : Nat),
              vecE s_.nodes term n kk ((getN s_ v.dest).edges.getD j ⟨0, 0⟩) = true := by
            intro s_ hext_ j
            have hgv : getNd s_.nodes v.dest = getNd s.nodes v.dest :=
              getNd_ext hext_ hbv
            by_cases hj : j < (getNd s.nodes v.dest).edges.length
            · have hmemj : (getN s_ v.dest).edges.getD j ⟨0, 0⟩ ∈
                  (getNd s.nodes v.dest).edges := by
                rw [getN_eq_getNd, hgv]
                exact getD_mem hj
              exact vecE_ext hext_ (hchv _ hmemj)
            · have : (getN s_ v.dest).edges.getD j ⟨0, 0⟩ = ⟨0, 0⟩ := by
                rw [getN_eq_getNd, hgv, List.getD_eq_default]
                omega
              rw [this]
              exact vecE_of_zero rfl
          split at hmul
          · next e hlook =>
            cases hmul
            obtain ⟨hbd0, hbd1, hbde, himp⟩ := hinv.2.2.2.2.2.2 _ _ _ _ _ hlook
            refine ⟨hinv, NodesExt.rfl, himp (kk + 1) hk hwm hwv ?_ hmat hvec, hbde⟩
            exact fun h => hmne (by rw [getN_eq_getNd]; exact h)
          · next hlook =>
            rw [hcast] at hmul
            have hExp : ∀ (s_ : St), NodesExt s.nodes s_.nodes →
                (getN s_ m.dest).vr = ((n - (kk + 1) : Nat) : Int) → ∀ idx : Nat,
                matE s_.nodes term n kk
                  ((getN s_ m.dest).edges.getD idx ⟨0, 0⟩) = true := by
              intro s_ hext_ hvr_ idx
              have hgm : getNd s_.nodes m.dest = getNd s.nodes m.dest :=
                getNd_ext hext_ hbm
              rcases hmcase with ⟨hvrm, hlenm, hchm⟩ | ⟨hgt, hrec⟩
              · by_cases hidx : idx < (getNd s.nodes m.dest).edges.length
                · have hmem : (getN s_ m.dest).edges.getD idx ⟨0, 0⟩ ∈
                      (getNd s.nodes m.dest).edges := by
                    rw [getN_eq_getNd, hgm]
                    exact getD_mem hidx
                  exact matE_ext hext_ (hchm _ hmem)
                · have hdef : (getN s_ m.dest).edges.getD idx ⟨0, 0⟩ = (⟨0, 0⟩ : Ed) := by
                    rw [getN_eq_getNd, hgm, List.getD_eq_default]
                    omega
                  rw [hdef]
                  exact matE_of_zero rfl
              · exfalso
                rw [getN_eq_getNd, hgm] at hvr_
                rw [hvr_] at hgt
                exact lt_irrefl _ hgt
            have hSkip : ∀ (s_ : St), NodesExt s.nodes s_.nodes →
                ¬ (getN s_ m.dest).vr = ((n - (kk + 1) : Nat) : Int) →
                matE s_.nodes term n kk (⟨m.dest, 1⟩ : Ed) = true := by
              intro s_ hext_ hvr_
              have hgm : getNd s_.nodes m.dest = getNd s.nodes m.dest :=
                getNd_ext hext_ hbm
              rcases hmcase with ⟨hvrm, hlenm, hchm⟩ | ⟨hgt, hrec⟩
              · exact absurd (by rw [getN_eq_getNd, hgm, hvrm]) hvr_
              · exact matE_ext hext_ (matE_weight hwm kk hrec)
            split at hmul
            · cases hmul
            next s1h e0 hH0 =>
            split at hmul
            · cases hmul
            next s2h e1 hH1 =>
            split at hmul
            · cases hmul
            next si ev hcv' =>
            split at hmul
            · cases hmul
            next sj wj hmsf =>
            cases hmul
            split at hH0
            · cases hH0
            next sS0 acc0 hStep00 =>
            split at hStep00
            · cases hStep00
            next sm0 p0 hM00 =>
            split at hH0
            · cases hH0
            next sm1 p1 hM01 =>
            split at hH1
            · cases hH1
            next sS1 acc1 hStep10 =>
            split at hStep10
            · cases hStep10
            next sm2 p2 hM10 =>
            split at hH1
            · cases hH1
            next sm3 p3 hM11 =>
            obtain ⟨hinv1, hext1, hwf1, hb1'⟩ :=
              ih hinv hkk
                (by
                  split
                  · next hc => exact hExp _ NodesExt.rfl hc _
                  · next hc =>
                    split
                    · exact hSkip _ NodesExt.rfl hc
                    · exact matE_of_zero rfl)
                (hVE s NodesExt.rfl 0) hM00
            obtain ⟨hinv2, hext2, hwf2, hb2'⟩ :=
              addQ_pres fuel hinv1 hkk (vecE_of_zero rfl) hwf1 hStep00
            have hx2 := hext1.trans hext2
            obtain ⟨hinv3, hext3, hwf3, hb3'⟩ :=
              ih hinv2 hkk
                (by
                  split
                  · next hc => exact hExp _ hx2 hc _
                  · next hc =>
                    split
                    · exact hSkip _ hx2 hc
                    · exact matE_of_zero rfl)
                (hVE sS0 hx2 1) hM01
            obtain ⟨hinv4, hext4, hwf4, hb4'⟩ :=
              addQ_pres fuel hinv3 hkk (vecE_ext hext3 hwf2) hwf3 hH0
            have hx4 := hx2.trans (hext3.trans hext4)
            obtain ⟨hinv5, hext5, hwf5, hb5'⟩ :=
              ih hinv4 hkk
                (by
                  split
                  · next hc => exact hExp _ hx4 hc _
                  · next hc =>
                    split
                    · exact hSkip _ hx4 hc
                    · exact matE_of_zero rfl)
                (hVE s1h hx4 0) hM10
            obtain ⟨hinv6, hext6, hwf6, hb6'⟩ :=
              addQ_pres fuel hinv5 hkk (vecE_of_zero rfl) hwf5 hStep10
            have hx6 := hx4.trans (hext5.trans hext6)
            obtain ⟨hinv7, hext7, hwf7, hb7'⟩ :=
              ih hinv6 hkk
                (by
                  split
                  · next hc => exact hExp _ hx6 hc _
                  · next hc =>
                    split
                    · exact hSkip _ hx6 hc
                    · exact matE_of_zero rfl)
                (hVE sS1 hx6 1) hM11
            obtain ⟨hinv8, hext8, hwf8, hb8'⟩ :=
              addQ_pres fuel hinv7 hkk (vecE_ext hext7 hwf6) hwf7 hH1
            have hx8 := hx6.trans (hext7.trans hext8)
            have hwfe0 : vecE s2h.nodes term n kk e0 = true :=
              vecE_ext ((hext5.trans hext6).trans (hext7.trans hext8)) hwf4
            have hbe0 : e0.dest < s2h.nodes.length :=
              lt_of_lt_of_le hb4' ((hext5.trans hext6).trans (hext7.trans hext8)).len_le
            obtain ⟨hinv9, hext9, hwf9, hb9'⟩ := createVertex_vec hinv8
              (by
                intro ed hed
                rcases List.mem_cons.mp hed with hed | hed
                · subst hed
                  exact hbe0
                · have : ed = e1 := by simpa using hed
                  subst this
                  exact hb8')
              (by
                intro ed hed
                rcases List.mem_cons.mp hed with hed | hed
                · subst hed
                  exact hwfe0
                · have : ed = e1 := by simpa using hed
                  subst this
                  exact hwf8)
              (by rfl) (by rfl) hcv'
            obtain ⟨hinv10, hnodes10, hz10⟩ := EngineInv_mulS hinv9 hmsf
            have hextFin : NodesExt s.nodes sj.nodes :=
              (hx8.trans hext9).trans (NodesExt.of_eq hnodes10)
            have hwfres : vecE sj.nodes term n (kk + 1) ⟨ev.dest, wj⟩ = true := by
              by_cases hwj : wj = 0
              · exact vecE_of_zero hwj
              · have hevw : ev.weight ≠ 0 := by
                  intro h0
                  exact hwj (hz10 (by rw [← h0]; simp))
                rw [hnodes10]
                exact vecE_weight hwf9 hevw
            have hbres : ev.dest < sj.nodes.length := by
              rw [hnodes10]
              exact hb9'
            refine ⟨?_, hextFin, hwfres, hbres⟩
            obtain ⟨g1, g2, g3, g4, g5, g6, g7⟩ := hinv10
            refine ⟨g1, g2, g3, g4, g5, g6, ?_⟩
            intro dm' dv' wm' wv' e'' hlk
            simp only [look] at hlk
            split at hlk
            · next hkey =>
              cases hlk
              simp only [Prod.mk.injEq] at hkey
              obtain ⟨hk0, hk1, hk2, hk3⟩ := hkey
              subst hk0
              subst hk1
              subst hk2
              subst hk3
              have hgv' : getNd sj.nodes v.dest = getNd s.nodes v.dest :=
                getNd_ext hextFin hbv
              refine ⟨lt_of_lt_of_le hbm hextFin.len_le,
                lt_of_lt_of_le hbv hextFin.len_le, hbres, ?_⟩
              intro k' hk' hwm' hwv' hne' hmm' hvv'
              rcases k' with _ | j
              · exfalso
                rcases vecE_zero_iff.mp hvv' with h0 | hterm'
                · exact hwv' h0
                · exact hvne hterm'
              · obtain ⟨_, hvrj, _, _⟩ := (vecE_succ_iff.mp hvv').resolve_left hwv'
                have hpin : j = kk := by
                  rw [hgv', hvrv] at hvrj
                  omega
                subst hpin
                exact hwfres
            · exact g7 _ _ _ _ _ hlk


/-! ### Top-level multiply call (level argument omitted) -/

lemma multiplyQ_none_eq (fuel : Nat) (s : St) (m v : Ed) (term : Nat)
    (h : ¬ m.weight = 0 → ¬ v.weight = 0 → ¬ (getN s m.dest).edges = [] →
      min (getN s m.dest).vr (getN s v.dest).vr = 0) :
    multiplyQ fuel s m v term none = multiplyQ fuel s m v term (some 0) := by
  cases fuel with
  | zero => rfl
  | succ fuel =>
    simp only [multiplyQ, Option.getD_none, Option.getD_some]
    split
    · rfl
    · next hwz =>
      simp only [Bool.or_eq_true, decide_eq_true_eq, not_or] at hwz
      split
      · rfl
      · next hmne =>
        rw [h hwz.1 hwz.2 hmne]

lemma multiplyQ_top {term n : Nat} {fuel : Nat} {s : St} {m v : Ed} {s' : St} {e' : Ed}
    (hinv : EngineInv s term n)
    (hm : matE s.nodes term n n m = true) (hv : vecE s.nodes term n n v = true)
    (hmul : multiplyQ fuel s m v term none = .ok (s', e')) :
    EngineInv s' term n ∧ NodesExt s.nodes s'.nodes ∧
      vecE s'.nodes term n n e' = true ∧ e'.dest < s'.nodes.length := by
  have hte : (getNd s.nodes term).edges = [] := hinv.2.2.1
  have heq := multiplyQ_none_eq fuel s m v term (by
    intro hwm hwv hmne
    rcases n with _ | nn
    · exfalso
      rcases matE_zero_iff.mp hm with h0 | hterm
      · exact hwm h0
      · exact hmne (by rw [getN_eq_getNd, hterm]; exact hte)
    · obtain ⟨hbv, hvrv, _, _⟩ := (vecE_succ_iff.mp hv).resolve_left hwv
      have hvv : (getN s v.dest).vr = ((nn + 1 - (nn + 1) : Nat) : Int) := by
        rw [getN_eq_getNd]
        exact hvrv
      rcases (matE_succ_iff.mp hm).resolve_left hwm with hterm |
          ⟨hbm, ⟨hvrm, _, _⟩ | ⟨hgt, _⟩⟩
      · exact absurd (by rw [getN_eq_getNd, hterm]; exact hte) hmne
      · rw [getN_eq_getNd, hvrm, hvv]
        simp
      · rw [hvv]
        rw [getN_eq_getNd]
        have h0 : ((nn + 1 - (nn + 1) : Nat) : Int) = 0 := by omega
        rw [h0] at hgt ⊢
        omega)
  have hmul' : multiplyQ fuel s m v term (some ((n - n : Nat) : Int)) = .ok (s', e') := by
    rw [show ((n - n : Nat) : Int) = 0 by omega, ← heq]
    exact hmul
  exact multiplyQ_pres fuel hinv le_rfl hm hv hmul'

/-! ### The ground state is a well-formed length-`n` vector diagram -/

lemma groundFold_vec {term n : Nat} : ∀ (m : Nat) {s : St} {e : Ed} {s' : St} {e' : Ed},
    EngineInv s term n → m ≤ n →
    vecE s.nodes term n (n - m) e = true → e.dest < s.nodes.length →
    groundFold s term e ((List.range m).reverse.map (fun j => (j : Int))) = .ok (s', e') →
    EngineInv s' term n ∧ vecE s'.nodes term n n e' = true ∧
      e'.dest < s'.nodes.length := by
  intro m
  induction m with
  | zero =>
    intro s e s' e' hinv _ hv hb h
    simp only [List.range_zero, List.reverse_nil, List.map_nil, groundFold] at h
    cases h
    exact ⟨hinv, hv, hb⟩
  | succ m ihm =>
    intro s e s' e' hinv hm hv hb h
    rw [List.range_succ, List.reverse_append] at h
    simp only [List.reverse_cons, List.reverse_nil, List.nil_append,
      List.singleton_append, List.map_cons, groundFold] at h
    split at h
    · cases h
    next s1 e1 hcv =>
    have hle : n - (m + 1) + 1 = n - m := by omega
    obtain ⟨hinv1, hext1, hwf1, hb1⟩ := createVertex_vec hinv
      (by
        intro ed hed
        rcases List.mem_cons.mp hed with hed | hed
        · subst hed
          exact hb
        · have : ed = (⟨term, 0⟩ : Ed) := by simpa using hed
          subst this
          exact hinv.2.1)
      (by
        intro ed hed
        rcases List.mem_cons.mp hed with hed | hed
        · subst hed
          exact hv
        · have : ed = (⟨term, 0⟩ : Ed) := by simpa using hed
          subst this
          exact vecE_of_zero rfl)
      (by rfl) (by omega) hcv
    rw [hle] at hwf1
    exact ihm hinv1 (by omega) hwf1 hb1 h

/-- `new QuantumCircuit(n)` establishes the circuit invariant. -/
lemma newQC_CInv {n : Nat} {c : QC} (h : newQC n = .ok c) : CInv c := by
  simp only [newQC] at h
  split at h
  · cases h
  next hn1 =>
  have hct : createTerminal initSt n =
      ({ initSt with nodes := [⟨(n : Int), [], ((1 : ℚ), (0 : ℚ))⟩] }, 0) := rfl
  rw [hct] at h
  simp only [groundState] at h
  have hvr : (getN { initSt with
      nodes := [⟨(n : Int), [], ((1 : ℚ), (0 : ℚ))⟩] } 0).vr.toNat = n := by
    simp [getN, getNd, initSt]
  rw [hvr] at h
  split at h
  · cases h
  next s2 g hgs =>
  cases h
  have hinv0 : EngineInv { initSt with
      nodes := [⟨(n : Int), [], ((1 : ℚ), (0 : ℚ))⟩] } 0 n := by
    refine ⟨?_, by simp, by rfl, ?_, ?_, ?_, ?_⟩
    · intro nd hnd e he
      simp only [List.mem_singleton] at hnd
      subst hnd
      simp at he
    · intro d v hv
      simp [look, initSt] at hv
    · intro l v hv _
      simp [look, initSt] at hv
    · intro d0 d1 w0 w1 e hv
      simp [look, initSt] at hv
    · intro dm dv wm wv e hv
      simp [look, initSt] at hv
  obtain ⟨hinv2, hwf2, hb2⟩ := groundFold_vec n hinv0 le_rfl
    (by
      have : n - n = 0 := by omega
      rw [this]
      exact vecE_zero_iff.mpr (Or.inr rfl))
    (by simp) hgs
  refine ⟨?_, hinv2, hwf2⟩
  show 1 ≤ n
  omega


/-! ### Gate construction: control wrapping -/

lemma getD_set_ne {α : Type} (l : List α) {m k : Nat} (h : m ≠ k) (a d : α) :
    (l.set m a).getD k d = l.getD k d := by
  simp only [List.getD_eq_getElem?_getD]
  rw [List.getElem?_set_ne h]

lemma wrapQuadrant_pres {term n : Nat} {s : St} {cIdx : Int} {cState : Char}
    {root : List Ed} {i j k : Nat} {s' : St} {root' : List Ed}
    (hinv : EngineInv s term n)
    (hmatX : matE s.nodes term n k (root.getD (2 * i + j) ⟨0, 0⟩) = true)
    (hztX : (root.getD (2 * i + j) ⟨0, 0⟩).weight = 0 →
      (root.getD (2 * i + j) ⟨0, 0⟩).dest = term)
    (hbX : (root.getD (2 * i + j) ⟨0, 0⟩).dest < s.nodes.length)
    (hlvl : cIdx = ((n - (k + 1) : Nat) : Int))
    (hwq : wrapQuadrant s term cIdx cState root i j = .ok (s', root')) :
    EngineInv s' term n ∧ NodesExt s.nodes s'.nodes ∧
      ∃ e, root' = root.set (2 * i + j) e ∧ matE s'.nodes term n (k + 1) e = true ∧
        (e.weight = 0 → e.dest = term) ∧ e.dest < s'.nodes.length := by
  have htl : term < s.nodes.length := hinv.2.1
  simp only [wrapQuadrant] at hwq
  split at hwq
  · cases hwq
  next s1 e hcv =>
  cases hwq
  obtain ⟨hinv1, hext1, hwf1, hb1, hzt1⟩ := createVertex_mat hinv
    (by
      intro ed hed
      rcases List.mem_or_eq_of_mem_set hed with hed | hed
      · rcases List.mem_or_eq_of_mem_set hed with hed | hed
        · have : ed = (⟨term, 0⟩ : Ed) := by
            simp only [List.mem_cons, List.not_mem_nil, or_false, or_self] at hed
            exact hed
          subst this
          exact htl
        · subst hed
          exact hbX
      · subst hed
        exact htl)
    (by
      intro ed hed
      rcases List.mem_or_eq_of_mem_set hed with hed | hed
      · rcases List.mem_or_eq_of_mem_set hed with hed | hed
        · have : ed = (⟨term, 0⟩ : Ed) := by
            simp only [List.mem_cons, List.not_mem_nil, or_false, or_self] at hed
            exact hed
          subst this
          exact matE_of_term rfl
        · subst hed
          exact hmatX
      · subst hed
        exact matE_of_term rfl)
    (by
      intro ed hed
      rcases List.mem_or_eq_of_mem_set hed with hed | hed
      · rcases List.mem_or_eq_of_mem_set hed with hed | hed
        · have : ed = (⟨term, 0⟩ : Ed) := by
            simp only [List.mem_cons, List.not_mem_nil, or_false, or_self] at hed
            exact hed
          subst this
          intro _
          rfl
        · subst hed
          exact hztX
      · subst hed
        intro _
        rfl)
    (by simp)
    hlvl hcv
  exact ⟨hinv1, hext1, e, rfl, hwf1, hzt1, hb1⟩

lemma wrapControl_pres {term n : Nat} {s : St} {cIdx : Int} {cState : Char}
    {root : List Ed} {k : Nat} {s' : St} {root' : List Ed}
    (hinv : EngineInv s term n)
    (hlen : root.length = 4)
    (hroot : ∀ ed ∈ root, matE s.nodes term n k ed = true ∧
      (ed.weight = 0 → ed.dest = term) ∧ ed.dest < s.nodes.length)
    (hlvl : cIdx = ((n - (k + 1) : Nat) : Int))
    (hwc : wrapControl s term cIdx cState root = .ok (s', root')) :
    EngineInv s' term n ∧ NodesExt s.nodes s'.nodes ∧ root'.length = 4 ∧
      ∀ ed ∈ root', matE s'.nodes term n (k + 1) ed = true ∧
        (ed.weight = 0 → ed.dest = term) ∧ ed.dest < s'.nodes.length := by
  simp only [wrapControl] at hwc
  split at hwc
  · cases hwc
  next s1 r1 hq1 =>
  split at hwc
  · cases hwc
  next s2 r2 hq2 =>
  split at hwc
  · cases hwc
  next s3 r3 hq3 =>
  have h04 : (0 : Nat) < root.length := by omega
  have h14 : (1 : Nat) < root.length := by omega
  have h24 : (2 : Nat) < root.length := by omega
  have h34 : (3 : Nat) < root.length := by omega
  obtain ⟨hG0, hZ0, hB0⟩ := hroot _ (getD_mem h04)
  obtain ⟨hG1, hZ1, hB1⟩ := hroot _ (getD_mem h14)
  obtain ⟨hG2, hZ2, hB2⟩ := hroot _ (getD_mem h24)
  obtain ⟨hG3, hZ3, hB3⟩ := hroot _ (getD_mem h34)
  obtain ⟨hinvA, hextA, eA, hrA, hmA, hzA, hbA⟩ := wrapQuadrant_pres hinv hG0 hZ0 hB0 hlvl hq1
  subst hrA
  have hg1 : (root.set (2 * 0 + 0) eA).getD (2 * 0 + 1) (⟨0, 0⟩ : Ed) =
      root.getD 1 (⟨0, 0⟩ : Ed) := getD_set_ne root (by omega) eA ⟨0, 0⟩
  obtain ⟨hinvB, hextB, eB, hrB, hmB, hzB, hbB⟩ := wrapQuadrant_pres hinvA
    (by rw [hg1]; exact matE_ext hextA hG1)
    (by rw [hg1]; exact hZ1)
    (by rw [hg1]; exact lt_of_lt_of_le hB1 hextA.len_le)
    hlvl hq2
  subst hrB
  have hg2 : ((root.set (2 * 0 + 0) eA).set (2 * 0 + 1) eB).getD (2 * 1 + 0)
      (⟨0, 0⟩ : Ed) = root.getD 2 (⟨0, 0⟩ : Ed) := by
    rw [getD_set_ne _ (by omega), getD_set_ne _ (by omega)]
  have hxB := hextA.trans hextB
  obtain ⟨hinvC, hextC, eC, hrC, hmC, hzC, hbC⟩ := wrapQuadrant_pres hinvB
    (by rw [hg2]; exact matE_ext hxB hG2)
    (by rw [hg2]; exact hZ2)
    (by rw [hg2]; exact lt_of_lt_of_le hB2 hxB.len_le)
    hlvl hq3
  subst hrC
  have hg3 : (((root.set (2 * 0 + 0) eA).set (2 * 0 + 1) eB).set (2 * 1 + 0) eC).getD
      (2 * 1 + 1) (⟨0, 0⟩ : Ed) = root.getD 3 (⟨0, 0⟩ : Ed) := by
    rw [getD_set_ne _ (by omega), getD_set_ne _ (by omega), getD_set_ne _ (by omega)]
  have hxC := hxB.trans hextC
  obtain ⟨hinvD, hextD, eD, hrD, hmD, hzD, hbD⟩ := wrapQuadrant_pres hinvC
    (by rw [hg3]; exact matE_ext hxC hG3)
    (by rw [hg3]; exact hZ3)
    (by rw [hg3]; exact lt_of_lt_of_le hB3 hxC.len_le)
    hlvl hwc
  subst hrD
  have hxD := hxC.trans hextD
  refine ⟨hinvD, hxD, by simp [hlen], ?_⟩
  intro ed hed
  rcases List.mem_or_eq_of_mem_set hed with hed | hed
  · rcases List.mem_or_eq_of_mem_set hed with hed | hed
    · rcases List.mem_or_eq_of_mem_set hed with hed | hed
      · rcases List.mem_or_eq_of_mem_set hed with hed | hed
        · obtain ⟨hGx, hZx, hBx⟩ := hroot _ hed
          exact ⟨matE_ext hxD (matE_weaken (k + 1) k (Nat.le_succ k) _ hGx), hZx,
            lt_of_lt_of_le hBx hxD.len_le⟩
        · subst hed
          exact ⟨matE_ext (hextB.trans (hextC.trans hextD)) hmA, hzA,
            lt_of_lt_of_le hbA (hextB.trans (hextC.trans hextD)).len_le⟩
      · subst hed
        exact ⟨matE_ext (hextC.trans hextD) hmB, hzB,
          lt_of_lt_of_le hbB (hextC.trans hextD).len_le⟩
    · subst hed
      exact ⟨matE_ext hextD hmC, hzC, lt_of_lt_of_le hbC hextD.len_le⟩
  · subst hed
    exact ⟨hmD, hzD, hbD⟩


/-! ### Gate construction: the control loops and the full construct -/

lemma constructBelow_pres {term n : Nat} : ∀ (cs : List (Int × Char)) (K B : Nat)
    {s : St} {root : List Ed} {s' : St} {root' : List Ed},
    EngineInv s term n → root.length = 4 → K ≤ B → B ≤ n →
    (∀ ed ∈ root, matE s.nodes term n K ed = true ∧
      (ed.weight = 0 → ed.dest = term) ∧ ed.dest < s.nodes.length) →
    (∀ c ∈ cs, 0 ≤ c.1 ∧ c.1 < (n : Int) ∧ K ≤ n - 1 - c.1.toNat ∧
      n - c.1.toNat ≤ B) →
    cs.Pairwise (fun a b => b.1 < a.1) →
    constructBelow s term root cs = .ok (s', root') →
    EngineInv s' term n ∧ NodesExt s.nodes s'.nodes ∧ root'.length = 4 ∧
      ∀ ed ∈ root', matE s'.nodes term n B ed = true ∧
        (ed.weight = 0 → ed.dest = term) ∧ ed.dest < s'.nodes.length := by
  intro cs
  induction cs with
  | nil =>
    intro K B s root s' root' hinv hlen hKB hBn hroot _ _ h
    simp only [constructBelow] at h
    cases h
    refine ⟨hinv, NodesExt.rfl, hlen, ?_⟩
    intro ed hed
    obtain ⟨hG, hZ, hB⟩ := hroot _ hed
    exact ⟨matE_weaken B K hKB _ hG, hZ, hB⟩
  | cons c0 t ihc =>
    intro K B s root s' root' hinv hlen hKB hBn hroot hcs hpw h
    obtain ⟨hc00, hc01, hc02, hc03⟩ := hcs c0 (List.mem_cons_self c0 t)
    simp only [constructBelow] at h
    split at h
    · cases h
    next s1 root1 hwc =>
    have hk1 : (n - 1 - c0.1.toNat) + 1 = n - c0.1.toNat := by omega
    obtain ⟨hinv1, hext1, hlen1, hroot1⟩ := wrapControl_pres hinv hlen
      (by
        intro ed hed
        obtain ⟨hG, hZ, hB⟩ := hroot _ hed
        exact ⟨matE_weaken (n - 1 - c0.1.toNat) K hc02 _ hG, hZ, hB⟩)
      (by omega) hwc
    rw [hk1] at hroot1
    obtain ⟨hinv2, hext2, hlen2, hroot2⟩ := ihc (n - c0.1.toNat) B hinv1 hlen1
      hc03 hBn hroot1
      (by
        intro c hc
        obtain ⟨h1, h2, _, h4⟩ := hcs c (List.mem_cons_of_mem c0 hc)
        have hlt : c.1 < c0.1 := (List.pairwise_cons.mp hpw).1 c hc
        refine ⟨h1, h2, by omega, h4⟩)
      (List.pairwise_cons.mp hpw).2 h
    exact ⟨hinv2, hext1.trans hext2, hlen2, hroot2⟩

lemma constructAbove_pres {term n : Nat} : ∀ (cs : List (Int × Char)) (K : Nat)
    {s : St} {e : Ed} {s' : St} {e' : Ed},
    EngineInv s term n → K ≤ n →
    matE s.nodes term n K e = true → (e.weight = 0 → e.dest = term) →
    e.dest < s.nodes.length →
    (∀ c ∈ cs, 0 ≤ c.1 ∧ c.1 < (n : Int) ∧ K ≤ n - 1 - c.1.toNat) →
    cs.Pairwise (fun a b => b.1 < a.1) →
    constructAbove s term e cs = .ok (s', e') →
    EngineInv s' term n ∧ NodesExt s.nodes s'.nodes ∧
      matE s'.nodes term n n e' = true ∧ (e'.weight = 0 → e'.dest = term) ∧
      e'.dest < s'.nodes.length := by
  intro cs
  induction cs with
  | nil =>
    intro K s e s' e' hinv hKn hG hZ hB _ _ h
    simp only [constructAbove] at h
    cases h
    exact ⟨hinv, NodesExt.rfl, matE_weaken n K hKn _ hG, hZ, hB⟩
  | cons c0 t ihc =>
    intro K s e s' e' hinv hKn hG hZ hB hcs hpw h
    obtain ⟨hc00, hc01, hc02⟩ := hcs c0 (List.mem_cons_self c0 t)
    have htl : term < s.nodes.length := hinv.2.1
    simp only [constructAbove] at h
    split at h
    · cases h
    next s1 e1 hcv =>
    have hk1 : (n - 1 - c0.1.toNat) + 1 = n - c0.1.toNat := by omega
    obtain ⟨hinv1, hext1, hwf1, hb1, hzt1⟩ := createVertex_mat hinv
      (by
        intro ed hed
        rcases List.mem_or_eq_of_mem_set hed with hed | hed
        · rcases List.mem_or_eq_of_mem_set hed with hed | hed
          · have : ed = (⟨term, 0⟩ : Ed) := by
              simp only [List.mem_cons, List.not_mem_nil, or_false, or_self] at hed
              exact hed
            subst this
            exact htl
          · subst hed
            exact hB
        · subst hed
          exact htl)
      (by
        intro ed hed
        show matE s.nodes term n (n - 1 - c0.1.toNat) ed = true
        rcases List.mem_or_eq_of_mem_set hed with hed | hed
        · rcases List.mem_or_eq_of_mem_set hed with hed | hed
          · have : ed = (⟨term, 0⟩ : Ed) := by
              simp only [List.mem_cons, List.not_mem_nil, or_false, or_self] at hed
              exact hed
            subst this
            exact matE_of_term rfl
          · subst hed
            exact matE_weaken (n - 1 - c0.1.toNat) K hc02 _ hG
        · subst hed
          exact matE_of_term rfl)
      (by
        intro ed hed
        rcases List.mem_or_eq_of_mem_set hed with hed | hed
        · rcases List.mem_or_eq_of_mem_set hed with hed | hed
          · have : ed = (⟨term, 0⟩ : Ed) := by
              simp only [List.mem_cons, List.not_mem_nil, or_false, or_self] at hed
              exact hed
            subst this
            intro _
            rfl
          · subst hed
            exact hZ
        · subst hed
          intro _
          rfl)
      (by simp)
      (by omega) hcv
    rw [hk1] at hwf1
    obtain ⟨hinv2, hext2, hwf2, hzt2, hb2⟩ := ihc (n - c0.1.toNat) hinv1
      (by omega) hwf1 hzt1 hb1
      (by
        intro c hc
        obtain ⟨h1, h2, _⟩ := hcs c (List.mem_cons_of_mem c0 hc)
        have hlt : c.1 < c0.1 := (List.pairwise_cons.mp hpw).1 c hc
        refine ⟨h1, h2, by omega⟩)
      (List.pairwise_cons.mp hpw).2 h
    exact ⟨hinv2, NodesExt.trans hext1 hext2, hwf2, hzt2, hb2⟩

lemma dropWhile_head_false {α : Type} (p : α → Bool) (l : List α) {a : α} {t : List α}
    (h : l.dropWhile p = a :: t) : p a = false := by
  have hh := List.head?_dropWhile_not p l
  rw [h] at hh
  simpa using hh

lemma construct_pres {term n : Nat} {s : St} {mat : List Nat} {target : Int}
    {controls : List (Int × Char)} {s' : St} {gq : Ed}
    (hinv : EngineInv s term n)
    (hmat : mat.length = 4)
    (ht0 : 0 ≤ target) (htn : target < (n : Int))
    (hcb : ∀ c ∈ controls, 0 ≤ c.1 ∧ c.1 < (n : Int) ∧ c.1 ≠ target)
    (hnd : (controls.map Prod.fst).Nodup)
    (hc : construct s mat target controls term = .ok (s', gq)) :
    EngineInv s' term n ∧ NodesExt s.nodes s'.nodes ∧
      matE s'.nodes term n n gq = true ∧ (gq.weight = 0 → gq.dest = term) ∧
      gq.dest < s'.nodes.length := by
  have htl : term < s.nodes.length := hinv.2.1
  haveI hTot : IsTotal (Int × Char) (fun a b => b.1 ≤ a.1) :=
    ⟨fun a b => le_total b.1 a.1⟩
  haveI hTrans : IsTrans (Int × Char) (fun a b => b.1 ≤ a.1) :=
    ⟨fun a b c h1 h2 => le_trans h2 h1⟩
  have hperm := List.perm_insertionSort (fun a b : Int × Char => b.1 ≤ a.1) controls
  have hsort : (List.insertionSort (fun a b : Int × Char => b.1 ≤ a.1)
      controls).Pairwise (fun a b => b.1 ≤ a.1) :=
    List.sorted_insertionSort (fun a b : Int × Char => b.1 ≤ a.1) controls
  have hndS : ((List.insertionSort (fun a b : Int × Char => b.1 ≤ a.1)
      controls).map Prod.fst).Nodup :=
    ((hperm.map Prod.fst).nodup_iff).mpr hnd
  have hneS := (List.pairwise_map).mp hndS
  have hstrict : (List.insertionSort (fun a b : Int × Char => b.1 ≤ a.1)
      controls).Pairwise (fun a b => b.1 < a.1) :=
    (hsort.and hneS).imp (fun h => lt_of_le_of_ne h.1 h.2.symm)
  have hmemS : ∀ c ∈ List.insertionSort (fun a b : Int × Char => b.1 ≤ a.1) controls,
      0 ≤ c.1 ∧ c.1 < (n : Int) ∧ c.1 ≠ target :=
    fun c hc => hcb c (hperm.mem_iff.mp hc)
  simp only [construct] at hc
  split at hc
  · cases hc
  next s1 root1 hblw =>
  split at hc
  · cases hc
  next s2 entry hcv =>
  have hB1 : n - 1 - target.toNat + 1 = n - target.toNat := by omega
  obtain ⟨hinv1, hext1, hlen1, hroot1⟩ := constructBelow_pres _ 0 (n - 1 - target.toNat)
    hinv (by simp [hmat]) (by omega) (by omega)
    (by
      intro ed hed
      obtain ⟨el, _, hel⟩ := List.mem_map.mp hed
      subst hel
      exact ⟨matE_of_term rfl, fun _ => rfl, htl⟩)
    (by
      intro c hcmem
      have hcin := (List.takeWhile_sublist _).subset hcmem
      obtain ⟨h1, h2, _⟩ := hmemS c hcin
      have hgt : target < c.1 := by
        have := List.mem_takeWhile_imp hcmem
        simpa using this
      refine ⟨h1, h2, by omega, by omega⟩)
    (hstrict.sublist (List.takeWhile_sublist _)) hblw
  obtain ⟨hinv2, hext2, hwf2, hb2, hzt2⟩ := createVertex_mat hinv1
    (fun ed hed => (hroot1 ed hed).2.2)
    (fun ed hed => (hroot1 ed hed).1)
    (fun ed hed => (hroot1 ed hed).2.1)
    hlen1 (by omega) hcv
  rw [hB1] at hwf2
  have habove : ∀ c ∈ (List.insertionSort (fun a b : Int × Char => b.1 ≤ a.1)
      controls).dropWhile (fun c : Int × Char => decide (target < c.1)), c.1 < target := by
    cases hd : (List.insertionSort (fun a b : Int × Char => b.1 ≤ a.1)
        controls).dropWhile (fun c : Int × Char => decide (target < c.1)) with
    | nil => intro c hcmem; simp at hcmem
    | cons a0 t0 =>
      have hpa0 : ¬ target < a0.1 := by
        have := dropWhile_head_false _ _ hd
        simpa using this
      have ha0mem : a0 ∈ List.insertionSort (fun a b : Int × Char => b.1 ≤ a.1)
          controls := by
        have hsub := @List.dropWhile_sublist (Int × Char)
          (List.insertionSort (fun a b : Int × Char => b.1 ≤ a.1) controls)
          (fun c : Int × Char => decide (target < c.1))
        rw [hd] at hsub
        exact hsub.subset (List.mem_cons_self a0 t0)
      have ha0 : a0.1 < target :=
        lt_of_le_of_ne (not_lt.mp hpa0) (hmemS a0 ha0mem).2.2
      have hpwD : (a0 :: t0).Pairwise (fun a b : Int × Char => b.1 < a.1) := by
        rw [← hd]
        exact hstrict.sublist (List.dropWhile_sublist _)
      intro c hcmem
      rcases List.mem_cons.mp hcmem with hcmem | hcmem
      · subst hcmem
        exact ha0
      · exact lt_trans ((List.pairwise_cons.mp hpwD).1 c hcmem) ha0
  obtain ⟨hinv3, hext3, hwf3, hzt3, hb3⟩ := constructAbove_pres _ (n - target.toNat)
    hinv2 (by omega) hwf2 hzt2 hb2
    (by
      intro c hcmem
      have hcin := (List.dropWhile_sublist
        (fun c : Int × Char => decide (target < c.1))).subset hcmem
      obtain ⟨h1, h2, _⟩ := hmemS c hcin
      have hlt := habove c hcmem
      refine ⟨h1, h2, by omega⟩)
    (hstrict.sublist (List.dropWhile_sublist _)) hc
  exact ⟨hinv3, NodesExt.trans (NodesExt.trans hext1 hext2) hext3, hwf3, hzt3, hb3⟩


/-! ### Parallel uncontrolled steps -/

lemma scale_pres {term n : Nat} {e : Ed} : ∀ (r : List Nat) (acc : List Nat)
    {s : St} {s' : St} {ws : List Nat},
    EngineInv s term n →
    (∀ w ∈ acc, e.weight = 0 → w = 0) →
    stepFold.scale e s acc r = .ok (s', ws) →
    EngineInv s' term n ∧ s'.nodes = s.nodes ∧
      (∀ w ∈ ws, e.weight = 0 → w = 0) ∧ ws.length = acc.length + r.length := by
  intro r
  induction r with
  | nil =>
    intro acc s s' ws hinv hacc h
    simp only [stepFold.scale] at h
    cases h
    exact ⟨hinv, rfl, fun w hw => hacc w (List.mem_reverse.mp hw), by simp⟩
  | cons el rest ih =>
    intro acc s s' ws hinv hacc h
    simp only [stepFold.scale] at h
    rcases hms : mulS s [el, e.weight] with er | ⟨s1, w⟩
    · rw [hms] at h
      cases h
    · rw [hms] at h
      obtain ⟨hinv1, hnodes1, hz1⟩ := EngineInv_mulS hinv hms
      obtain ⟨hinv2, hnodes2, hws, hlen⟩ := ih (w :: acc) hinv1
        (by
          intro w' hw' hez
          rcases List.mem_cons.mp hw' with hw' | hw'
          · subst hw'
            exact hz1 (by rw [hez]; simp)
          · exact hacc w' hw' hez)
        h
      refine ⟨hinv2, by rw [hnodes2, hnodes1], hws, ?_⟩
      simp only [List.length_cons] at hlen ⊢
      omega

lemma stepFold_pres {term n : Nat} : ∀ (gs : List (List Nat × Int)) (K : Nat)
    {s : St} {e : Ed} {s' : St} {e' : Ed},
    EngineInv s term n → K ≤ n →
    matE s.nodes term n K e = true → (e.weight = 0 → e.dest = term) →
    e.dest < s.nodes.length →
    (∀ g ∈ gs, g.1.length = 4 ∧ 0 ≤ g.2 ∧ g.2 < (n : Int) ∧
      K ≤ n - 1 - g.2.toNat) →
    gs.Pairwise (fun a b => b.2 < a.2) →
    stepFold s term e gs = .ok (s', e') →
    EngineInv s' term n ∧ NodesExt s.nodes s'.nodes ∧
      matE s'.nodes term n n e' = true ∧ (e'.weight = 0 → e'.dest = term) ∧
      e'.dest < s'.nodes.length := by
  intro gs
  induction gs with
  | nil =>
    intro K s e s' e' hinv hKn hG hZ hB _ _ h
    simp only [stepFold] at h
    cases h
    exact ⟨hinv, NodesExt.rfl, matE_weaken n K hKn _ hG, hZ, hB⟩
  | cons g0 t ihg =>
    intro K s e s' e' hinv hKn hG hZ hB hgs hpw h
    obtain ⟨hg0, hg1, hg2, hg3⟩ := hgs g0 (List.mem_cons_self g0 t)
    simp only [stepFold] at h
    split at h
    · cases h
    next s1 ws hsc =>
    obtain ⟨hinv1, hnodes1, hzw, hlenw⟩ := scale_pres _ [] hinv (by simp) hsc
    have htl1 : term < s1.nodes.length := hinv1.2.1
    have hk1 : (n - 1 - g0.2.toNat) + 1 = n - g0.2.toNat := by omega
    split at h
    · cases h
    next s2 e1 hcv =>
    obtain ⟨hinv2, hext2, hwf2, hb2, hzt2⟩ := createVertex_mat hinv1
      (by
        intro ed hed
        obtain ⟨w, hw, hed⟩ := List.mem_map.mp hed
        subst hed
        by_cases hw0 : w = 0
        · rw [if_pos hw0]
          exact htl1
        · rw [if_neg hw0]
          rw [hnodes1]
          exact hB)
      (by
        intro ed hed
        show matE s1.nodes term n (n - 1 - g0.2.toNat) ed = true
        obtain ⟨w, hw, hed⟩ := List.mem_map.mp hed
        subst hed
        by_cases hw0 : w = 0
        · exact matE_of_zero hw0
        · rw [if_neg hw0]
          by_cases hew : e.weight = 0
          · exact absurd (hzw w hw hew) hw0
          · rw [hnodes1]
            exact matE_weaken (n - 1 - g0.2.toNat) K hg3 _ (matE_weight hew K hG)
      )
      (by
        intro ed hed
        obtain ⟨w, hw, hed⟩ := List.mem_map.mp hed
        subst hed
        intro hz0
        rw [if_pos hz0])
      (by
        simp only [List.length_map]
        simp only [List.length_nil] at hlenw
        omega)
      (by omega) hcv
    rw [hk1] at hwf2
    obtain ⟨hinv3, hext3, hwf3, hzt3, hb3⟩ := ihg (n - g0.2.toNat) hinv2
      (by omega) hwf2 hzt2 hb2
      (by
        intro g hg
        obtain ⟨h1, h2, h3, _⟩ := hgs g (List.mem_cons_of_mem g0 hg)
        have hlt : g.2 < g0.2 := (List.pairwise_cons.mp hpw).1 g hg
        refine ⟨h1, h2, h3, by omega⟩)
      (List.pairwise_cons.mp hpw).2 h
    refine ⟨hinv3, ?_, hwf3, hzt3, hb3⟩
    exact NodesExt.trans (NodesExt.of_eq hnodes1)
      (NodesExt.trans hext2 hext3)

lemma uncontrolledStep_pres {term n : Nat} {s : St} {gates : List (List Nat × Int)}
    {s' : St} {e' : Ed}
    (hinv : EngineInv s term n)
    (hg : ∀ g ∈ gates, g.1.length = 4 ∧ 0 ≤ g.2 ∧ g.2 < (n : Int))
    (hnd : (gates.map Prod.snd).Nodup)
    (h : uncontrolledStep s gates term = .ok (s', e')) :
    EngineInv s' term n ∧ NodesExt s.nodes s'.nodes ∧
      matE s'.nodes term n n e' = true ∧ (e'.weight = 0 → e'.dest = term) ∧
      e'.dest < s'.nodes.length := by
  haveI hTot : IsTotal (List Nat × Int) (fun a b => b.2 ≤ a.2) :=
    ⟨fun a b => le_total b.2 a.2⟩
  haveI hTrans : IsTrans (List Nat × Int) (fun a b => b.2 ≤ a.2) :=
    ⟨fun a b c h1 h2 => le_trans h2 h1⟩
  have hperm := List.perm_insertionSort (fun a b : List Nat × Int => b.2 ≤ a.2) gates
  have hsort : (List.insertionSort (fun a b : List Nat × Int => b.2 ≤ a.2)
      gates).Pairwise (fun a b => b.2 ≤ a.2) :=
    List.sorted_insertionSort (fun a b : List Nat × Int => b.2 ≤ a.2) gates
  have hndS : ((List.insertionSort (fun a b : List Nat × Int => b.2 ≤ a.2)
      gates).map Prod.snd).Nodup :=
    ((hperm.map Prod.snd).nodup_iff).mpr hnd
  have hneS := (List.pairwise_map).mp hndS
  have hstrict : (List.insertionSort (fun a b : List Nat × Int => b.2 ≤ a.2)
      gates).Pairwise (fun a b => b.2 < a.2) :=
    (hsort.and hneS).imp (fun h => lt_of_le_of_ne h.1 h.2.symm)
  simp only [uncontrolledStep] at h
  exact stepFold_pres _ 0 hinv (by omega) (matE_of_term rfl) (fun _ => rfl) hinv.2.1
    (by
      intro g hgm
      obtain ⟨h1, h2, h3⟩ := hg g (hperm.mem_iff.mp hgm)
      exact ⟨h1, h2, h3, by omega⟩)
    hstrict h


/-! ### The public mutation routes preserve the circuit invariant -/

lemma append_CInv {fuel : Nat} {c : QC} {g : GateG} {target : Int}
    {controls : List Int} {ctrlState : String}
    (hc : CInv c) (hg : g.mat.length = 4) :
    CInv (append fuel c g target controls ctrlState).1 := by
  obtain ⟨hq1, hinv, hvec⟩ := hc
  simp only [append]
  split
  · exact ⟨hq1, hinv, hvec⟩
  next hcnt =>
  split
  · exact ⟨hq1, hinv, hvec⟩
  next hoob =>
  split
  · exact ⟨hq1, hinv, hvec⟩
  next hdup =>
  generalize (if controls ≠ [] ∧ ctrlState = "" then
    String.mk (List.replicate controls.length '1') else ctrlState) = cs0
  split
  · exact ⟨hq1, hinv, hvec⟩
  next hlencs =>
  split
  · exact ⟨hq1, hinv, hvec⟩
  next hchars =>
  split
  · exact ⟨hq1, hinv, hvec⟩
  next hisid =>
  have hlencs' : controls.length = cs0.length := not_not.mp (fun hne => hlencs hne)
  have hnd : (target :: controls).Nodup := not_not.mp hdup
  have hbnd : ∀ i ∈ target :: controls, 0 ≤ i ∧ i < (c.qubits : Int) := by
    intro i hi
    have : ¬ (i < 0 ∨ (c.qubits : Int) ≤ i) := by
      intro hbad
      exact hoob (List.any_eq_true.mpr ⟨i, hi, by simpa using hbad⟩)
    push_neg at this
    exact this
  split
  · exact ⟨hq1, hinv, hvec⟩
  next s1 gq hcon =>
  obtain ⟨hinv1, hext1, hmgq, hzgq, hbgq⟩ := construct_pres hinv hg
    (hbnd target (List.mem_cons_self _ _)).1
    (hbnd target (List.mem_cons_self _ _)).2
    (by
      intro p hp
      have hp1 := (List.mem_zip hp).1
      obtain ⟨h1, h2⟩ := hbnd p.1 (List.mem_cons_of_mem _ hp1)
      refine ⟨h1, h2, ?_⟩
      intro heq
      exact (List.nodup_cons.mp hnd).1 (heq ▸ hp1))
    (by
      rw [List.map_fst_zip]
      · exact (List.nodup_cons.mp hnd).2
      · rw [hlencs']
        exact le_of_eq rfl)
    hcon
  split
  · exact ⟨hq1, hinv, hvec⟩
  next s2 d2 hmul =>
  obtain ⟨hinv2, hext2, hvec2, hb2⟩ := multiplyQ_top hinv1 hmgq
    (vecE_ext hext1 hvec) hmul
  exact ⟨hq1, hinv2, hvec2⟩

lemma appendStep_CInv {fuel : Nat} {c : QC} {gates : List GateG}
    {qubits : List Int}
    (hc : CInv c) (hg : ∀ g ∈ gates, g.mat.length = 4) :
    CInv (appendStep fuel c gates qubits).1 := by
  obtain ⟨hq1, hinv, hvec⟩ := hc
  simp only [appendStep]
  split
  · exact ⟨hq1, hinv, hvec⟩
  next hlen =>
  split
  · exact ⟨hq1, hinv, hvec⟩
  next hcnt =>
  split
  · exact ⟨hq1, hinv, hvec⟩
  next hdup =>
  split
  · exact ⟨hq1, hinv, hvec⟩
  next hoob =>
  have hnd : qubits.Nodup := not_not.mp hdup
  have hlen' : gates.length = qubits.length := not_not.mp (fun hne => hlen hne)
  have hbnd : ∀ i ∈ qubits, 0 ≤ i ∧ i < (c.qubits : Int) := by
    intro i hi
    have : ¬ (i < 0 ∨ (c.qubits : Int) ≤ i) := by
      intro hbad
      exact hoob (List.any_eq_true.mpr ⟨i, hi, by simpa using hbad⟩)
    push_neg at this
    exact this
  split
  · exact ⟨hq1, hinv, hvec⟩
  next s1 gq hstep =>
  obtain ⟨hinv1, hext1, hmgq, hzgq, hbgq⟩ := uncontrolledStep_pres hinv
    (by
      intro p hp
      constructor
      · obtain ⟨G, hG, hG2⟩ := List.mem_map.mp (List.mem_zip hp).1
        rw [← hG2]
        exact hg G hG
      · exact hbnd p.2 (List.mem_zip hp).2)
    (by
      rw [List.map_snd_zip]
      · exact hnd
      · rw [List.length_map]
        omega)
    hstep
  split
  · exact ⟨hq1, hinv, hvec⟩
  next s2 d2 hmul =>
  obtain ⟨hinv2, hext2, hvec2, hb2⟩ := multiplyQ_top hinv1 hmgq
    (vecE_ext hext1 hvec) hmul
  exact ⟨hq1, hinv2, hvec2⟩


/-! ### Strong simulation only emits full-length basis states -/

lemma strongLoop_len {term n : Nat} : ∀ (fuel : Nat) {s : St}
    {stk : List (Nat × Nat × String)} {dec : Nat} {acc : List (String × ℚ × ℚ)}
    {s' : St} {out : List (String × ℚ × ℚ)},
    EngineInv s term n →
    (∀ x ∈ stk, ∃ f, f ≤ n ∧ vecE s.nodes term n f ⟨x.1, 1⟩ = true ∧
      x.2.2.length = n - f) →
    (∀ x ∈ acc, x.1.length = n) →
    strongLoop fuel s stk dec acc = .ok (s', out) →
    ∀ x ∈ out, x.1.length = n := by
  intro fuel
  induction fuel with
  | zero =>
    intro s stk dec acc s' out _ _ _ h
    simp only [strongLoop] at h
    cases h
  | succ fuel ih =>
    intro s stk dec acc s' out hinv hstk hacc h
    have hte : (getNd s.nodes term).edges = [] := hinv.2.2.1
    cases stk with
    | nil =>
      simp only [strongLoop] at h
      cases h
      exact hacc
    | cons top rest =>
      obtain ⟨v, w, str⟩ := top
      simp only [strongLoop] at h
      obtain ⟨f, hf, hvf0, hsl0⟩ := hstk (v, w, str) (List.mem_cons_self _ _)
      have hvf : vecE s.nodes term n f ⟨v, 1⟩ = true := hvf0
      have hsl : str.length = n - f := hsl0
      have hw1 : (1 : Nat) ≠ 0 := one_ne_zero
      split at h
      · next hterm =>
        rcases f with _ | k
        · refine ih hinv
            (fun x hx => hstk x (List.mem_cons_of_mem _ hx)) ?_ h
          intro x hx
          rcases List.mem_append.mp hx with hx | hx
          · exact hacc x hx
          · have : x = (str, roundTo (reT (getC s w)) dec,
                roundTo (imT (getC s w)) dec) := by simpa using hx
            subst this
            show str.length = n
            omega
        · exfalso
          obtain ⟨_, _, hlen20, _⟩ :=
            (vecE_succ_iff.mp hvf).resolve_left (by simp)
          have hlen2 : (getNd s.nodes v).edges.length = 2 := hlen20
          rw [getN_eq_getNd] at hterm
          rw [hterm] at hlen2
          simp at hlen2
      · next hterm =>
        rcases f with _ | k
        · exfalso
          rcases vecE_zero_iff.mp hvf with h0 | ht
          · simp at h0
          · apply hterm
            have ht' : v = term := ht
            rw [getN_eq_getNd, ht']
            exact hte
        · obtain ⟨hbv0, hvrv0, hlen20, hch0⟩ :=
            (vecE_succ_iff.mp hvf).resolve_left (by simp)
          have hlen2 : (getNd s.nodes v).edges.length = 2 := hlen20
          have hch : ∀ ed ∈ (getNd s.nodes v).edges,
              vecE s.nodes term n k ed = true := hch0
          have hmem1 : (getN s v).edges.getD 1 (⟨0, 0⟩ : Ed) ∈
              (getNd s.nodes v).edges := by
            rw [getN_eq_getNd]
            exact getD_mem (by omega)
          have hmem0 : (getN s v).edges.getD 0 (⟨0, 0⟩ : Ed) ∈
              (getNd s.nodes v).edges := by
            rw [getN_eq_getNd]
            exact getD_mem (by omega)
          have hstep : ∀ (s2 : St) (stk2 : List (Nat × Nat × String)),
              s2.nodes = s.nodes → EngineInv s2 term n →
              (∀ x ∈ stk2, ∃ f2, f2 ≤ n ∧
                vecE s2.nodes term n f2 ⟨x.1, 1⟩ = true ∧ x.2.2.length = n - f2) →
              strongLoop fuel s2 stk2 dec acc = .ok (s', out) →
              ∀ x ∈ out, x.1.length = n :=
            fun s2 stk2 _ hinv2 hstk2 hh => ih hinv2 hstk2 hacc hh
          -- invariant for a pushed child entry
          have hpush : ∀ (i : Nat), i < 2 → ∀ (w' : Nat) (pre : String),
              pre.length = 1 →
              ((getN s v).edges.getD i (⟨0, 0⟩ : Ed)).weight ≠ 0 →
              ∃ f2, f2 ≤ n ∧ vecE s.nodes term n f2
                ⟨((getN s v).edges.getD i (⟨0, 0⟩ : Ed)).dest, 1⟩ = true ∧
                (pre ++ str).length = n - f2 := by
            intro i hi w' pre hpre hwi
            refine ⟨k, by omega, ?_, ?_⟩
            · have hchi := hch ((getN s v).edges.getD i (⟨0, 0⟩ : Ed)) (by
                rw [getN_eq_getNd]
                exact getD_mem (by omega))
              exact vecE_weight hchi hwi
            · rw [String.length_append, hpre]
              omega
          -- now peel the two pushes
          by_cases h1 : ((getN s v).edges.getD 1 (⟨0, 0⟩ : Ed)).weight ≠ 0
          · rw [if_pos h1] at h
            rcases hms1 : mulS s [w, ((getN s v).edges.getD 1 (⟨0, 0⟩ : Ed)).weight]
              with er | ⟨sA, wA⟩
            · rw [hms1] at h
              cases h
            · rw [hms1] at h
              obtain ⟨hinvA, hnodesA, _⟩ := EngineInv_mulS hinv hms1
              simp only [] at h
              by_cases h0 : ((getN sA v).edges.getD 0 (⟨0, 0⟩ : Ed)).weight ≠ 0
              · rw [if_pos h0] at h
                rcases hms0 : mulS sA [w, ((getN sA v).edges.getD 0 (⟨0, 0⟩ : Ed)).weight]
                  with er | ⟨sB, wB⟩
                · rw [hms0] at h
                  cases h
                · rw [hms0] at h
                  obtain ⟨hinvB, hnodesB, _⟩ := EngineInv_mulS hinvA hms0
                  refine hstep sB _ (by rw [hnodesB, hnodesA]) hinvB ?_ h
                  intro x hx
                  rcases List.mem_cons.mp hx with hx | hx
                  · subst hx
                    have hgv : getN sA v = getN s v := by
                      simp only [getN_eq_getNd, hnodesA]
                    obtain ⟨f2, hf2, hv2, hl2⟩ := hpush 0 (by omega) wB "0" rfl
                      (by rw [← hgv]; exact h0)
                    refine ⟨f2, hf2, ?_, hl2⟩
                    rw [hnodesB, hnodesA]
                    rw [hgv]
                    exact hv2
                  rcases List.mem_cons.mp hx with hx | hx
                  · subst hx
                    obtain ⟨f2, hf2, hv2, hl2⟩ := hpush 1 (by omega) wA "1" rfl h1
                    refine ⟨f2, hf2, ?_, hl2⟩
                    rw [hnodesB, hnodesA]
                    exact hv2
                  · obtain ⟨f2, hf2, hv2, hl2⟩ := hstk x (List.mem_cons_of_mem _ hx)
                    refine ⟨f2, hf2, ?_, hl2⟩
                    rw [hnodesB, hnodesA]
                    exact hv2
              · rw [if_neg h0] at h
                refine hstep sA _ hnodesA hinvA ?_ h
                intro x hx
                rcases List.mem_cons.mp hx with hx | hx
                · subst hx
                  obtain ⟨f2, hf2, hv2, hl2⟩ := hpush 1 (by omega) wA "1" rfl h1
                  refine ⟨f2, hf2, ?_, hl2⟩
                  rw [hnodesA]
                  exact hv2
                · obtain ⟨f2, hf2, hv2, hl2⟩ := hstk x (List.mem_cons_of_mem _ hx)
                  refine ⟨f2, hf2, ?_, hl2⟩
                  rw [hnodesA]
                  exact hv2
          · rw [if_neg h1] at h
            simp only [] at h
            by_cases h0 : ((getN s v).edges.getD 0 (⟨0, 0⟩ : Ed)).weight ≠ 0
            · rw [if_pos h0] at h
              rcases hms0 : mulS s [w, ((getN s v).edges.getD 0 (⟨0, 0⟩ : Ed)).weight]
                with er | ⟨sB, wB⟩
              · rw [hms0] at h
                cases h
              · rw [hms0] at h
                obtain ⟨hinvB, hnodesB, _⟩ := EngineInv_mulS hinv hms0
                refine hstep sB _ hnodesB hinvB ?_ h
                intro x hx
                rcases List.mem_cons.mp hx with hx | hx
                · subst hx
                  obtain ⟨f2, hf2, hv2, hl2⟩ := hpush 0 (by omega) wB "0" rfl h0
                  refine ⟨f2, hf2, ?_, hl2⟩
                  rw [hnodesB]
                  exact hv2
                · obtain ⟨f2, hf2, hv2, hl2⟩ := hstk x (List.mem_cons_of_mem _ hx)
                  refine ⟨f2, hf2, ?_, hl2⟩
                  rw [hnodesB]
                  exact hv2
            · rw [if_neg h0] at h
              exact hstep s _ rfl hinv
                (fun x hx => hstk x (List.mem_cons_of_mem _ hx)) h

lemma strongSimulate_len {c : QC} {fuel dec : Nat} {s' : St}
    {out : List (String × ℚ × ℚ)}
    (hc : CInv c)
    (h : strongSimulate fuel c.st c.diagram dec = .ok (s', out)) :
    ∀ x ∈ out, x.1.length = c.qubits := by
  obtain ⟨hq1, hinv, hvec⟩ := hc
  simp only [strongSimulate] at h
  split at h
  · cases h
  next hwz =>
  split at h
  · cases h
  next hterm =>
  refine strongLoop_len fuel hinv ?_ (by simp) h
  intro x hx
  have : x = (c.diagram.dest, c.diagram.weight, "") := by simpa using hx
  subst this
  exact ⟨c.qubits, le_rfl, vecE_weight hvec hwz, by simp⟩

/-! ### Weak simulation emits full-length basis states -/

lemma weakLoop_len : ∀ (fuel : Nat) {s : St} {e : Ed} {qubits : Nat}
    {state : List Char} {amp : Nat} {g : Nat × Nat × Nat × Nat}
    {nx : (Nat × Nat × Nat × Nat) → ℚ × (Nat × Nat × Nat × Nat)}
    {s' : St} {g' : Nat × Nat × Nat × Nat} {state' : List Char} {amp' : Nat},
    weakLoop fuel s e qubits state amp g nx = .ok (s', g', state', amp') →
    state'.length = state.length := by
  intro fuel
  induction fuel with
  | zero =>
    intro s e qubits state amp g nx s' g' state' amp' h
    simp only [weakLoop] at h
    cases h
  | succ fuel ih =>
    intro s e qubits state amp g nx s' g' state' amp' h
    simp only [weakLoop] at h
    split at h
    · cases h
      rfl
    · split at h
      · cases h
      next sA ampA hms =>
      have := ih h
      rw [this, List.length_set]

lemma weakSimulate_len {fuel : Nat} {s : St} {entry : Ed} {qubits : Nat}
    {g : Nat × Nat × Nat × Nat}
    {nx : (Nat × Nat × Nat × Nat) → ℚ × (Nat × Nat × Nat × Nat)}
    {s' : St} {g' : Nat × Nat × Nat × Nat} {str : String} {re im : ℚ × ℚ}
    (h : weakSimulate fuel s entry qubits g nx = .ok (s', g', str, re, im)) :
    str.length = qubits := by
  simp only [weakSimulate] at h
  split at h
  · cases h
  split at h
  · cases h
  split at h
  · cases h
  next sA gA state amp hwl =>
  cases h
  have hlen := weakLoop_len fuel hwl
  simpa using hlen


/-- C10: every vector QMDD reachable through the public circuit API skips
levels only through zero-weight edges. `CInv` states the amended invariant:
the diagram is well-formed at depth `qubits` (`vecE`), meaning every edge of
nonzero weight points to a vector vertex exactly one level down (the terminal
at variable `n - 1`), while zero-weight edges are exempt and may jump straight
to the terminal. The invariant is established by the constructor, preserved by
`append` and `appendStep` (gate construction plus `multiply`), and as a
consequence `strongSimulate` (which never traverses zero-weight edges) and
`weakSimulate` emit only length-`n` basis-state strings. -/
theorem vector_diagram_no_skipped_levels :
    (∀ (n : Nat) (c : QC), newQC n = .ok c → CInv c) ∧
    (∀ (fuel : Nat) (c : QC) (g : GateG) (target : Int) (controls : List Int)
      (ctrlState : String), CInv c → g.mat.length = 4 →
      CInv (append fuel c g target controls ctrlState).1) ∧
    (∀ (fuel : Nat) (c : QC) (gates : List GateG) (qubits : List Int),
      CInv c → (∀ g ∈ gates, g.mat.length = 4) →
      CInv (appendStep fuel c gates qubits).1) ∧
    (∀ (fuel dec : Nat) (c : QC) (s' : St) (out : List (String × ℚ × ℚ)),
      CInv c → strongSimulate fuel c.st c.diagram dec = .ok (s', out) →
      ∀ x ∈ out, x.1.length = c.qubits) ∧
    (∀ (fuel : Nat) (c : QC) (g : Nat × Nat × Nat × Nat)
      (nx : (Nat × Nat × Nat × Nat) → ℚ × (Nat × Nat × Nat × Nat))
      (s' : St) (g' : Nat × Nat × Nat × Nat) (str : String) (re im : ℚ × ℚ),
      CInv c →
      weakSimulate fuel c.st c.diagram c.qubits g nx = .ok (s', g', str, re, im) →
      str.length = c.qubits) :=
  ⟨fun _ _ h => newQC_CInv h,
   fun _ _ _ _ _ _ hc hg => append_CInv hc hg,
   fun _ _ _ _ hc hg => appendStep_CInv hc hg,
   fun _ _ _ _ _ hc h => strongSimulate_len hc h,
   fun _ _ _ _ _ _ _ _ _ _ h => weakSimulate_len h⟩

end QOLE
